import Mathlib

/-!
# Verification of the chunk merge engine (pkg/querier/batch/merge.go)

A shallow embedding of the merge iterator: the partitioner, the per-partition
sequential chunk iterator, the Go container/heap scheduler, the batch
merge/dedup stream, and the public cursor operations (`Seek`, `Next`,
`AtTime`, `Batch`, `Err`).

Components whose source is merge.go are translated statement by statement.
Components that merge.go only calls (the sequential chunk iterator
`nonOverlappingIterator`, the merge buffers `batchStream`/`mergeStreams` and
`mergeableBatchStream`) are modelled from the specification, as marked in
their doc comments.  Go's `container/heap` operations, which merge.go drives
through `heap.Init` / `heap.Fix` / `heap.Pop`, are translated from the Go
standard library so the scheduler's exact (tie-breaking) behaviour is kept.

Machine integers: timestamps are `int64` in the source; no arithmetic is ever
performed on them (they are only compared), so they are embedded as `Int`.
Sample payloads are opaque to the merge and embedded as `Int` tags.
-/

namespace MimirBatch

/-- Mirror of `chunkenc.ValueType`: the kind of value a sample / batch holds
(`ValNone`, `ValFloat`, `ValHistogram`, `ValFloatHistogram`). -/
inductive ValueType where
  | none
  | float
  | histogram
  | floatHistogram
deriving DecidableEq, Repr

instance : Inhabited ValueType := ⟨ValueType.none⟩

/-- A decoded sample: timestamp, value kind and an opaque payload tag.
The merge engine never computes with payloads, so they are embedded as `Int`. -/
structure Sample where
  t : Int
  kind : ValueType
  v : Int
deriving DecidableEq, Repr

instance : Inhabited Sample := ⟨⟨0, ValueType.none, 0⟩⟩

/-- Mirror of `GenericChunk`: a time-bounded chunk with its decoded samples.
`corrupt` models the decode capability failing for this chunk (spec §7:
"a leaf chunk fails to decode"); a corrupt chunk yields no samples and
raises a decode error when the sequential iterator reaches it. -/
structure GenericChunk where
  MinTime : Int
  MaxTime : Int
  samples : List Sample
  corrupt : Bool := false
deriving DecidableEq, Repr

instance : Inhabited GenericChunk := ⟨⟨0, 0, [], false⟩⟩

/-! ## Partitioner (merge.go `partitionChunks`, `byMinTime`) -/

/-- Insert a chunk into a list sorted ascending by `MinTime`, keeping it after
any chunk with the same `MinTime`.  Models the postcondition of
`sort.Sort(byMinTime(cs))` (Go's sort is unstable; on inputs with distinct
`MinTime`s — the case all theorems below rely on — the result is the same). -/
def insertByMin (c : GenericChunk) : List GenericChunk → List GenericChunk
  | [] => [c]
  | d :: ds => if c.MinTime < d.MinTime then c :: d :: ds else d :: insertByMin c ds

/-- `sort.Sort(byMinTime(cs))`: sort chunks ascending by `MinTime`. -/
def sortByMinTime (l : List GenericChunk) : List GenericChunk :=
  l.foldr insertByMin []

/-- One step of the greedy loop in `partitionChunks`: append chunk `c` to the
first partition whose last chunk's `MaxTime` is strictly less than
`c.MinTime`; if none qualifies, open a new partition at the end. -/
def placeChunk (c : GenericChunk) : List (List GenericChunk) → List (List GenericChunk)
  | [] => [[c]]
  | p :: rest =>
    if (p.getLastD default).MaxTime < c.MinTime then (p ++ [c]) :: rest
    else p :: placeChunk c rest

/-- merge.go `partitionChunks`: sort by `MinTime`, then greedily place each
chunk in order. -/
def partitionChunks (cs : List GenericChunk) : List (List GenericChunk) :=
  (sortByMinTime cs).foldl (fun css c => placeChunk c css) []

/-! ## Sequential chunk iterator

Modelled from the spec: §4.2 "Sequential Chunk Iterator" — the
`nonOverlappingIterator`/`chunkIterator` pair is not part of the sources, so
it is modelled as a cursor over the partition's already-decoded, concatenated
sample stream, delivering batches of at most `size` samples of a single value
kind, with `AtTime` reporting the start time of the current batch and decode
errors surfacing when the iterator reaches a corrupt chunk. -/

/-- Take the leading batch from a sample stream: at most `size` samples, all
of the value kind of the first sample (spec §4.4: kinds are never mixed
within a batch). -/
def takeBatch (size : Nat) : List Sample → List Sample
  | [] => []
  | x :: xs =>
    if size = 0 then []
    else x :: ((xs.takeWhile (fun y => y.kind = x.kind)).take (size - 1))

/-- Modelled from the spec (§4.2): the state of one partition's sequential
chunk iterator.  `all` is the partition's full decoded sample stream (the
samples of its chunks up to the first corrupt one, concatenated in order),
`err` records that the partition contains a corrupt chunk after `all`,
`pos` is the start of the current batch and `blen` its length (0 = none). -/
structure ChildIt where
  all : List Sample
  err : Bool
  pos : Nat
  blen : Nat
deriving DecidableEq, Repr

instance : Inhabited ChildIt := ⟨⟨[], false, 0, 0⟩⟩

/-- Modelled from the spec (§4.2): build the sequential iterator for one
partition.  Samples of chunks after the first corrupt chunk are unreachable. -/
def newChildIt (partition : List GenericChunk) : ChildIt :=
  { all := ((partition.takeWhile (fun c => !c.corrupt)).map GenericChunk.samples).flatten
    err := partition.any GenericChunk.corrupt
    pos := 0
    blen := 0 }

/-- The current batch of a child iterator. -/
def childBatch (c : ChildIt) : List Sample :=
  (c.all.drop c.pos).take c.blen

/-- `AtTime` of a child iterator: start time of its current batch.
Only meaningful after `Next`/`Seek` returned a value. -/
def childAtTime (c : ChildIt) : Int :=
  (((c.all.drop c.pos).headD default)).t

/-- Modelled from the spec (§4.2, §7): the child's sticky decode error.  The
error surfaces once the iterator has attempted to read past the decodable
samples into the corrupt chunk. -/
def childErr (c : ChildIt) : Bool :=
  c.err && decide (c.all.length ≤ c.pos + c.blen)

/-- Modelled from the spec (§4.2): advance the child past its current batch
and decode the next batch of at most `size` samples. -/
def childNext (size : Nat) (c : ChildIt) : ValueType × ChildIt :=
  let pos := c.pos + c.blen
  let b := takeBatch size (c.all.drop pos)
  match b with
  | [] => (ValueType.none, { c with pos := pos, blen := 0 })
  | x :: _ => (x.kind, { c with pos := pos, blen := b.length })

/-- Modelled from the spec (§4.2, §4.5): reposition the child at the first
sample with timestamp at or after `t` and decode a batch there. -/
def childSeek (t : Int) (size : Nat) (c : ChildIt) : ValueType × ChildIt :=
  let pos := (c.all.takeWhile (fun s => s.t < t)).length
  let b := takeBatch size (c.all.drop pos)
  match b with
  | [] => (ValueType.none, { c with pos := pos, blen := 0 })
  | x :: _ => (x.kind, { c with pos := pos, blen := b.length })

/-! ## Batch merge/dedup stream

Modelled from the spec: §4.4 "Batch Merge/Dedup buffer" — `batchStream`,
`mergeStreams` and `mergeableBatchStream` are not part of the sources.  Both
buffering strategies are modelled by the same semantics: the sorted,
deduplicated (first-encountered-wins) union of the already-accumulated stream
and the newly contributed batch, re-cut into batches of at most `size`
samples of a single value kind. -/

/-- A batch of the accumulated output stream: its samples and the read cursor
`index` (mirror of `chunk.Batch`'s `Timestamps`/`Values`/`Length`/`Index`;
`Length` is `samples.length`, the `ValueType` is the kind of its samples). -/
structure Batch where
  samples : List Sample
  index : Nat
deriving DecidableEq, Repr

instance : Inhabited Batch := ⟨⟨[], 0⟩⟩

/-- The `ValueType` of a batch of samples. -/
def batchKind : List Sample → ValueType
  | [] => ValueType.none
  | x :: _ => x.kind

/-- Fuel-driven worker for `mergeDedup` (the fuel is only a structural
termination device; `mergeDedup` always passes enough). -/
def mergeDedupF : Nat → List Sample → List Sample → List Sample
  | _, [], ys => ys
  | _, x :: xs, [] => x :: xs
  | 0, x :: xs, _ :: _ => x :: xs
  | fuel + 1, x :: xs, y :: ys =>
    if x.t < y.t then x :: mergeDedupF fuel xs (y :: ys)
    else if y.t < x.t then y :: mergeDedupF fuel (x :: xs) ys
    else x :: mergeDedupF fuel xs ys

/-- Modelled from the spec (§4.4): merge two sorted sample streams into their
sorted union, keeping exactly one sample per timestamp; on a shared timestamp
the left (first-encountered) stream's sample is kept and both advance. -/
def mergeDedup (xs ys : List Sample) : List Sample :=
  mergeDedupF (xs.length + ys.length) xs ys

/-- Fuel-driven worker for `rebatch`. -/
def rebatchF : Nat → Nat → List Sample → List Batch
  | 0, _, _ => []
  | fuel + 1, size, xs =>
    match takeBatch size xs with
    | [] => []
    | b0 :: brest => ⟨b0 :: brest, 0⟩ :: rebatchF fuel size (xs.drop (b0 :: brest).length)

/-- Modelled from the spec (§4.4): cut a sorted sample stream into batches of
at most `size` samples, ending a batch early when the value kind changes. -/
def rebatch (size : Nat) (xs : List Sample) : List Batch :=
  rebatchF xs.length size xs

/-- The samples still readable from an accumulated stream: the head batch from
its read index on, then the remaining batches in full (mirrors how
`mergeStreams` consumes `batchStream` through each batch's `Index`). -/
def flattenStream : List Batch → List Sample
  | [] => []
  | b :: rest => b.samples.drop b.index ++ (rest.map Batch.samples).flatten

/-- All samples of a stream's batches, ignoring read indices. -/
def flattenB (bs : List Batch) : List Sample :=
  (bs.map Batch.samples).flatten

/-- Modelled from the spec (§4.4): merge one newly contributed batch into the
accumulated stream (`mergeStreams` on the legacy path, `mergeableBatchStream.merge`
on the optimized path — both strategies realize this same contract). -/
def mergeIntoStream (size : Nat) (stream : List Batch) (b : List Sample) : List Batch :=
  rebatch size (mergeDedup (flattenStream stream) b)

/-! ## The merge scheduler's heap (Go `container/heap` over merge.go's
`iteratorHeap`)

The heap stores indices into the child-iterator table; `Less i j` compares
the children's `AtTime`, translated from merge.go's `iteratorHeap.Less`.
`heapDown`/`heapUp`/`heapInit`/`heapFix`/`heapPop` are translated from Go's
`container/heap` so that tie-breaking behaviour matches the original. -/

/-- Swap two positions of the heap slice (`iteratorHeap.Swap`). -/
def lswap (l : List Nat) (i j : Nat) : List Nat :=
  (l.set i (l.getD j 0)).set j (l.getD i 0)

/-- Fuel-driven worker for `heapDown` (each step moves strictly deeper, so a
fuel of `n` always suffices). -/
def heapDownF (key : Nat → Int) : Nat → List Nat → Nat → Nat → List Nat
  | 0, h, _, _ => h
  | fuel + 1, h, i, n =>
    let j1 := 2 * i + 1
    if j1 < n then
      let j :=
        if j1 + 1 < n ∧ key (h.getD (j1 + 1) 0) < key (h.getD j1 0) then j1 + 1 else j1
      if key (h.getD j 0) < key (h.getD i 0) then
        heapDownF key fuel (lswap h i j) j n
      else h
    else h

/-- `container/heap`'s `down(h, i0, n)`: sift position `i` down within the
first `n` positions, using `key` (the children's `AtTime`) for `Less`. -/
def heapDown (key : Nat → Int) (h : List Nat) (i n : Nat) : List Nat :=
  heapDownF key n h i n

/-- Fuel-driven worker for `heapUp` (the index strictly decreases, so a fuel
of `j` suffices; in particular `heapUp _ h 0 = h`, matching Go's truncated
division `(0-1)/2 = 0`). -/
def heapUpF (key : Nat → Int) : Nat → List Nat → Nat → List Nat
  | 0, h, _ => h
  | fuel + 1, h, j =>
    let i := (j - 1) / 2
    if i = j ∨ ¬ key (h.getD j 0) < key (h.getD i 0) then h
    else heapUpF key fuel (lswap h i j) i

/-- `container/heap`'s `up(h, j)`. -/
def heapUp (key : Nat → Int) (h : List Nat) (j : Nat) : List Nat :=
  heapUpF key j h j

/-- The `container/heap` parent of position `j` (Go's `(j-1)/2` with
truncated division, which `Nat` subtraction mirrors at `j = 0`). -/
def hparent (j : Nat) : Nat := (j - 1) / 2

/-- Heap ordering over the first `n` positions, restricted to edges whose
parent position is at least `k` and different from `x`. -/
def HeapExc (key : Nat → Int) (h : List Nat) (n k x : Nat) : Prop :=
  ∀ j, j < n → 0 < j → k ≤ hparent j → hparent j ≠ x →
    key (h.getD (hparent j) 0) ≤ key (h.getD j 0)

/-- Heap ordering over the first `n` positions for edges with parent ≥ `k`. -/
def HeapN (key : Nat → Int) (h : List Nat) (n k : Nat) : Prop :=
  ∀ j, j < n → 0 < j → k ≤ hparent j →
    key (h.getD (hparent j) 0) ≤ key (h.getD j 0)

/-- The min-heap property of the whole slice. -/
def IsHeap (key : Nat → Int) (h : List Nat) : Prop :=
  HeapN key h h.length 0

/-- Distinct slot values: the heap never holds the same child iterator twice. -/
def HDistinct (h : List Nat) : Prop :=
  ∀ a b, a < h.length → b < h.length → h.getD a 0 = h.getD b 0 → a = b

/-- The descending loop of `container/heap`'s `Init`: `down` at positions
`i, i-1, …, 0`. -/
def heapInitFrom (key : Nat → Int) (h : List Nat) : Nat → List Nat
  | 0 => heapDown key h 0 h.length
  | i + 1 => heapInitFrom key (heapDown key h (i + 1) h.length) i

/-- `heap.Init`: establish the heap invariant (no-op on sizes 0 and 1, where
the Go loop body never runs and the extra `down` calls here cannot move
anything). -/
def heapInit (key : Nat → Int) (h : List Nat) : List Nat :=
  heapInitFrom key h (h.length / 2 - 1)

/-- `heap.Fix(h, i)`: `down(i, n)`, and `up(i)` when `down` did not move the
element.  merge.go only calls `Fix` at the root, where `up` is a no-op, so
the result is `down` at `i` either way. -/
def heapFix (key : Nat → Int) (h : List Nat) (i : Nat) : List Nat :=
  let h2 := heapDown key h i h.length
  if h2 = h then heapUp key h2 i else h2

/-- `heap.Pop`: swap the root with the last element, sift the new root down
over the shortened slice, and cut the old root off the end. -/
def heapPop (key : Nat → Int) (h : List Nat) : List Nat :=
  let n := h.length - 1
  let h2 := heapDown key (lswap h 0 n) 0 n
  h2.take n

/-! ## The merge iterator (merge.go `mergeIterator`)

The two buffering strategies (`batches` for the legacy path, `mBatches` for
the optimized `mergeableBatchStream` path) are both embedded as `List Batch`
with the same spec-modelled merge semantics.  The process-wide toggle
`MergeableBatchStreamEnabled` is an `atomic.Bool` that the methods load on
every call, so each operation takes the toggle's current value as the `mode`
argument. -/

structure MergeState where
  its : List ChildIt
  h : List Nat
  batches : List Batch
  mBatches : List Batch
  currErr : Bool
deriving DecidableEq, Repr

instance : Inhabited MergeState := ⟨⟨[], [], [], [], false⟩⟩

/-- The heap's key: `iteratorHeap.Less` compares the children's `AtTime`. -/
def hKey (its : List ChildIt) (i : Nat) : Int :=
  childAtTime (its.getD i default)

/-- `currBatch`: the first batch of the active stream (Go indexes `batches[0]`
or `mBatches.curr()`, panicking when empty; embedded as `Option`). -/
def currBatchQ (mode : Bool) (s : MergeState) : Option Batch :=
  if mode then s.mBatches.head? else s.batches.head?

/-- merge.go `batchLen`. -/
def batchLen (mode : Bool) (s : MergeState) : Nat :=
  if mode then s.mBatches.length else s.batches.length

/-- merge.go `removeFirstBatch`: drop the first batch of the active stream
(on the legacy path this is also where pooled histogram values are returned). -/
def removeFirstBatch (mode : Bool) (s : MergeState) : MergeState :=
  if mode then { s with mBatches := s.mBatches.tail }
  else { s with batches := s.batches.tail }

/-- merge.go `nextBatchEndTime`: last timestamp of the current batch.  Only
called under `batchLen > 0`. -/
def nextBatchEndTime (mode : Bool) (s : MergeState) : Int :=
  match currBatchQ mode s with
  | some b => (b.samples.getLastD default).t
  | none => 0

/-- One iteration of the `buildNextBatch` loop body: merge the heap root's
current batch into the active stream, advance the root child, then
`heap.Fix(0)` or `heap.Pop` depending on whether it still has data. -/
def stepMerge (mode : Bool) (size : Nat) (s : MergeState) : MergeState :=
  let ri := s.h.headD 0
  let rootC := s.its.getD ri default
  let b := childBatch rootC
  let s1 : MergeState :=
    if mode then { s with mBatches := mergeIntoStream size s.mBatches b }
    else { s with batches := mergeIntoStream size s.batches b }
  let vc := childNext size rootC
  let its2 := s1.its.set ri vc.2
  let h2 :=
    if vc.1 = ValueType.none then heapPop (hKey its2) s1.h
    else heapFix (hKey its2) s1.h 0
  { s1 with its := its2, h := h2 }

/-- The `buildNextBatch` loop guard:
`len(c.h) > 0 && (c.batchLen() == 0 || c.nextBatchEndTime() >= c.h[0].AtTime())`. -/
def buildLoopCond (mode : Bool) (s : MergeState) : Bool :=
  decide (0 < s.h.length) &&
    (decide (batchLen mode s = 0) ||
      decide (hKey s.its (s.h.headD 0) ≤ nextBatchEndTime mode s))

/-- The return value of `buildNextBatch`: the current batch's `ValueType`, or
`ValNone` when no batch is buffered. -/
def finishBuild (mode : Bool) (s : MergeState) : ValueType × MergeState :=
  match currBatchQ mode s with
  | some b => (batchKind b.samples, s)
  | none => (ValueType.none, s)

/-- merge.go `buildNextBatch`, with explicit fuel for the merge loop (the
call sites pass `buildFuel`, which is proved sufficient below). -/
def buildNextBatch (mode : Bool) (size : Nat) : Nat → MergeState → ValueType × MergeState
  | 0, s => finishBuild mode s
  | fuel + 1, s =>
    if buildLoopCond mode s then buildNextBatch mode size fuel (stepMerge mode size s)
    else finishBuild mode s

/-- An always-sufficient fuel bound for the `buildNextBatch` loop: one more
than the heap size plus every child's total stream length. -/
def buildFuel (s : MergeState) : Nat :=
  1 + s.h.length + (s.its.map (fun c => c.all.length)).sum

/-- The loop measure `buildFuel` dominates: heap size plus samples not yet
handed over by the children. -/
def bMeasure (s : MergeState) : Nat :=
  s.h.length + (s.its.map (fun c => c.all.length - c.pos)).sum

/-- merge.go `Next(size)`: retire the current batch, then rebuild. -/
def mNext (mode : Bool) (size : Nat) (s : MergeState) : ValueType × MergeState :=
  let s1 := if 0 < batchLen mode s then removeFirstBatch mode s else s
  buildNextBatch mode size (buildFuel s1) s1

/-- Set the read index of the current (first) batch of the active stream, as
the `Seek` fast path does. -/
def setCurrIndex (mode : Bool) (s : MergeState) (idx : Nat) : MergeState :=
  if mode then
    match s.mBatches with
    | [] => s
    | b :: rest => { s with mBatches := { b with index := idx } :: rest }
  else
    match s.batches with
    | [] => s
    | b :: rest => { s with batches := { b with index := idx } :: rest }

/-- The `Seek` fast-path loop (merge.go lines 135-147): while batches remain,
if `t` falls inside the current batch's time range, reset and advance its
read index and stop (`found = true`); otherwise remove the first batch. -/
def seekDropLoop (mode : Bool) (t : Int) : Nat → MergeState → MergeState × Bool
  | 0, s => (s, false)
  | fuel + 1, s =>
    match currBatchQ mode s with
    | none => (s, false)
    | some b =>
      if (b.samples.headD default).t ≤ t ∧ t ≤ (b.samples.getLastD default).t then
        (setCurrIndex mode s ((b.samples.takeWhile (fun x => x.t < t)).length), true)
      else seekDropLoop mode t fuel (removeFirstBatch mode s)

/-- The `Seek` slow-path loop over the children (merge.go lines 155-165):
re-seek each child in order, collecting those that still have data into the
heap slice; on a child decode error, record it and return early (`true`)
without visiting the remaining children and without `heap.Init`. -/
def seekChildrenFrom (t : Int) (size : Nat) : Nat → Nat → MergeState → MergeState × Bool
  | 0, _, s => (s, false)
  | fuel + 1, i, s =>
    if i < s.its.length then
      let vc := childSeek t size (s.its.getD i default)
      let s2 := { s with its := s.its.set i vc.2 }
      if vc.1 = ValueType.none then
        if childErr vc.2 then ({ s2 with currErr := true }, true)
        else seekChildrenFrom t size fuel (i + 1) s2
      else seekChildrenFrom t size fuel (i + 1) { s2 with h := s2.h ++ [i] }
    else (s, false)

/-- merge.go `Seek(t, size)`: fast path over the buffered batches, else reset
the heap, re-seek every child, re-heapify and rebuild. -/
def mSeek (mode : Bool) (t : Int) (size : Nat) (s : MergeState) : ValueType × MergeState :=
  let df := seekDropLoop mode t (batchLen mode s) s
  if df.2 then buildNextBatch mode size (buildFuel df.1) df.1
  else
    let s2 := { df.1 with h := [], batches := [] }
    let se := seekChildrenFrom t size s2.its.length 0 s2
    if se.2 then (ValueType.none, se.1)
    else
      let s4 := { se.1 with h := heapInit (hKey se.1.its) se.1.h }
      buildNextBatch mode size (buildFuel s4) s4

/-- The construction loop of `newMergeIterator` (lines 79-88): prime every
child with `Next(1)`; children with data enter the heap slice, a child decode
error is recorded on `currErr` (and the loop continues). -/
def initChildLoop : Nat → Nat → List ChildIt → List Nat → Bool → List ChildIt × List Nat × Bool
  | 0, _, its, h, e => (its, h, e)
  | fuel + 1, i, its, h, e =>
    if i < its.length then
      let vc := childNext 1 (its.getD i default)
      let its2 := its.set i vc.2
      if vc.1 = ValueType.none then
        initChildLoop fuel (i + 1) its2 h (e || childErr vc.2)
      else initChildLoop fuel (i + 1) its2 (h ++ [i]) e
    else (its, h, e)

/-- merge.go `newMergeIterator` (fresh construction): partition the chunks,
build one sequential iterator per partition, prime them, and heapify. -/
def newMergeIterator (cs : List GenericChunk) : MergeState :=
  let its0 := (partitionChunks cs).map newChildIt
  let ihe := initChildLoop its0.length 0 its0 [] false
  { its := ihe.1
    h := heapInit (hKey ihe.1) ihe.2.1
    batches := []
    mBatches := []
    currErr := ihe.2.2 }

/-- merge.go `AtTime`: `currBatch().Timestamps[0]` — the start time of the
current batch (independent of its read index). -/
def mAtTime (mode : Bool) (s : MergeState) : Option Int :=
  (currBatchQ mode s).map (fun b => (b.samples.headD default).t)

/-- merge.go `Batch`: the current batch. -/
def mBatch (mode : Bool) (s : MergeState) : Option Batch :=
  currBatchQ mode s

/-- merge.go `Err`. -/
def mErr (s : MergeState) : Bool :=
  s.currErr

/-- Drive the iterator with `Next(size)` until it reports no value (or the
fuel runs out), collecting the samples the consumer reads from each returned
batch (from its read index on). -/
def runOut (mode : Bool) (size : Nat) : Nat → MergeState → List Sample
  | 0, _ => []
  | fuel + 1, s =>
    let vs := mNext mode size s
    if vs.1 = ValueType.none then []
    else
      (match currBatchQ mode vs.2 with
        | some b => b.samples.drop b.index
        | none => []) ++ runOut mode size fuel vs.2

/-- The timestamps of a sample list. -/
def tsOf (l : List Sample) : List Int :=
  l.map Sample.t

/-- Drive the iterator with one `Next(size)` per entry of `sizes` (sizes may
vary call to call), collecting the consumer-visible samples. -/
def runOutS (mode : Bool) : List Nat → MergeState → List Sample
  | [], _ => []
  | size :: rest, s =>
    let vs := mNext mode size s
    if vs.1 = ValueType.none then []
    else
      (match currBatchQ mode vs.2 with
        | some b => b.samples.drop b.index
        | none => []) ++ runOutS mode rest vs.2

/-- Strictly increasing timestamps. -/
def StrictT (l : List Sample) : Prop :=
  l.Pairwise (fun a b => a.t < b.t)

/-- A chunk is well-formed when its time bounds are ordered, its samples
carry strictly increasing timestamps inside those bounds, and none of them
is of the `none` kind. -/
def ChunkWf (c : GenericChunk) : Prop :=
  c.MinTime ≤ c.MaxTime ∧ StrictT c.samples ∧
    ∀ s ∈ c.samples, c.MinTime ≤ s.t ∧ s.t ≤ c.MaxTime ∧ s.kind ≠ ValueType.none

/-- The samples a child iterator has not yet handed over (its current batch
and everything after it). -/
def childRem (c : ChildIt) : List Sample :=
  c.all.drop c.pos

/-- Well-formedness of a child iterator state: sorted stream of real
(non-`none`-kind) samples, cursor within bounds. -/
def ChildWf (c : ChildIt) : Prop :=
  StrictT c.all ∧ c.pos + c.blen ≤ c.all.length ∧
    ∀ x ∈ c.all, x.kind ≠ ValueType.none

/-- The buffer the given strategy operates on. -/
def streamOf (mode : Bool) (s : MergeState) : List Batch :=
  if mode then s.mBatches else s.batches

/-- Invariant of the merge iterator, holding at construction and after every
`buildNextBatch`: children are well-formed; heap slots are valid indices of
active (nonempty-batch) children, pairwise distinct, in min-heap order; the
active stream's batches are nonempty with zero read index, and its samples
are globally strictly sorted. -/
def InvP (mode : Bool) (s : MergeState) : Prop :=
  (∀ c ∈ s.its, ChildWf c) ∧
  (∀ i ∈ s.h, i < s.its.length ∧ 0 < (s.its.getD i default).blen) ∧
  HDistinct s.h ∧
  IsHeap (hKey s.its) s.h ∧
  (∀ b ∈ streamOf mode s, b.index = 0 ∧ b.samples ≠ []) ∧
  StrictT (flattenB (streamOf mode s)) ∧
  (∀ x ∈ flattenB (streamOf mode s), x.kind ≠ ValueType.none)

/-- The closed-window condition `buildNextBatch`'s loop exit guarantees. -/
def Closed (mode : Bool) (s : MergeState) : Prop :=
  s.h = [] ∨ batchLen mode s = 0 ∨
    nextBatchEndTime mode s < hKey s.its (s.h.headD 0)

/-- Every sample still inside the machine is strictly above `b`. -/
def Above (mode : Bool) (s : MergeState) (b : Int) : Prop :=
  (∀ x ∈ flattenB (streamOf mode s), b < x.t) ∧
  (∀ i ∈ s.h, ∀ x ∈ childRem (s.its.getD i default), b < x.t)

/-- Every sample still inside the machine is at or above `b`. -/
def AboveE (mode : Bool) (s : MergeState) (b : Int) : Prop :=
  (∀ x ∈ flattenB (streamOf mode s), b ≤ x.t) ∧
  (∀ i ∈ s.h, ∀ x ∈ childRem (s.its.getD i default), b ≤ x.t)

instance (l : List Sample) : Decidable (StrictT l) := by
  unfold StrictT
  infer_instance

instance (c : GenericChunk) : Decidable (ChunkWf c) := by
  unfold ChunkWf
  infer_instance

/-- A timestamp still held somewhere inside the merge machine: in the
accumulated stream, or in the not-yet-consumed remainder of a child iterator
that is still scheduled on the heap. -/
def MachineTs (mode : Bool) (s : MergeState) (u : Int) : Prop :=
  u ∈ tsOf (flattenB (streamOf mode s)) ∨
    ∃ i ∈ s.h, u ∈ tsOf (childRem (s.its.getD i default))

/-- A sample still held somewhere inside the merge machine. -/
def MachineMem (mode : Bool) (s : MergeState) (x : Sample) : Prop :=
  x ∈ flattenB (streamOf mode s) ∨ ∃ i ∈ s.h, x ∈ childRem (s.its.getD i default)

/-- Total content measure of the machine: buffered stream samples, samples
not yet handed over by the children, and heap slots.  Never increased by
`buildNextBatch`, strictly decreased by retiring a batch. -/
def SMeasure (mode : Bool) (s : MergeState) : Nat :=
  (flattenB (streamOf mode s)).length +
    (s.its.map (fun c => c.all.length - c.pos)).sum + s.h.length

/-- All samples of the input chunks, in input order. -/
def inputSamples (cs : List GenericChunk) : List Sample :=
  (cs.map GenericChunk.samples).flatten

/-- All timestamps of the input chunks. -/
def inputTs (cs : List GenericChunk) : List Int :=
  tsOf (inputSamples cs)

/-- Exchange the two buffering strategies' buffers. -/
def swapState (s : MergeState) : MergeState :=
  { s with batches := s.mBatches, mBatches := s.batches }

/-- The state `Seek`'s slow path rebuilds from: heap slice and legacy batch
buffer reset (merge.go lines 150-152). -/
def seekSlowPre (s : MergeState) : MergeState :=
  ⟨s.its, [], [], s.mBatches, s.currErr⟩

/-- The slow path's pass over the children (merge.go lines 155-165). -/
def seekSlowRun (t : Int) (size : Nat) (s : MergeState) : MergeState × Bool :=
  seekChildrenFrom t size s.its.length 0 (seekSlowPre s)

/-- The state after the slow path's `heap.Init` (merge.go line 166). -/
def seekSlowState (t : Int) (size : Nat) (s : MergeState) : MergeState :=
  ⟨(seekSlowRun t size s).1.its,
    heapInit (hKey (seekSlowRun t size s).1.its) (seekSlowRun t size s).1.h,
    (seekSlowRun t size s).1.batches, (seekSlowRun t size s).1.mBatches,
    (seekSlowRun t size s).1.currErr⟩

/-! ## Concrete inputs used by witnesses and counterexamples -/

/-- The spec's partition-minimality example: chunks `[0,10], [5,15], [20,30]`. -/
def c4ex : List GenericChunk :=
  [⟨0, 10, [⟨0, ValueType.float, 0⟩], false⟩,
   ⟨5, 15, [⟨5, ValueType.float, 0⟩], false⟩,
   ⟨20, 30, [⟨20, ValueType.float, 0⟩], false⟩]

/-- One chunk holding samples at timestamps 10 and 20. -/
def c2Input : List GenericChunk :=
  [⟨10, 20, [⟨10, ValueType.float, 1⟩, ⟨20, ValueType.float, 2⟩], false⟩]

def c5A : GenericChunk :=
  ⟨2, 100, [⟨2, ValueType.float, 0⟩, ⟨100, ValueType.float, 10⟩], false⟩

def c5B : GenericChunk :=
  ⟨3, 100, [⟨3, ValueType.float, 0⟩, ⟨100, ValueType.float, 20⟩], false⟩

/-- Two overlapping chunks sharing timestamp 100 with different payloads. -/
def c5Input : List GenericChunk := [c5A, c5B]

/-- A corrupt chunk (own partition) next to a healthy overlapping chunk. -/
def c6Input : List GenericChunk :=
  [⟨0, 5, [], true⟩,
   ⟨1, 4, [⟨1, ValueType.float, 7⟩, ⟨3, ValueType.float, 8⟩], false⟩]

/-- One chunk holding samples at timestamps 1 and 2. -/
def c7Input : List GenericChunk :=
  [⟨1, 2, [⟨1, ValueType.float, 1⟩, ⟨2, ValueType.float, 2⟩], false⟩]

/-- Two disjoint, sorted chunks with pairwise-distinct timestamps. -/
def c9Input : List GenericChunk :=
  [⟨0, 5, [⟨0, ValueType.float, 1⟩, ⟨5, ValueType.float, 2⟩], false⟩,
   ⟨10, 12, [⟨10, ValueType.float, 3⟩, ⟨12, ValueType.float, 4⟩], false⟩]

/-- Sample-level input of the end-to-end spec example (§8). -/
def specExInput : List GenericChunk :=
  [⟨1000, 3000, [⟨1000, ValueType.histogram, 1⟩, ⟨2000, ValueType.histogram, 2⟩,
      ⟨3000, ValueType.histogram, 3⟩], false⟩,
   ⟨1500, 2500, [⟨1500, ValueType.histogram, 4⟩, ⟨2500, ValueType.histogram, 5⟩], false⟩,
   ⟨1000, 4000, [⟨1000, ValueType.histogram, 6⟩, ⟨4000, ValueType.histogram, 7⟩], false⟩]

/-! ## Partitioner verification -/

theorem getLastD_mem {p : List GenericChunk} (hne : p ≠ []) (d : GenericChunk) :
    p.getLastD d ∈ p := by
  induction p with
  | nil => exact absurd rfl hne
  | cons x xs ih =>
    cases xs with
    | nil => simp
    | cons y ys => simpa using Or.inr (ih (by simp) )

theorem insertByMin_perm (c : GenericChunk) (l : List GenericChunk) :
    (insertByMin c l).Perm (c :: l) := by
  induction l with
  | nil => simp [insertByMin]
  | cons d ds ih =>
    simp only [insertByMin]
    split
    · exact List.Perm.refl _
    · exact (ih.cons d).trans (List.Perm.swap c d ds)

theorem sortByMinTime_perm (l : List GenericChunk) :
    (sortByMinTime l).Perm l := by
  induction l with
  | nil => simp [sortByMinTime]
  | cons c cs ih =>
    have : sortByMinTime (c :: cs) = insertByMin c (sortByMinTime cs) := rfl
    rw [this]
    exact (insertByMin_perm c _).trans (ih.cons c)

theorem placeChunk_flatten_perm (c : GenericChunk) (css : List (List GenericChunk)) :
    (placeChunk c css).flatten.Perm (c :: css.flatten) := by
  induction css with
  | nil => simp [placeChunk]
  | cons p rest ih =>
    simp only [placeChunk]
    split
    · simp only [List.flatten_cons, List.append_assoc, List.singleton_append]
      exact List.perm_middle
    · simp only [List.flatten_cons]
      exact (ih.append_left p).trans List.perm_middle

theorem foldl_placeChunk_perm (cs : List GenericChunk) (css : List (List GenericChunk)) :
    ((cs.foldl (fun css c => placeChunk c css) css).flatten).Perm (css.flatten ++ cs) := by
  induction cs generalizing css with
  | nil => simp
  | cons c cs ih =>
    simp only [List.foldl_cons]
    refine (ih (placeChunk c css)).trans ?_
    exact (((placeChunk_flatten_perm c css).append_right cs)).trans List.perm_middle.symm

/-- Every input chunk lands in exactly one partition: the concatenation of
the partitions is a permutation of the input. -/
theorem partitionChunks_perm (cs : List GenericChunk) :
    ((partitionChunks cs).flatten).Perm cs := by
  unfold partitionChunks
  exact (foldl_placeChunk_perm (sortByMinTime cs) []).trans
    (by simpa using sortByMinTime_perm cs)

/-- In a list pairwise-related by `R`, every element is the last one or is
related to the last one. -/
theorem pairwise_rel_getLastD {R : GenericChunk → GenericChunk → Prop}
    {p : List GenericChunk} (hpw : p.Pairwise R) {a : GenericChunk} (ha : a ∈ p)
    (d : GenericChunk) : a = p.getLastD d ∨ R a (p.getLastD d) := by
  induction p with
  | nil => cases ha
  | cons x xs ih =>
    cases xs with
    | nil =>
      simp only [List.mem_singleton] at ha
      exact Or.inl (by simp [ha])
    | cons y ys =>
      rcases List.mem_cons.mp ha with h1 | h1
      · subst h1
        right
        have hl : (y :: ys).getLastD d ∈ y :: ys := getLastD_mem (by simp) d
        have := (List.pairwise_cons.mp hpw).1 _ hl
        simpa using this
      · have := ih (List.pairwise_cons.mp hpw).2 h1
        simpa using this

/-- The non-overlap invariant that `placeChunk` maintains on every partition:
nonempty, all member chunks well-bounded, and pairwise
"earlier chunk ends strictly before later chunk begins". -/
def PartsWf (css : List (List GenericChunk)) : Prop :=
  ∀ p ∈ css, p ≠ [] ∧ (∀ a ∈ p, a.MinTime ≤ a.MaxTime) ∧
    p.Pairwise (fun a b => a.MaxTime < b.MinTime)

theorem placeChunk_partsWf {css : List (List GenericChunk)} {c : GenericChunk}
    (hc : c.MinTime ≤ c.MaxTime) (hw : PartsWf css) : PartsWf (placeChunk c css) := by
  induction css with
  | nil =>
    intro p hp
    simp only [placeChunk, List.mem_singleton] at hp
    subst hp
    exact ⟨by simp, by simpa using hc, by simp⟩
  | cons q rest ih =>
    have hq := hw q (by simp)
    have hrest : PartsWf rest := fun p hp => hw p (by simp [hp])
    intro p hp
    simp only [placeChunk] at hp
    by_cases hcond : (q.getLastD default).MaxTime < c.MinTime
    · rw [if_pos hcond] at hp
      rcases List.mem_cons.mp hp with h1 | h1
      · subst h1
        refine ⟨by simp [hq.1], ?_, ?_⟩
        · intro a ha
          rcases List.mem_append.mp ha with h2 | h2
          · exact hq.2.1 a h2
          · simp only [List.mem_singleton] at h2; subst h2; exact hc
        · rw [List.pairwise_append]
          refine ⟨hq.2.2, by simp, ?_⟩
          intro a ha b hb
          have hb2 : b = c := List.mem_singleton.mp hb
          rw [hb2]
          rcases pairwise_rel_getLastD hq.2.2 ha default with h2 | h2
          · exact h2 ▸ hcond
          · have hlmem : q.getLastD default ∈ q := getLastD_mem hq.1 default
            have h4 := (hq.2.1 _ hlmem)
            exact lt_trans (lt_of_lt_of_le h2 h4) hcond
      · exact hrest p h1
    · rw [if_neg hcond] at hp
      rcases List.mem_cons.mp hp with h1 | h1
      · subst h1; exact hq
      · exact ih hrest p h1

theorem foldl_placeChunk_partsWf {cs : List GenericChunk} {css : List (List GenericChunk)}
    (hcs : ∀ c ∈ cs, c.MinTime ≤ c.MaxTime) (hw : PartsWf css) :
    PartsWf (cs.foldl (fun css c => placeChunk c css) css) := by
  induction cs generalizing css with
  | nil => exact hw
  | cons c cs ih =>
    exact ih (fun d hd => hcs d (by simp [hd]))
      (placeChunk_partsWf (hcs c (by simp)) hw)

/-- Every partition produced by `partitionChunks` is pairwise non-overlapping
(and in particular sorted ascending by `MinTime`), given well-bounded input
chunks. -/
theorem partitionChunks_partsWf {cs : List GenericChunk}
    (hcs : ∀ c ∈ cs, c.MinTime ≤ c.MaxTime) : PartsWf (partitionChunks cs) := by
  unfold partitionChunks
  refine foldl_placeChunk_partsWf ?_ (by intro p hp; cases hp)
  intro c hc
  exact hcs c ((sortByMinTime_perm cs).mem_iff.mp hc)

/-- C4: `partitionChunks` places every input chunk in exactly one partition
(the partitions' concatenation is a permutation of the input); within every
partition consecutive chunks satisfy "earlier ends strictly before later
begins" pairwise — hence partitions are sorted ascending by `MinTime` and no
two chunks of a partition overlap. -/
theorem partitionChunks_correct (cs : List GenericChunk)
    (hwf : ∀ c ∈ cs, c.MinTime ≤ c.MaxTime) :
    ((partitionChunks cs).flatten).Perm cs ∧
    (∀ p ∈ partitionChunks cs, List.Pairwise (fun a b => a.MaxTime < b.MinTime) p) ∧
    (∀ p ∈ partitionChunks cs, List.Pairwise (fun a b => a.MinTime < b.MinTime) p) := by
  have hperm := partitionChunks_perm cs
  have hwf2 := partitionChunks_partsWf hwf
  refine ⟨hperm, fun p hp => (hwf2 p hp).2.2, fun p hp => ?_⟩
  have h1 := (hwf2 p hp).2.2
  have h2 := (hwf2 p hp).2.1
  exact List.Pairwise.imp_of_mem (fun ha _ hr => lt_of_le_of_lt (h2 _ ha) hr) h1

theorem partitionChunks_correct_witness :
    ((partitionChunks c4ex).flatten).Perm c4ex ∧
    (∀ p ∈ partitionChunks c4ex, List.Pairwise (fun a b => a.MaxTime < b.MinTime) p) ∧
    (∀ p ∈ partitionChunks c4ex, List.Pairwise (fun a b => a.MinTime < b.MinTime) p) :=
  partitionChunks_correct c4ex (by decide)

/-! ## Exhaustion (claim C10) -/

theorem buildNextBatch_of_cond_false {mode : Bool} {s : MergeState}
    (hc : buildLoopCond mode s = false) (size fuel : Nat) :
    buildNextBatch mode size fuel s = finishBuild mode s := by
  cases fuel with
  | zero => rfl
  | succ n => simp [buildNextBatch, hc]

theorem buildLoopCond_of_h_nil {mode : Bool} {s : MergeState} (hh : s.h = []) :
    buildLoopCond mode s = false := by
  simp [buildLoopCond, hh]

theorem currBatchQ_eq_none {mode : Bool} {s : MergeState}
    (hb : batchLen mode s = 0) : currBatchQ mode s = Option.none := by
  cases mode <;> simp_all [batchLen, currBatchQ, List.length_eq_zero]

/-- C10: once the heap is empty and no batch is buffered, `Next` returns
no-value and leaves the state unchanged, so any number of further `Next`
calls is harmless. -/
theorem next_after_exhaustion (mode : Bool) (size : Nat) (s : MergeState)
    (hh : s.h = []) (hb : batchLen mode s = 0) :
    mNext mode size s = (ValueType.none, s) ∧
    ∀ n : Nat, (fun st => (mNext mode size st).2)^[n] s = s := by
  have hstep : mNext mode size s = (ValueType.none, s) := by
    unfold mNext
    rw [if_neg (by omega)]
    rw [buildNextBatch_of_cond_false (buildLoopCond_of_h_nil hh)]
    unfold finishBuild
    rw [currBatchQ_eq_none hb]
  refine ⟨hstep, fun n => ?_⟩
  induction n with
  | zero => rfl
  | succ m ih => rw [Function.iterate_succ_apply, hstep, ih]

theorem next_after_exhaustion_witness :
    mNext false 1 (newMergeIterator []) = (ValueType.none, newMergeIterator []) ∧
    ∀ n : Nat, (fun st => (mNext false 1 st).2)^[n] (newMergeIterator []) =
      newMergeIterator [] :=
  next_after_exhaustion false 1 (newMergeIterator []) (by decide) (by decide)

/-! ## Merge/dedup stream lemmas -/

theorem mergeDedupF_fuel :
    ∀ (fuel fuel' : Nat) (xs ys : List Sample), xs.length + ys.length ≤ fuel →
      xs.length + ys.length ≤ fuel' → mergeDedupF fuel xs ys = mergeDedupF fuel' xs ys := by
  intro fuel
  induction fuel with
  | zero =>
    intro fuel' xs ys h1 _
    cases xs with
    | nil => cases fuel' <;> rfl
    | cons x xs => simp at h1
  | succ n ih =>
    intro fuel' xs ys h1 h2
    cases xs with
    | nil => cases fuel' <;> rfl
    | cons x xs =>
      cases ys with
      | nil => cases fuel' <;> rfl
      | cons y ys =>
        cases fuel' with
        | zero => simp at h2
        | succ m =>
          simp only [mergeDedupF, List.length_cons] at h1 h2 ⊢
          by_cases hxy : x.t < y.t
          · rw [if_pos hxy, if_pos hxy, ih m xs (y :: ys) (by simp; omega) (by simp; omega)]
          · rw [if_neg hxy, if_neg hxy]
            by_cases hyx : y.t < x.t
            · rw [if_pos hyx, if_pos hyx, ih m (x :: xs) ys (by simp; omega) (by simp; omega)]
            · rw [if_neg hyx, if_neg hyx, ih m xs ys (by omega) (by omega)]

theorem mergeDedupF_nil_left (fuel : Nat) (ys : List Sample) :
    mergeDedupF fuel [] ys = ys := by
  cases fuel <;> rfl

theorem mergeDedupF_nil_right (fuel : Nat) (xs : List Sample) :
    mergeDedupF fuel xs [] = xs := by
  cases fuel <;> cases xs <;> rfl

theorem mergeDedup_nil_left (ys : List Sample) : mergeDedup [] ys = ys :=
  mergeDedupF_nil_left _ ys

theorem mergeDedup_nil_right (xs : List Sample) : mergeDedup xs [] = xs :=
  mergeDedupF_nil_right _ xs

theorem mergeDedup_cons_cons (x : Sample) (xs : List Sample) (y : Sample) (ys : List Sample) :
    mergeDedup (x :: xs) (y :: ys) =
      if x.t < y.t then x :: mergeDedup xs (y :: ys)
      else if y.t < x.t then y :: mergeDedup (x :: xs) ys
      else x :: mergeDedup xs ys := by
  show mergeDedupF ((x :: xs).length + (y :: ys).length) (x :: xs) (y :: ys) = _
  have hlen : (x :: xs).length + (y :: ys).length = (xs.length + (y :: ys).length) + 1 := by
    simp only [List.length_cons]
    omega
  rw [hlen]
  simp only [mergeDedupF]
  by_cases hxy : x.t < y.t
  · rw [if_pos hxy, if_pos hxy]
    rfl
  · rw [if_neg hxy, if_neg hxy]
    by_cases hyx : y.t < x.t
    · rw [if_pos hyx, if_pos hyx]
      have := mergeDedupF_fuel (xs.length + (y :: ys).length) ((x :: xs).length + ys.length)
        (x :: xs) ys (by simp only [List.length_cons]; omega) (le_refl _)
      rw [this]
      rfl
    · rw [if_neg hyx, if_neg hyx]
      have := mergeDedupF_fuel (xs.length + (y :: ys).length) (xs.length + ys.length)
        xs ys (by simp only [List.length_cons]; omega) (le_refl _)
      rw [this]
      rfl

theorem mergeDedup_mem {a : Sample} :
    ∀ {xs ys : List Sample}, a ∈ mergeDedup xs ys → a ∈ xs ∨ a ∈ ys := by
  have main : ∀ (n : Nat) (xs ys : List Sample), xs.length + ys.length ≤ n →
      a ∈ mergeDedup xs ys → a ∈ xs ∨ a ∈ ys := by
    intro n
    induction n with
    | zero =>
      intro xs ys hlen ha
      cases xs with
      | nil => exact Or.inr (by simpa [mergeDedup_nil_left] using ha)
      | cons x xs => simp at hlen
    | succ m ih =>
      intro xs ys hlen ha
      cases xs with
      | nil => exact Or.inr (by simpa [mergeDedup_nil_left] using ha)
      | cons x xs =>
        cases ys with
        | nil => exact Or.inl (by simpa [mergeDedup_nil_right] using ha)
        | cons y ys =>
          rw [mergeDedup_cons_cons] at ha
          simp only [List.length_cons] at hlen
          by_cases hxy : x.t < y.t
          · rw [if_pos hxy] at ha
            rcases List.mem_cons.mp ha with h | h
            · exact Or.inl (by simp [h])
            · rcases ih xs (y :: ys) (by simp; omega) h with h | h
              · exact Or.inl (by simp [h])
              · exact Or.inr h
          · rw [if_neg hxy] at ha
            by_cases hyx : y.t < x.t
            · rw [if_pos hyx] at ha
              rcases List.mem_cons.mp ha with h | h
              · exact Or.inr (by simp [h])
              · rcases ih (x :: xs) ys (by simp; omega) h with h | h
                · exact Or.inl h
                · exact Or.inr (by simp [h])
            · rw [if_neg hyx] at ha
              rcases List.mem_cons.mp ha with h | h
              · exact Or.inl (by simp [h])
              · rcases ih xs ys (by omega) h with h | h
                · exact Or.inl (by simp [h])
                · exact Or.inr (by simp [h])
  intro xs ys
  exact main (xs.length + ys.length) xs ys (le_refl _)

theorem tsOf_mem_iff {u : Int} {l : List Sample} :
    u ∈ tsOf l ↔ ∃ a ∈ l, a.t = u := by
  simp [tsOf]

theorem tsOf_cons (a : Sample) (l : List Sample) : tsOf (a :: l) = a.t :: tsOf l := rfl

theorem mergeDedup_ts_left :
    ∀ {xs ys : List Sample} {a : Sample}, a ∈ xs → a.t ∈ tsOf (mergeDedup xs ys) := by
  have main : ∀ (n : Nat) (xs ys : List Sample) (a : Sample), xs.length + ys.length ≤ n →
      a ∈ xs → a.t ∈ tsOf (mergeDedup xs ys) := by
    intro n
    induction n with
    | zero =>
      intro xs ys a hlen ha
      cases xs with
      | nil => cases ha
      | cons x xs => simp at hlen
    | succ m ih =>
      intro xs ys a hlen ha
      cases xs with
      | nil => cases ha
      | cons x xs =>
        cases ys with
        | nil =>
          rw [mergeDedup_nil_right]
          exact tsOf_mem_iff.mpr ⟨a, ha, rfl⟩
        | cons y ys =>
          rw [mergeDedup_cons_cons]
          simp only [List.length_cons] at hlen
          by_cases hxy : x.t < y.t
          · rw [if_pos hxy, tsOf_cons]
            rcases List.mem_cons.mp ha with h | h
            · rw [h]; simp
            · exact List.mem_cons_of_mem _ (ih xs (y :: ys) a (by simp only [List.length_cons]; omega) h)
          · rw [if_neg hxy]
            by_cases hyx : y.t < x.t
            · rw [if_pos hyx, tsOf_cons]
              exact List.mem_cons_of_mem _ (ih (x :: xs) ys a (by simp only [List.length_cons]; omega) ha)
            · rw [if_neg hyx, tsOf_cons]
              rcases List.mem_cons.mp ha with h | h
              · rw [h]; simp
              · exact List.mem_cons_of_mem _ (ih xs ys a (by omega) h)
  intro xs ys a ha
  exact main (xs.length + ys.length) xs ys a (le_refl _) ha

theorem mergeDedup_ts_right :
    ∀ {xs ys : List Sample} {a : Sample}, a ∈ ys → a.t ∈ tsOf (mergeDedup xs ys) := by
  have main : ∀ (n : Nat) (xs ys : List Sample) (a : Sample), xs.length + ys.length ≤ n →
      a ∈ ys → a.t ∈ tsOf (mergeDedup xs ys) := by
    intro n
    induction n with
    | zero =>
      intro xs ys a hlen ha
      cases xs with
      | nil =>
        rw [mergeDedup_nil_left]
        exact tsOf_mem_iff.mpr ⟨a, ha, rfl⟩
      | cons x xs => simp at hlen
    | succ m ih =>
      intro xs ys a hlen ha
      cases xs with
      | nil =>
        rw [mergeDedup_nil_left]
        exact tsOf_mem_iff.mpr ⟨a, ha, rfl⟩
      | cons x xs =>
        cases ys with
        | nil => cases ha
        | cons y ys =>
          rw [mergeDedup_cons_cons]
          simp only [List.length_cons] at hlen
          by_cases hxy : x.t < y.t
          · rw [if_pos hxy, tsOf_cons]
            exact List.mem_cons_of_mem _ (ih xs (y :: ys) a (by simp only [List.length_cons]; omega) ha)
          · rw [if_neg hxy]
            by_cases hyx : y.t < x.t
            · rw [if_pos hyx, tsOf_cons]
              rcases List.mem_cons.mp ha with h | h
              · rw [h]; simp
              · exact List.mem_cons_of_mem _ (ih (x :: xs) ys a (by simp only [List.length_cons]; omega) h)
            · rw [if_neg hyx, tsOf_cons]
              have hteq : x.t = y.t := le_antisymm (not_lt.mp hyx) (not_lt.mp hxy)
              rcases List.mem_cons.mp ha with h | h
              · rw [h, ← hteq]; simp
              · exact List.mem_cons_of_mem _ (ih xs ys a (by omega) h)
  intro xs ys a ha
  exact main (xs.length + ys.length) xs ys a (le_refl _) ha

theorem mergeDedup_ts_sub {u : Int} {xs ys : List Sample}
    (hu : u ∈ tsOf (mergeDedup xs ys)) : u ∈ tsOf xs ∨ u ∈ tsOf ys := by
  rcases tsOf_mem_iff.mp hu with ⟨a, ha, hat⟩
  rcases mergeDedup_mem ha with h | h
  · exact Or.inl (tsOf_mem_iff.mpr ⟨a, h, hat⟩)
  · exact Or.inr (tsOf_mem_iff.mpr ⟨a, h, hat⟩)

theorem mergeDedup_sorted :
    ∀ {xs ys : List Sample}, StrictT xs → StrictT ys → StrictT (mergeDedup xs ys) := by
  have main : ∀ (n : Nat) (xs ys : List Sample), xs.length + ys.length ≤ n →
      StrictT xs → StrictT ys → StrictT (mergeDedup xs ys) := by
    intro n
    induction n with
    | zero =>
      intro xs ys hlen hx hy
      cases xs with
      | nil => simpa [mergeDedup_nil_left] using hy
      | cons x xs => simp at hlen
    | succ m ih =>
      intro xs ys hlen hx hy
      cases xs with
      | nil => simpa [mergeDedup_nil_left] using hy
      | cons x xs =>
        cases ys with
        | nil => simpa [mergeDedup_nil_right] using hx
        | cons y ys =>
          rw [mergeDedup_cons_cons]
          simp only [List.length_cons] at hlen
          have hx1 := (List.pairwise_cons.mp hx).1
          have hx2 := (List.pairwise_cons.mp hx).2
          have hy1 := (List.pairwise_cons.mp hy).1
          have hy2 := (List.pairwise_cons.mp hy).2
          by_cases hxy : x.t < y.t
          · rw [if_pos hxy]
            refine List.pairwise_cons.mpr ⟨?_, ih xs (y :: ys) (by simp; omega) hx2 hy⟩
            intro b hb
            rcases mergeDedup_mem hb with h | h
            · exact hx1 b h
            · rcases List.mem_cons.mp h with h2 | h2
              · rw [h2]; exact hxy
              · exact lt_trans hxy (hy1 b h2)
          · rw [if_neg hxy]
            by_cases hyx : y.t < x.t
            · rw [if_pos hyx]
              refine List.pairwise_cons.mpr ⟨?_, ih (x :: xs) ys (by simp; omega) hx hy2⟩
              intro b hb
              rcases mergeDedup_mem hb with h | h
              · rcases List.mem_cons.mp h with h2 | h2
                · rw [h2]; exact hyx
                · exact lt_trans hyx (hx1 b h2)
              · exact hy1 b h
            · rw [if_neg hyx]
              have hteq : x.t = y.t := le_antisymm (not_lt.mp hyx) (not_lt.mp hxy)
              refine List.pairwise_cons.mpr ⟨?_, ih xs ys (by omega) hx2 hy2⟩
              intro b hb
              rcases mergeDedup_mem hb with h | h
              · exact hx1 b h
              · exact hteq ▸ hy1 b h
  intro xs ys
  exact main (xs.length + ys.length) xs ys (le_refl _)

/-! ## takeBatch and rebatch lemmas -/

theorem takeBatch_pre (size : Nat) (xs : List Sample) :
    takeBatch size xs <+: xs := by
  cases xs with
  | nil => simp [takeBatch]
  | cons x l =>
    by_cases hs : size = 0
    · simp [takeBatch, hs]
    · simp only [takeBatch, if_neg hs]
      rw [List.cons_prefix_cons]
      exact ⟨rfl, (List.take_prefix _ _).trans (List.takeWhile_prefix _)⟩

theorem takeBatch_eq_take (size : Nat) (xs : List Sample) :
    takeBatch size xs = xs.take ((takeBatch size xs).length) :=
  List.prefix_iff_eq_take.mp (takeBatch_pre size xs)

theorem takeBatch_append_drop (size : Nat) (xs : List Sample) :
    takeBatch size xs ++ xs.drop ((takeBatch size xs).length) = xs := by
  nth_rewrite 1 [takeBatch_eq_take]
  exact List.take_append_drop _ xs

theorem takeBatch_subset {size : Nat} {xs : List Sample} {a : Sample}
    (ha : a ∈ takeBatch size xs) : a ∈ xs :=
  (takeBatch_pre size xs).subset ha

theorem takeBatch_length_le (size : Nat) (xs : List Sample) :
    (takeBatch size xs).length ≤ size := by
  cases xs with
  | nil => simp [takeBatch]
  | cons x l =>
    by_cases hs : size = 0
    · simp [takeBatch, hs]
    · simp only [takeBatch, if_neg hs, List.length_cons]
      have := List.length_take_le (size - 1) (l.takeWhile (fun y => y.kind = x.kind))
      omega

theorem takeBatch_cons (size : Nat) (x : Sample) (l : List Sample) (hs : size ≠ 0) :
    takeBatch size (x :: l) =
      x :: ((l.takeWhile (fun y => y.kind = x.kind)).take (size - 1)) := by
  simp [takeBatch, hs]

theorem takeBatch_ne_nil {size : Nat} {xs : List Sample} (hxs : xs ≠ []) (hs : size ≠ 0) :
    takeBatch size xs ≠ [] := by
  cases xs with
  | nil => exact absurd rfl hxs
  | cons x l => rw [takeBatch_cons size x l hs]; simp

theorem takeBatch_sorted {size : Nat} {xs : List Sample} (hxs : StrictT xs) :
    StrictT (takeBatch size xs) := by
  rw [takeBatch_eq_take]
  exact hxs.sublist (List.take_sublist _ _)

theorem takeBatch_idem (size : Nat) (xs : List Sample) :
    takeBatch size (takeBatch size xs) = takeBatch size xs := by
  cases xs with
  | nil => rfl
  | cons x l =>
    by_cases hs : size = 0
    · simp [takeBatch, hs]
    · rw [takeBatch_cons size x l hs, takeBatch_cons size x _ hs]
      have hall : ∀ a ∈ (l.takeWhile (fun y => y.kind = x.kind)).take (size - 1),
          (fun y => decide (y.kind = x.kind)) a = true := by
        intro a ha
        have := List.mem_takeWhile_imp (List.take_subset _ _ ha)
        simpa using this
      rw [List.takeWhile_eq_self_iff.mpr hall, List.take_take]
      simp

/-! ## rebatch lemmas -/

theorem rebatchF_fuel :
    ∀ (fuel fuel' size : Nat) (xs : List Sample), xs.length ≤ fuel → xs.length ≤ fuel' →
      rebatchF fuel size xs = rebatchF fuel' size xs := by
  intro fuel
  induction fuel with
  | zero =>
    intro fuel' size xs h1 _
    have hx : xs = [] := List.length_eq_zero.mp (by omega)
    subst hx
    cases fuel' with
    | zero => rfl
    | succ m => simp [rebatchF, takeBatch]
  | succ n ih =>
    intro fuel' size xs h1 h2
    cases xs with
    | nil =>
      cases fuel' with
      | zero => rfl
      | succ m => simp [rebatchF, takeBatch]
    | cons x l =>
      cases fuel' with
      | zero => simp at h2
      | succ m =>
        simp only [rebatchF]
        cases htb : takeBatch size (x :: l) with
        | nil => rfl
        | cons b0 brest =>
          have hlen : ((x :: l).drop ((b0 :: brest).length)).length ≤ n ∧
              ((x :: l).drop ((b0 :: brest).length)).length ≤ m := by
            have hd := List.length_drop ((b0 :: brest).length) (x :: l)
            simp only [List.length_cons] at hd h1 h2 ⊢
            omega
          exact congrArg (List.cons ⟨b0 :: brest, 0⟩) (ih m size _ hlen.1 hlen.2)

theorem rebatch_eq (size : Nat) (xs : List Sample) :
    rebatch size xs =
      match takeBatch size xs with
      | [] => []
      | b0 :: brest => ⟨b0 :: brest, 0⟩ :: rebatch size (xs.drop ((b0 :: brest).length)) := by
  cases xs with
  | nil => rfl
  | cons x l =>
    show rebatchF ((x :: l).length) size (x :: l) = _
    have : (x :: l).length = l.length + 1 := by simp
    rw [this]
    simp only [rebatchF]
    cases htb : takeBatch size (x :: l) with
    | nil => rfl
    | cons b0 brest =>
      have hd := List.length_drop ((b0 :: brest).length) (x :: l)
      exact congrArg (List.cons ⟨b0 :: brest, 0⟩)
        (rebatchF_fuel l.length (((x :: l).drop ((b0 :: brest).length)).length) size _
          (by simp only [List.length_cons] at hd ⊢; omega) (le_refl _))

theorem rebatch_mem {size : Nat} :
    ∀ (xs : List Sample), ∀ b ∈ rebatch size xs, b.index = 0 ∧ b.samples ≠ [] := by
  have main : ∀ (n : Nat) (xs : List Sample), xs.length ≤ n →
      ∀ b ∈ rebatch size xs, b.index = 0 ∧ b.samples ≠ [] := by
    intro n
    induction n with
    | zero =>
      intro xs hlen b hb
      have hx : xs = [] := List.length_eq_zero.mp (by omega)
      subst hx
      cases hb
    | succ m ih =>
      intro xs hlen b hb
      rw [rebatch_eq] at hb
      cases htb : takeBatch size xs with
      | nil => rw [htb] at hb; cases hb
      | cons b0 brest =>
        rw [htb] at hb
        have hdl := List.length_drop ((b0 :: brest).length) xs
        have hxs : xs ≠ [] := by
          intro hx
          subst hx
          simp [takeBatch] at htb
        have hlen2 : (xs.drop ((b0 :: brest).length)).length ≤ m := by
          cases xs with
          | nil => exact absurd rfl hxs
          | cons x l => simp only [List.length_cons] at hdl hlen ⊢; omega
        rcases List.mem_cons.mp hb with h | h
        · rw [h]; exact ⟨rfl, by simp⟩
        · exact ih (xs.drop ((b0 :: brest).length)) hlen2 b h
  intro xs
  exact main xs.length xs (le_refl _)

theorem rebatch_flattenB {size : Nat} (hs : size ≠ 0) :
    ∀ (xs : List Sample), flattenB (rebatch size xs) = xs := by
  have main : ∀ (n : Nat) (xs : List Sample), xs.length ≤ n →
      flattenB (rebatch size xs) = xs := by
    intro n
    induction n with
    | zero =>
      intro xs hlen
      have hx : xs = [] := List.length_eq_zero.mp (by omega)
      subst hx
      rfl
    | succ m ih =>
      intro xs hlen
      rw [rebatch_eq]
      cases htb : takeBatch size xs with
      | nil =>
        cases xs with
        | nil => rfl
        | cons x l => exact absurd htb (takeBatch_ne_nil (by simp) hs)
      | cons b0 brest =>
        show flattenB (({ samples := b0 :: brest, index := 0 } : Batch) ::
          rebatch size (xs.drop ((b0 :: brest).length))) = xs
        have hdl := List.length_drop ((b0 :: brest).length) xs
        have hxs : xs ≠ [] := by
          intro hx
          subst hx
          simp [takeBatch] at htb
        have hlen2 : (xs.drop ((b0 :: brest).length)).length ≤ m := by
          cases xs with
          | nil => exact absurd rfl hxs
          | cons x l => simp only [List.length_cons] at hdl hlen ⊢; omega
        have hflat := ih (xs.drop ((b0 :: brest).length)) hlen2
        unfold flattenB
        simp only [List.map_cons, List.flatten_cons]
        rw [show ((rebatch size (xs.drop ((b0 :: brest).length))).map Batch.samples).flatten =
          flattenB (rebatch size (xs.drop ((b0 :: brest).length))) from rfl, hflat, ← htb]
        exact takeBatch_append_drop size xs
  intro xs
  exact main xs.length xs (le_refl _)

/-! ## Heap verification (Go container/heap) -/

theorem getD_mem_of_lt {h : List Nat} {k : Nat} (hk : k < h.length) : h.getD k 0 ∈ h := by
  rw [List.getD_eq_getElem?_getD, List.getElem?_eq_getElem hk]
  exact List.getElem_mem hk

theorem lswap_length (h : List Nat) (i j : Nat) : (lswap h i j).length = h.length := by
  simp [lswap]

theorem lswap_getD {h : List Nat} {i j : Nat} (hi : i < h.length) (hj : j < h.length)
    (k : Nat) :
    (lswap h i j).getD k 0 =
      if k = j then h.getD i 0 else if k = i then h.getD j 0 else h.getD k 0 := by
  unfold lswap
  rw [List.getD_eq_getElem?_getD, List.getElem?_set]
  by_cases hkj : k = j
  · rw [if_pos hkj.symm, if_pos hkj]
    rw [List.length_set, if_pos hj]
    rfl
  · rw [if_neg (fun hh => hkj hh.symm), if_neg hkj, List.getElem?_set]
    by_cases hki : k = i
    · rw [if_pos hki.symm, if_pos hki, if_pos hi]
      rfl
    · rw [if_neg (fun hh => hki hh.symm), if_neg hki]
      rw [List.getD_eq_getElem?_getD]

theorem lswap_mem {h : List Nat} {i j : Nat} (hi : i < h.length) (hj : j < h.length)
    {a : Nat} (ha : a ∈ lswap h i j) : a ∈ h := by
  rcases List.mem_or_eq_of_mem_set ha with h1 | h1
  · rcases List.mem_or_eq_of_mem_set h1 with h2 | h2
    · exact h2
    · rw [h2]; exact getD_mem_of_lt hj
  · rw [h1]; exact getD_mem_of_lt hi

theorem lswap_distinct {h : List Nat} {i j : Nat} (hi : i < h.length) (hj : j < h.length)
    (hd : HDistinct h) : HDistinct (lswap h i j) := by
  intro a b ha hb heq
  rw [lswap_length] at ha hb
  rw [lswap_getD hi hj a, lswap_getD hi hj b] at heq
  split_ifs at heq with h1 h2 h3 h4 h5 h6 h7 h8 h9 <;>
    first
      | omega
      | (have hq := hd _ _ hi hj heq; omega)
      | (have hq := hd _ _ hi hi heq; omega)
      | (have hq := hd _ _ hi ha heq; omega)
      | (have hq := hd _ _ hi hb heq; omega)
      | (have hq := hd _ _ hj hi heq; omega)
      | (have hq := hd _ _ hj hj heq; omega)
      | (have hq := hd _ _ hj ha heq; omega)
      | (have hq := hd _ _ hj hb heq; omega)
      | (have hq := hd _ _ ha hi heq; omega)
      | (have hq := hd _ _ ha hj heq; omega)
      | (have hq := hd _ _ ha hb heq; omega)
      | (have hq := hd _ _ ha ha heq; omega)

theorem heapDownF_length (key : Nat → Int) :
    ∀ (fuel : Nat) (h : List Nat) (i n : Nat),
      (heapDownF key fuel h i n).length = h.length := by
  intro fuel
  induction fuel with
  | zero => intro h i n; rfl
  | succ m ih =>
    intro h i n
    simp only [heapDownF]
    split
    · split
      · split
        · rw [ih, lswap_length]
        · rfl
      · split
        · rw [ih, lswap_length]
        · rfl
    · rfl

theorem heapDownF_subset (key : Nat → Int) :
    ∀ (fuel : Nat) (h : List Nat) (i n : Nat), n ≤ h.length →
      ∀ a ∈ heapDownF key fuel h i n, a ∈ h := by
  intro fuel
  induction fuel with
  | zero => intro h i n _ a ha; exact ha
  | succ m ih =>
    intro h i n hn a ha
    simp only [heapDownF] at ha
    split at ha
    · rename_i hj1
      split at ha
      · rename_i hsel
        split at ha
        · have hmem := ih _ _ _ (by rw [lswap_length]; exact hn) a ha
          exact lswap_mem (by omega) (by have := hsel.1; omega) hmem
        · exact ha
      · split at ha
        · have hmem := ih _ _ _ (by rw [lswap_length]; exact hn) a ha
          exact lswap_mem (by omega) (by omega) hmem
        · exact ha
    · exact ha

theorem heapDownF_distinct (key : Nat → Int) :
    ∀ (fuel : Nat) (h : List Nat) (i n : Nat), n ≤ h.length → HDistinct h →
      HDistinct (heapDownF key fuel h i n) := by
  intro fuel
  induction fuel with
  | zero => intro h i n _ hd; exact hd
  | succ m ih =>
    intro h i n hn hd
    simp only [heapDownF]
    split
    · rename_i hj1
      split
      · rename_i hsel
        split
        · exact ih _ _ _ (by rw [lswap_length]; exact hn)
            (lswap_distinct (by omega) (by have := hsel.1; omega) hd)
        · exact hd
      · split
        · exact ih _ _ _ (by rw [lswap_length]; exact hn)
            (lswap_distinct (by omega) (by omega) hd)
        · exact hd
    · exact hd

theorem hparent_lt {j : Nat} (hj : 0 < j) : hparent j < j := by
  unfold hparent
  omega

theorem hparent_children {i j : Nat} (hj : 0 < j) :
    hparent j = i ↔ j = 2 * i + 1 ∨ j = 2 * i + 2 := by
  unfold hparent
  omega

/-- With no child of `i` inside the first `n` positions, exempting the edges
out of `i` exempts nothing. -/
theorem heapN_of_no_children {key : Nat → Int} {h : List Nat} {n k i : Nat}
    (hnc : n ≤ 2 * i + 1) (hexc : HeapExc key h n k i) : HeapN key h n k := by
  intro j hj hj0 hkp
  refine hexc j hj hj0 hkp ?_
  intro hpi
  rcases (hparent_children hj0).mp hpi with h1 | h1 <;> omega

/-- When the root of the sift is no larger than its smallest child, the slice
is already a heap. -/
theorem heapDown_stop_aux {key : Nat → Int} {h : List Nat} {n k i jv : Nat}
    (hexc : HeapExc key h n k i)
    (hminc : ∀ c, c < n → 0 < c → hparent c = i → key (h.getD jv 0) ≤ key (h.getD c 0))
    (hstop : key (h.getD i 0) ≤ key (h.getD jv 0)) : HeapN key h n k := by
  intro j hj hj0 hkp
  by_cases hpi : hparent j = i
  · rw [hpi]
    exact le_trans hstop (hminc j hj hj0 hpi)
  · exact hexc j hj hj0 hkp hpi

/-- Correctness of `container/heap`'s `down`: if the ordering holds everywhere
(above `k`) except on the edges out of `i`, and the element above `i` is
already no larger than `i`'s children, sifting down restores the ordering. -/
theorem heapDownF_heap (key : Nat → Int) :
    ∀ (fuel : Nat) (h : List Nat) (i n k : Nat),
      k ≤ i → n - i ≤ fuel → n ≤ h.length →
      HeapExc key h n k i →
      (∀ c, c < n → hparent c = i → 0 < i → k ≤ hparent i →
        key (h.getD (hparent i) 0) ≤ key (h.getD c 0)) →
      HeapN key (heapDownF key fuel h i n) n k := by
  intro fuel
  induction fuel with
  | zero =>
    intro h i n k hk hfuel hn hexc _
    exact heapN_of_no_children (by omega) hexc
  | succ m ih =>
    intro h i n k hk hfuel hn hexc hbridge
    have hswapcase : ∀ jv : Nat, i < jv → jv < n → hparent jv = i →
        (∀ c, c < n → 0 < c → hparent c = i → key (h.getD jv 0) ≤ key (h.getD c 0)) →
        key (h.getD jv 0) < key (h.getD i 0) →
        HeapN key (heapDownF key m (lswap h i jv) jv n) n k := by
      intro jv hijv hjvn hpjv hminc hswap
      have hilen : i < h.length := by omega
      have hjvlen : jv < h.length := by omega
      refine ih (lswap h i jv) jv n k (by omega) (by omega)
        (by rw [lswap_length]; exact hn) ?_ ?_
      · intro j hj hj0 hkp hpne
        rw [lswap_getD hilen hjvlen, lswap_getD hilen hjvlen]
        by_cases hjjv : j = jv
        · subst hjjv
          rw [hpjv] at hkp hpne ⊢
          rw [if_neg (by omega), if_pos rfl, if_pos rfl]
          exact le_of_lt hswap
        · by_cases hji : j = i
          · subst hji
            have hplt : hparent j < j := hparent_lt hj0
            rw [if_neg (by omega), if_neg (by omega), if_neg hjjv, if_pos rfl]
            exact hbridge jv hjvn hpjv hj0 hkp
          · rw [if_neg hjjv, if_neg hji, if_neg hpne]
            by_cases hpi : hparent j = i
            · rw [if_pos hpi]
              exact hminc j hj hj0 hpi
            · rw [if_neg hpi]
              exact hexc j hj hj0 hkp hpi
      · intro c hc hpc hjv0 hkb
        have hc0 : 0 < c := by
          rcases Nat.eq_zero_or_pos c with h0 | h0
          · exfalso
            subst h0
            unfold hparent at hpc
            omega
          · exact h0
        have hcjv : 2 * jv + 1 ≤ c := by
          rcases (hparent_children hc0).mp hpc with h1 | h1 <;> omega
        rw [hpjv, lswap_getD hilen hjvlen, lswap_getD hilen hjvlen]
        rw [if_neg (by omega), if_pos rfl, if_neg (by omega), if_neg (by omega), ← hpc]
        exact hexc c hc hc0 (by omega) (by omega)
    simp only [heapDownF]
    split
    · rename_i hj1
      split
      · rename_i hsel
        have hminc : ∀ c, c < n → 0 < c → hparent c = i →
            key (h.getD (2 * i + 1 + 1) 0) ≤ key (h.getD c 0) := by
          intro c hc hc0 hpc
          rcases (hparent_children hc0).mp hpc with h1 | h1
          · rw [h1]
            exact le_of_lt hsel.2
          · rw [h1, show 2 * i + 2 = 2 * i + 1 + 1 by omega]
        split
        · rename_i hsw
          exact hswapcase (2 * i + 1 + 1) (by omega) hsel.1
            ((hparent_children (by omega)).mpr (Or.inr (by omega))) hminc hsw
        · rename_i hsw
          exact heapDown_stop_aux hexc hminc (not_lt.mp hsw)
      · rename_i hsel
        have hminc : ∀ c, c < n → 0 < c → hparent c = i →
            key (h.getD (2 * i + 1) 0) ≤ key (h.getD c 0) := by
          intro c hc hc0 hpc
          rcases (hparent_children hc0).mp hpc with h1 | h1
          · rw [h1]
          · rw [h1]
            have h2 : ¬ key (h.getD (2 * i + 1 + 1) 0) < key (h.getD (2 * i + 1) 0) := by
              intro hlt
              exact hsel ⟨by omega, hlt⟩
            rw [show 2 * i + 2 = 2 * i + 1 + 1 by omega]
            exact not_lt.mp h2
        split
        · rename_i hsw
          exact hswapcase (2 * i + 1) (by omega) hj1
            ((hparent_children (by omega)).mpr (Or.inl rfl)) hminc hsw
        · rename_i hsw
          exact heapDown_stop_aux hexc hminc (not_lt.mp hsw)
    · rename_i hj1
      exact heapN_of_no_children (by omega) hexc

theorem heapUp_zero (key : Nat → Int) (h : List Nat) : heapUp key h 0 = h := rfl

theorem heapFix_zero_eq (key : Nat → Int) (h : List Nat) :
    heapFix key h 0 = heapDown key h 0 h.length := by
  simp only [heapFix]
  split <;> rfl

theorem heapFix_heap {key : Nat → Int} {h : List Nat}
    (hexc : HeapExc key h h.length 0 0) : IsHeap key (heapFix key h 0) := by
  rw [heapFix_zero_eq]
  unfold IsHeap
  have hmain := heapDownF_heap key h.length h 0 h.length 0 (le_refl 0) (by omega)
    (le_refl _) hexc (fun c hc hpc h0i hk => absurd h0i (lt_irrefl 0))
  show HeapN key (heapDownF key h.length h 0 h.length)
    ((heapDownF key h.length h 0 h.length).length) 0
  rw [heapDownF_length]
  exact hmain

theorem heapFix_length (key : Nat → Int) (h : List Nat) :
    (heapFix key h 0).length = h.length := by
  rw [heapFix_zero_eq]
  exact heapDownF_length key _ h 0 h.length

theorem heapFix_subset {key : Nat → Int} {h : List Nat} {a : Nat}
    (ha : a ∈ heapFix key h 0) : a ∈ h := by
  rw [heapFix_zero_eq] at ha
  exact heapDownF_subset key _ h 0 h.length (le_refl _) a ha

theorem heapFix_distinct {key : Nat → Int} {h : List Nat} (hd : HDistinct h) :
    HDistinct (heapFix key h 0) := by
  rw [heapFix_zero_eq]
  exact heapDownF_distinct key _ h 0 h.length (le_refl _) hd

theorem heapInitFrom_length (key : Nat → Int) :
    ∀ (i : Nat) (h : List Nat), (heapInitFrom key h i).length = h.length := by
  intro i
  induction i with
  | zero => intro h; exact heapDownF_length key _ h 0 h.length
  | succ m ih =>
    intro h
    show (heapInitFrom key (heapDown key h (m + 1) h.length) m).length = h.length
    rw [ih]
    exact heapDownF_length key _ h (m + 1) h.length

theorem heapInitFrom_subset (key : Nat → Int) :
    ∀ (i : Nat) (h : List Nat), ∀ a ∈ heapInitFrom key h i, a ∈ h := by
  intro i
  induction i with
  | zero => intro h a ha; exact heapDownF_subset key _ h 0 h.length (le_refl _) a ha
  | succ m ih =>
    intro h a ha
    have h1 := ih (heapDown key h (m + 1) h.length) a ha
    exact heapDownF_subset key _ h (m + 1) h.length (le_refl _) a h1

theorem heapInitFrom_distinct (key : Nat → Int) :
    ∀ (i : Nat) (h : List Nat), HDistinct h → HDistinct (heapInitFrom key h i) := by
  intro i
  induction i with
  | zero => intro h hd; exact heapDownF_distinct key _ h 0 h.length (le_refl _) hd
  | succ m ih =>
    intro h hd
    exact ih _ (heapDownF_distinct key _ h (m + 1) h.length (le_refl _) hd)

theorem heapInitFrom_heap (key : Nat → Int) :
    ∀ (i : Nat) (h : List Nat), HeapN key h h.length (i + 1) →
      IsHeap key (heapInitFrom key h i) := by
  intro i
  induction i with
  | zero =>
    intro h hyp
    have hmain := heapDownF_heap key h.length h 0 h.length 0 (le_refl 0) (by omega)
      (le_refl _) (fun j hj hj0 hkp hpne => hyp j hj hj0 (by omega))
      (fun c hc hpc h0i hk => absurd h0i (lt_irrefl 0))
    show HeapN key (heapDownF key h.length h 0 h.length)
      ((heapDownF key h.length h 0 h.length).length) 0
    rw [heapDownF_length]
    exact hmain
  | succ m ih =>
    intro h hyp
    show IsHeap key (heapInitFrom key (heapDown key h (m + 1) h.length) m)
    have hdown := heapDownF_heap key h.length h (m + 1) h.length (m + 1) (le_refl _)
      (by omega) (le_refl _)
      (fun j hj hj0 hkp hpne => hyp j hj hj0 (by omega))
      (fun c hc hpc h0i hk => by
        exfalso
        have := @hparent_lt (m + 1) (by omega)
        omega)
    refine ih (heapDown key h (m + 1) h.length) ?_
    intro j hj hj0 hkp
    have hj2 : j < h.length := by
      have hleq : (heapDown key h (m + 1) h.length).length = h.length :=
        heapDownF_length key h.length h (m + 1) h.length
      omega
    exact hdown j hj2 hj0 hkp

theorem heapInit_heap (key : Nat → Int) (h : List Nat) : IsHeap key (heapInit key h) := by
  unfold heapInit
  refine heapInitFrom_heap key _ h ?_
  intro j hj hj0 hkp
  exfalso
  unfold hparent at hkp
  omega

theorem heapInit_length (key : Nat → Int) (h : List Nat) :
    (heapInit key h).length = h.length :=
  heapInitFrom_length key _ h

theorem heapInit_subset {key : Nat → Int} {h : List Nat} {a : Nat}
    (ha : a ∈ heapInit key h) : a ∈ h :=
  heapInitFrom_subset key _ h a ha

theorem heapInit_distinct {key : Nat → Int} {h : List Nat} (hd : HDistinct h) :
    HDistinct (heapInit key h) :=
  heapInitFrom_distinct key _ h hd

theorem isHeap_root_min {key : Nat → Int} {h : List Nat} (hh : IsHeap key h) :
    ∀ j, j < h.length → key (h.getD 0 0) ≤ key (h.getD j 0) := by
  intro j
  induction j using Nat.strong_induction_on with
  | _ j ih =>
    intro hj
    rcases Nat.eq_zero_or_pos j with h0 | h0
    · subst h0; exact le_refl _
    · have hpl := hparent_lt h0
      have hedge := hh j hj h0 (Nat.zero_le _)
      exact le_trans (ih (hparent j) hpl (lt_trans hpl hj)) hedge

theorem getD_take {l : List Nat} {n k : Nat} (hk : k < n) :
    (l.take n).getD k 0 = l.getD k 0 := by
  rw [List.getD_eq_getElem?_getD, List.getD_eq_getElem?_getD, List.getElem?_take, if_pos hk]

theorem heapPop_eq (key : Nat → Int) (h : List Nat) :
    heapPop key h =
      (heapDownF key (h.length - 1) (lswap h 0 (h.length - 1)) 0 (h.length - 1)).take
        (h.length - 1) := rfl

theorem heapPop_length (key : Nat → Int) (h : List Nat) :
    (heapPop key h).length = h.length - 1 := by
  rw [heapPop_eq, List.length_take, heapDownF_length, lswap_length]
  omega

theorem heapPop_subset {key : Nat → Int} {h : List Nat} {a : Nat}
    (ha : a ∈ heapPop key h) : a ∈ h := by
  rw [heapPop_eq] at ha
  have h1 := List.take_subset _ _ ha
  have h2 := heapDownF_subset key _ _ 0 (h.length - 1)
    (by rw [lswap_length]; omega) a h1
  cases hl : h with
  | nil => subst hl; simpa [lswap] using h2
  | cons x xs =>
    subst hl
    exact lswap_mem (by simp) (by simp) h2

theorem heapPop_distinct {key : Nat → Int} {h : List Nat} (hd : HDistinct h) :
    HDistinct (heapPop key h) := by
  rw [heapPop_eq]
  intro a b ha hb heq
  rw [List.length_take, heapDownF_length, lswap_length] at ha hb
  have hdd : HDistinct (heapDownF key (h.length - 1) (lswap h 0 (h.length - 1)) 0
      (h.length - 1)) := by
    cases hl : h with
    | nil => subst hl; simpa [lswap] using hd
    | cons x xs =>
      subst hl
      exact heapDownF_distinct key _ _ 0 _ (by rw [lswap_length]; omega)
        (lswap_distinct (by simp) (by simp) hd)
  rw [getD_take (by omega), getD_take (by omega)] at heq
  exact hdd a b (by rw [heapDownF_length, lswap_length]; omega)
    (by rw [heapDownF_length, lswap_length]; omega) heq

theorem heapPop_heap {key : Nat → Int} {h : List Nat}
    (hh : HeapExc key h h.length 0 0) : IsHeap key (heapPop key h) := by
  cases hl : h with
  | nil =>
    subst hl
    intro j hj hj0 hkp
    rw [heapPop_length] at hj
    exact absurd hj (by simp)
  | cons x xs =>
    subst hl
    set h0 : List Nat := x :: xs
    have hlen : 0 < h0.length := by simp [h0]
    have hexc : HeapExc key (lswap h0 0 (h0.length - 1)) (h0.length - 1) 0 0 := by
      intro j hj hj0 hkp hpne
      have hpl := hparent_lt hj0
      rw [lswap_getD (by omega) (by omega), lswap_getD (by omega) (by omega)]
      rw [if_neg (by omega), if_neg hpne, if_neg (by omega), if_neg (by omega)]
      exact hh j (by omega) hj0 (Nat.zero_le _) hpne
    have hdown := heapDownF_heap key (h0.length - 1) (lswap h0 0 (h0.length - 1)) 0
      (h0.length - 1) 0 (le_refl 0) (by omega) (by rw [lswap_length]; omega) hexc
      (fun c hc hpc h0i hk => absurd h0i (lt_irrefl 0))
    rw [heapPop_eq]
    intro j hj hj0 hkp
    rw [List.length_take, heapDownF_length, lswap_length] at hj
    have hj2 : j < h0.length - 1 := by omega
    have hpl := hparent_lt hj0
    rw [getD_take (by omega), getD_take (by omega)]
    exact hdown j hj2 hj0 hkp

/-! ## Child iterator lemmas -/

theorem childNext_all (size : Nat) (c : ChildIt) : (childNext size c).2.all = c.all := by
  simp only [childNext]
  split <;> rfl

theorem childNext_err (size : Nat) (c : ChildIt) : (childNext size c).2.err = c.err := by
  simp only [childNext]
  split <;> rfl

theorem childNext_pos (size : Nat) (c : ChildIt) :
    (childNext size c).2.pos = c.pos + c.blen := by
  simp only [childNext]
  split <;> rfl

theorem takeBatch_length_le_len (size : Nat) (xs : List Sample) :
    (takeBatch size xs).length ≤ xs.length := by
  conv_lhs => rw [takeBatch_eq_take]
  rw [List.length_take]
  omega

theorem childNext_blen (size : Nat) (c : ChildIt) :
    (childNext size c).2.blen = (takeBatch size (c.all.drop (c.pos + c.blen))).length := by
  simp only [childNext]
  split
  · rename_i heq
    simp [heq]
  · rfl

theorem childNext_none_iff {size : Nat} {c : ChildIt}
    (hk : ∀ x ∈ c.all, x.kind ≠ ValueType.none) :
    (childNext size c).1 = ValueType.none ↔
      takeBatch size (c.all.drop (c.pos + c.blen)) = [] := by
  simp only [childNext]
  cases hx : takeBatch size (c.all.drop (c.pos + c.blen)) with
  | nil => simp
  | cons y ys =>
    simp only
    constructor
    · intro hkind
      exfalso
      have hy : y ∈ c.all :=
        List.drop_subset _ _ (takeBatch_subset (hx ▸ List.mem_cons_self y ys))
      exact hk y hy hkind
    · intro hcon
      cases hcon

theorem childNext_wf {size : Nat} {c : ChildIt} (hc : ChildWf c) :
    ChildWf (childNext size c).2 := by
  refine ⟨by rw [childNext_all]; exact hc.1, ?_, by rw [childNext_all]; exact hc.2.2⟩
  rw [childNext_all, childNext_pos, childNext_blen]
  have h2 := takeBatch_length_le_len size (c.all.drop (c.pos + c.blen))
  have h3 := List.length_drop (c.pos + c.blen) c.all
  have h4 := hc.2.1
  omega

theorem childSeek_all (t : Int) (size : Nat) (c : ChildIt) :
    (childSeek t size c).2.all = c.all := by
  simp only [childSeek]
  split <;> rfl

theorem childSeek_err (t : Int) (size : Nat) (c : ChildIt) :
    (childSeek t size c).2.err = c.err := by
  simp only [childSeek]
  split <;> rfl

theorem childSeek_pos (t : Int) (size : Nat) (c : ChildIt) :
    (childSeek t size c).2.pos = (c.all.takeWhile (fun s => s.t < t)).length := by
  simp only [childSeek]
  split <;> rfl

theorem childSeek_blen (t : Int) (size : Nat) (c : ChildIt) :
    (childSeek t size c).2.blen =
      (takeBatch size (c.all.drop ((c.all.takeWhile (fun s => s.t < t)).length))).length := by
  simp only [childSeek]
  split
  · rename_i heq
    simp [heq]
  · rfl

theorem childSeek_none_iff {t : Int} {size : Nat} {c : ChildIt}
    (hk : ∀ x ∈ c.all, x.kind ≠ ValueType.none) :
    (childSeek t size c).1 = ValueType.none ↔
      takeBatch size (c.all.drop ((c.all.takeWhile (fun s => s.t < t)).length)) = [] := by
  simp only [childSeek]
  cases hx : takeBatch size (c.all.drop ((c.all.takeWhile (fun s => s.t < t)).length)) with
  | nil => simp
  | cons y ys =>
    simp only
    constructor
    · intro hkind
      exfalso
      have hy : y ∈ c.all :=
        List.drop_subset _ _ (takeBatch_subset (hx ▸ List.mem_cons_self y ys))
      exact hk y hy hkind
    · intro hcon
      cases hcon

theorem childSeek_wf {t : Int} {size : Nat} {c : ChildIt} (hc : ChildWf c) :
    ChildWf (childSeek t size c).2 := by
  refine ⟨by rw [childSeek_all]; exact hc.1, ?_, by rw [childSeek_all]; exact hc.2.2⟩
  rw [childSeek_all, childSeek_pos, childSeek_blen]
  have h2 := takeBatch_length_le_len size
    (c.all.drop ((c.all.takeWhile (fun s => s.t < t)).length))
  have h3 := List.length_drop ((c.all.takeWhile (fun s => s.t < t)).length) c.all
  have h5 : (c.all.takeWhile (fun s => s.t < t)).length ≤ c.all.length :=
    (List.takeWhile_sublist _).length_le
  omega

theorem childRem_next (size : Nat) (c : ChildIt) :
    childRem (childNext size c).2 = (childRem c).drop c.blen := by
  unfold childRem
  rw [childNext_all, childNext_pos, List.drop_drop, Nat.add_comm]

theorem childBatch_append_rem (size : Nat) (c : ChildIt) :
    childBatch c ++ childRem (childNext size c).2 = childRem c := by
  rw [childRem_next]
  exact List.take_append_drop c.blen (childRem c)

theorem childBatch_subset_rem {c : ChildIt} {a : Sample} (ha : a ∈ childBatch c) :
    a ∈ childRem c :=
  List.take_subset _ _ ha

theorem childRem_subset_all {c : ChildIt} {a : Sample} (ha : a ∈ childRem c) :
    a ∈ c.all :=
  List.drop_subset _ _ ha

theorem strictT_head_le {l : List Sample} (hs : StrictT l) :
    ∀ x ∈ l, (l.headD default).t ≤ x.t := by
  cases l with
  | nil => intro x hx; cases hx
  | cons a l =>
    intro x hx
    rcases List.mem_cons.mp hx with h | h
    · rw [h]; rfl
    · exact le_of_lt ((List.pairwise_cons.mp hs).1 x h)

theorem childRem_sorted {c : ChildIt} (hwf : ChildWf c) : StrictT (childRem c) :=
  hwf.1.sublist (List.drop_sublist _ _)

theorem childAtTime_eq_head (c : ChildIt) :
    childAtTime c = ((childRem c).headD default).t := rfl

theorem childAtTime_le_rem {c : ChildIt} (hwf : ChildWf c) :
    ∀ x ∈ childRem c, childAtTime c ≤ x.t := by
  rw [childAtTime_eq_head]
  exact strictT_head_le (childRem_sorted hwf)

theorem childRem_ne_of_active {c : ChildIt} (hwf : ChildWf c) (hb : 0 < c.blen) :
    childRem c ≠ [] := by
  have h3 := List.length_drop c.pos c.all
  have h4 := hwf.2.1
  intro hcon
  have : (childRem c).length = 0 := by rw [hcon]; rfl
  unfold childRem at this
  omega

theorem childBatch_ne_of_active {c : ChildIt} (hwf : ChildWf c) (hb : 0 < c.blen) :
    childBatch c ≠ [] := by
  unfold childBatch
  have h3 := List.length_drop c.pos c.all
  have h4 := hwf.2.1
  intro hcon
  have : ((c.all.drop c.pos).take c.blen).length = 0 := by rw [hcon]; rfl
  rw [List.length_take] at this
  have h5 : (c.all.drop c.pos).length = c.all.length - c.pos := h3
  omega

theorem childBatch_sorted {c : ChildIt} (hwf : ChildWf c) : StrictT (childBatch c) :=
  (childRem_sorted hwf).sublist (List.take_sublist _ _)

theorem childBatch_headD {c : ChildIt} (hb : 0 < c.blen) :
    (childBatch c).headD default = (childRem c).headD default := by
  unfold childBatch childRem
  cases c.all.drop c.pos with
  | nil => simp
  | cons a l =>
    cases hbl : c.blen with
    | zero => omega
    | succ m => simp

/-! ## Merge state glue lemmas -/

theorem streamOf_currBatchQ (mode : Bool) (s : MergeState) :
    currBatchQ mode s = (streamOf mode s).head? := by
  cases mode <;> rfl

theorem batchLen_streamOf (mode : Bool) (s : MergeState) :
    batchLen mode s = (streamOf mode s).length := by
  cases mode <;> rfl

theorem removeFirst_its (mode : Bool) (s : MergeState) :
    (removeFirstBatch mode s).its = s.its := by
  cases mode <;> rfl

theorem removeFirst_h (mode : Bool) (s : MergeState) :
    (removeFirstBatch mode s).h = s.h := by
  cases mode <;> rfl

theorem removeFirst_currErr (mode : Bool) (s : MergeState) :
    (removeFirstBatch mode s).currErr = s.currErr := by
  cases mode <;> rfl

theorem removeFirst_stream (mode : Bool) (s : MergeState) :
    streamOf mode (removeFirstBatch mode s) = (streamOf mode s).tail := by
  cases mode <;> rfl

theorem stepMerge_its (mode : Bool) (size : Nat) (s : MergeState) :
    (stepMerge mode size s).its =
      s.its.set (s.h.headD 0)
        (childNext size (s.its.getD (s.h.headD 0) default)).2 := by
  cases mode <;> rfl

theorem stepMerge_currErr (mode : Bool) (size : Nat) (s : MergeState) :
    (stepMerge mode size s).currErr = s.currErr := by
  cases mode <;> rfl

theorem stepMerge_stream (mode : Bool) (size : Nat) (s : MergeState) :
    streamOf mode (stepMerge mode size s) =
      mergeIntoStream size (streamOf mode s)
        (childBatch (s.its.getD (s.h.headD 0) default)) := by
  cases mode <;> rfl

theorem stepMerge_h (mode : Bool) (size : Nat) (s : MergeState) :
    (stepMerge mode size s).h =
      if (childNext size (s.its.getD (s.h.headD 0) default)).1 = ValueType.none then
        heapPop (hKey ((stepMerge mode size s).its)) s.h
      else heapFix (hKey ((stepMerge mode size s).its)) s.h 0 := by
  rw [stepMerge_its]
  cases mode <;> rfl

theorem flattenStream_eq_flattenB {bs : List Batch} (hidx : ∀ b ∈ bs, b.index = 0) :
    flattenStream bs = flattenB bs := by
  cases bs with
  | nil => rfl
  | cons b rest =>
    show b.samples.drop b.index ++ (rest.map Batch.samples).flatten = _
    rw [hidx b (by simp), List.drop_zero]
    rfl

theorem mergeIntoStream_mem {size : Nat} {stream : List Batch} {b : List Sample} :
    ∀ bb ∈ mergeIntoStream size stream b, bb.index = 0 ∧ bb.samples ≠ [] :=
  rebatch_mem _

theorem mergeIntoStream_flattenB {size : Nat} (hs : size ≠ 0) {stream : List Batch}
    {b : List Sample} (hidx : ∀ bb ∈ stream, bb.index = 0) :
    flattenB (mergeIntoStream size stream b) = mergeDedup (flattenB stream) b := by
  unfold mergeIntoStream
  rw [rebatch_flattenB hs, flattenStream_eq_flattenB hidx]

/-! ## Further heap lemmas used by the merge loop -/

theorem headD_eq_getD_zero (h : List Nat) : h.headD 0 = h.getD 0 0 := by
  cases h <;> rfl

theorem headD_mem {h : List Nat} (hne : h ≠ []) : h.headD 0 ∈ h := by
  cases h with
  | nil => exact absurd rfl hne
  | cons x xs => simp

theorem getD_mem_gen {α : Type} {l : List α} {k : Nat} (d : α) (hk : k < l.length) :
    l.getD k d ∈ l := by
  rw [List.getD_eq_getElem?_getD, List.getElem?_eq_getElem hk]
  exact List.getElem_mem hk

theorem getD_set_self {α : Type} {l : List α} {k : Nat} (x d : α) (hk : k < l.length) :
    (l.set k x).getD k d = x := by
  rw [List.getD_eq_getElem?_getD, List.getElem?_set, if_pos rfl, if_pos hk]
  rfl

theorem getD_set_ne {α : Type} {l : List α} {k j : Nat} (x d : α) (hkj : k ≠ j) :
    (l.set k x).getD j d = l.getD j d := by
  rw [List.getD_eq_getElem?_getD, List.getElem?_set, if_neg hkj,
    ← List.getD_eq_getElem?_getD]

theorem heapDownF_getD_ge (key : Nat → Int) :
    ∀ (fuel : Nat) (h : List Nat) (i n k : Nat), n ≤ h.length → n ≤ k →
      (heapDownF key fuel h i n).getD k 0 = h.getD k 0 := by
  intro fuel
  induction fuel with
  | zero => intro h i n k _ _; rfl
  | succ m ih =>
    intro h i n k hn hk
    simp only [heapDownF]
    split
    · rename_i hj1
      split
      · rename_i hsel
        split
        · rw [ih _ _ _ _ (by rw [lswap_length]; exact hn) hk,
            lswap_getD (by omega) (by have := hsel.1; omega),
            if_neg (by have := hsel.1; omega), if_neg (by omega)]
        · rfl
      · split
        · rw [ih _ _ _ _ (by rw [lswap_length]; exact hn) hk,
            lswap_getD (by omega) (by omega), if_neg (by omega), if_neg (by omega)]
        · rfl
    · rfl

theorem getD_eq_getElem {l : List Nat} {k : Nat} (hk : k < l.length) :
    l.getD k 0 = l[k] := by
  rw [List.getD_eq_getElem?_getD, List.getElem?_eq_getElem hk]
  rfl

theorem mem_take_getD {l : List Nat} {n : Nat} {a : Nat} (ha : a ∈ l.take n) :
    ∃ p, p < n ∧ p < l.length ∧ l.getD p 0 = a := by
  rcases List.getElem_of_mem ha with ⟨p, hp, hget⟩
  rw [List.length_take] at hp
  have hpn : p < n := lt_of_lt_of_le hp (min_le_left _ _)
  have hpl : p < l.length := lt_of_lt_of_le hp (min_le_right _ _)
  refine ⟨p, hpn, hpl, ?_⟩
  rw [getD_eq_getElem hpl, ← hget]
  have := @getD_take l n p hpn
  rw [getD_eq_getElem hpl] at this
  rw [← this, getD_eq_getElem (by rw [List.length_take]; omega)]

theorem heapPop_root_not_mem {key : Nat → Int} {h : List Nat} (hd : HDistinct h)
    (hne : 0 < h.length) : h.getD 0 0 ∉ heapPop key h := by
  intro hmem
  rw [heapPop_eq] at hmem
  obtain ⟨p, hpn, hpl, hget⟩ := mem_take_getD hmem
  rw [heapDownF_length, lswap_length] at hpl
  have hlast : (heapDownF key (h.length - 1) (lswap h 0 (h.length - 1)) 0
      (h.length - 1)).getD (h.length - 1) 0 = h.getD 0 0 := by
    rw [heapDownF_getD_ge key _ _ 0 (h.length - 1) (h.length - 1)
      (by rw [lswap_length]; omega) (le_refl _)]
    rw [lswap_getD (by omega) (by omega), if_pos rfl]
  have hdd : HDistinct (heapDownF key (h.length - 1) (lswap h 0 (h.length - 1)) 0
      (h.length - 1)) :=
    heapDownF_distinct key _ _ 0 _ (by rw [lswap_length]; omega)
      (lswap_distinct (by omega) (by omega) hd)
  have hpe := hdd p (h.length - 1)
    (by rw [heapDownF_length, lswap_length]; omega)
    (by rw [heapDownF_length, lswap_length]; omega)
    (by rw [hget, hlast])
  omega

theorem getD_mem_take {l : List Nat} {n p : Nat} (hp : p < n) (hpl : p < l.length) :
    l.getD p 0 ∈ l.take n := by
  rw [← getD_take hp]
  exact getD_mem_of_lt (by rw [List.length_take]; omega)

theorem lswap_mem_rev {h : List Nat} {i j : Nat} (hi : i < h.length) (hj : j < h.length)
    {a : Nat} (ha : a ∈ h) : a ∈ lswap h i j := by
  rcases List.getElem_of_mem ha with ⟨p, hp, hgp⟩
  have hga : h.getD p 0 = a := by rw [getD_eq_getElem hp, hgp]
  by_cases hpi : p = i
  · have hx : (lswap h i j).getD j 0 = a := by
      rw [lswap_getD hi hj, if_pos rfl, ← hpi, hga]
    rw [← hx]
    exact getD_mem_of_lt (by rw [lswap_length]; omega)
  · by_cases hpj : p = j
    · have hx : (lswap h i j).getD i 0 = a := by
        rw [lswap_getD hi hj]
        by_cases hij : i = j
        · rw [if_pos hij, hij, ← hpj, hga]
        · rw [if_neg hij, if_pos rfl, ← hpj, hga]
      rw [← hx]
      exact getD_mem_of_lt (by rw [lswap_length]; omega)
    · have hx : (lswap h i j).getD p 0 = a := by
        rw [lswap_getD hi hj, if_neg hpj, if_neg hpi, hga]
      rw [← hx]
      exact getD_mem_of_lt (by rw [lswap_length]; omega)

theorem lswap_take_mem_rev {h : List Nat} {i j n : Nat} (hi : i < n) (hj : j < n)
    (hn : n ≤ h.length) {a : Nat} (ha : a ∈ h.take n) : a ∈ (lswap h i j).take n := by
  obtain ⟨p, hpn, hpl, hgp⟩ := mem_take_getD ha
  have hi2 : i < h.length := by omega
  have hj2 : j < h.length := by omega
  by_cases hpi : p = i
  · have hx : (lswap h i j).getD j 0 = a := by
      rw [lswap_getD hi2 hj2, if_pos rfl, ← hpi, hgp]
    rw [← hx]
    exact getD_mem_take hj (by rw [lswap_length]; omega)
  · by_cases hpj : p = j
    · have hx : (lswap h i j).getD i 0 = a := by
        rw [lswap_getD hi2 hj2]
        by_cases hij : i = j
        · rw [if_pos hij, hij, ← hpj, hgp]
        · rw [if_neg hij, if_pos rfl, ← hpj, hgp]
      rw [← hx]
      exact getD_mem_take hi (by rw [lswap_length]; omega)
    · have hx : (lswap h i j).getD p 0 = a := by
        rw [lswap_getD hi2 hj2, if_neg hpj, if_neg hpi, hgp]
      rw [← hx]
      exact getD_mem_take hpn (by rw [lswap_length]; omega)

theorem heapDownF_mem_rev (key : Nat → Int) :
    ∀ (fuel : Nat) (h : List Nat) (i n : Nat), n ≤ h.length →
      ∀ a ∈ h, a ∈ heapDownF key fuel h i n := by
  intro fuel
  induction fuel with
  | zero => intro h i n _ a ha; exact ha
  | succ m ih =>
    intro h i n hn a ha
    simp only [heapDownF]
    split
    · rename_i hj1
      split
      · rename_i hsel
        split
        · exact ih _ _ _ (by rw [lswap_length]; exact hn) a
            (lswap_mem_rev (by omega) (by have := hsel.1; omega) ha)
        · exact ha
      · split
        · exact ih _ _ _ (by rw [lswap_length]; exact hn) a
            (lswap_mem_rev (by omega) (by omega) ha)
        · exact ha
    · exact ha

theorem heapDownF_take_mem_rev (key : Nat → Int) :
    ∀ (fuel : Nat) (h : List Nat) (i n : Nat), n ≤ h.length →
      ∀ a ∈ h.take n, a ∈ (heapDownF key fuel h i n).take n := by
  intro fuel
  induction fuel with
  | zero => intro h i n _ a ha; exact ha
  | succ m ih =>
    intro h i n hn a ha
    simp only [heapDownF]
    split
    · rename_i hj1
      split
      · rename_i hsel
        split
        · exact ih _ _ _ (by rw [lswap_length]; exact hn) a
            (lswap_take_mem_rev (by omega) (by have := hsel.1; omega) hn ha)
        · exact ha
      · split
        · exact ih _ _ _ (by rw [lswap_length]; exact hn) a
            (lswap_take_mem_rev (by omega) (by omega) hn ha)
        · exact ha
    · exact ha

theorem heapFix_mem_rev {key : Nat → Int} {h : List Nat} {a : Nat} (ha : a ∈ h) :
    a ∈ heapFix key h 0 := by
  rw [heapFix_zero_eq]
  exact heapDownF_mem_rev key _ _ _ _ (le_refl _) a ha

theorem heapPop_mem_of_ne {key : Nat → Int} {h : List Nat}
    {a : Nat} (ha : a ∈ h) (hne : a ≠ h.getD 0 0) : a ∈ heapPop key h := by
  rcases List.getElem_of_mem ha with ⟨p, hp, hgp⟩
  have hga : h.getD p 0 = a := by rw [getD_eq_getElem hp, hgp]
  have hp0 : p ≠ 0 := by
    intro h0
    subst h0
    exact hne hga.symm
  have hlen2 : 2 ≤ h.length := by omega
  have hstep1 : a ∈ (lswap h 0 (h.length - 1)).take (h.length - 1) := by
    by_cases hpn : p = h.length - 1
    · have hx : (lswap h 0 (h.length - 1)).getD 0 0 = a := by
        rw [lswap_getD (by omega) (by omega), if_neg (by omega), if_pos rfl, ← hpn, hga]
      rw [← hx]
      exact getD_mem_take (by omega) (by rw [lswap_length]; omega)
    · have hx : (lswap h 0 (h.length - 1)).getD p 0 = a := by
        rw [lswap_getD (by omega) (by omega), if_neg hpn, if_neg hp0, hga]
      rw [← hx]
      exact getD_mem_take (by omega) (by rw [lswap_length]; omega)
  rw [heapPop_eq]
  exact heapDownF_take_mem_rev key _ _ 0 (h.length - 1)
    (by rw [lswap_length]; omega) a hstep1

theorem heapInitFrom_mem_rev (key : Nat → Int) :
    ∀ (i : Nat) (h : List Nat) {a : Nat}, a ∈ h → a ∈ heapInitFrom key h i := by
  intro i
  induction i with
  | zero =>
    intro h a ha
    exact heapDownF_mem_rev key _ _ _ _ (le_refl _) a ha
  | succ m ih =>
    intro h a ha
    exact ih _ (heapDownF_mem_rev key _ _ _ _ (le_refl _) a ha)

theorem heapInit_mem_rev {key : Nat → Int} {h : List Nat} {a : Nat} (ha : a ∈ h) :
    a ∈ heapInit key h :=
  heapInitFrom_mem_rev key _ h ha

theorem mergeDedupF_length_le :
    ∀ (fuel : Nat) (xs ys : List Sample),
      (mergeDedupF fuel xs ys).length ≤ xs.length + ys.length := by
  intro fuel
  induction fuel with
  | zero =>
    intro xs ys
    cases xs with
    | nil => simp [mergeDedupF]
    | cons x xs =>
      cases ys with
      | nil => simp [mergeDedupF]
      | cons y ys => simp [mergeDedupF]
  | succ m ih =>
    intro xs ys
    cases xs with
    | nil => simp [mergeDedupF]
    | cons x xs =>
      cases ys with
      | nil => simp [mergeDedupF]
      | cons y ys =>
        simp only [mergeDedupF]
        split
        · have := ih xs (y :: ys)
          simp only [List.length_cons] at this ⊢
          omega
        · split
          · have := ih (x :: xs) ys
            simp only [List.length_cons] at this ⊢
            omega
          · have := ih xs ys
            simp only [List.length_cons] at this ⊢
            omega

theorem mergeDedup_length_le (xs ys : List Sample) :
    (mergeDedup xs ys).length ≤ xs.length + ys.length :=
  mergeDedupF_length_le _ xs ys

theorem map_sum_set {α : Type} (f : α → Nat) (d : α) :
    ∀ (l : List α) (i : Nat) (x : α), i < l.length →
      ((l.set i x).map f).sum + f (l.getD i d) = (l.map f).sum + f x := by
  intro l
  induction l with
  | nil => intro i x hi; simp at hi
  | cons a l ih =>
    intro i x hi
    cases i with
    | zero => simp [List.set, Nat.add_comm, Nat.add_assoc, Nat.add_left_comm]
    | succ m =>
      have hm : m < l.length := by simp at hi; omega
      have := ih m x hm
      simp only [List.set, List.map_cons, List.sum_cons, List.getD_cons_succ]
      omega

/-! ## One iteration of the buildNextBatch loop preserves the invariant -/

theorem stepMerge_spec {mode : Bool} {size : Nat} {s : MergeState}
    (hsz : size ≠ 0) (hh : s.h ≠ []) (hinv : InvP mode s) :
    InvP mode (stepMerge mode size s) ∧
    (stepMerge mode size s).its.length = s.its.length ∧
    (∀ i ∈ (stepMerge mode size s).h, i ∈ s.h) ∧
    (∀ i ∈ (stepMerge mode size s).h,
      ∀ x ∈ childRem ((stepMerge mode size s).its.getD i default),
        x ∈ childRem (s.its.getD i default)) ∧
    (∀ x ∈ flattenB (streamOf mode (stepMerge mode size s)),
      x ∈ flattenB (streamOf mode s) ∨
        x ∈ childRem (s.its.getD (s.h.headD 0) default)) ∧
    (∀ u ∈ tsOf (flattenB (streamOf mode s)),
      u ∈ tsOf (flattenB (streamOf mode (stepMerge mode size s)))) ∧
    bMeasure (stepMerge mode size s) < bMeasure s ∧
    (stepMerge mode size s).currErr = s.currErr ∧
    (∀ k, ((stepMerge mode size s).its.getD k default).all = (s.its.getD k default).all ∧
      ((stepMerge mode size s).its.getD k default).err = (s.its.getD k default).err) := by
  obtain ⟨hwfC, hmemH, hdist, hheap, hbat, hsort, hkind⟩ := hinv
  have hhlen : 0 < s.h.length := List.length_pos.mpr hh
  have hriH : s.h.headD 0 ∈ s.h := headD_mem hh
  have hrilt : s.h.headD 0 < s.its.length := (hmemH _ hriH).1
  have hract : 0 < (s.its.getD (s.h.headD 0) default).blen := (hmemH _ hriH).2
  have hrwf : ChildWf (s.its.getD (s.h.headD 0) default) :=
    hwfC _ (getD_mem_gen default hrilt)
  have hits2 := stepMerge_its mode size s
  have hlen2 : (stepMerge mode size s).its.length = s.its.length := by
    rw [hits2, List.length_set]
  have hgetri : (stepMerge mode size s).its.getD (s.h.headD 0) default =
      (childNext size (s.its.getD (s.h.headD 0) default)).2 := by
    rw [hits2]
    exact getD_set_self _ _ hrilt
  have hgetne : ∀ k, k ≠ s.h.headD 0 →
      (stepMerge mode size s).its.getD k default = s.its.getD k default := by
    intro k hk
    rw [hits2]
    exact getD_set_ne _ _ (fun hc => hk hc.symm)
  have hkeyne : ∀ x, x ≠ s.h.headD 0 →
      hKey (stepMerge mode size s).its x = hKey s.its x := by
    intro x hx
    unfold hKey
    rw [hgetne x hx]
  have hslotne : ∀ p, p < s.h.length → p ≠ 0 → s.h.getD p 0 ≠ s.h.headD 0 := by
    intro p hp hp0 hq
    rw [headD_eq_getD_zero] at hq
    exact hp0 (hdist p 0 hp hhlen hq)
  have hexc : HeapExc (hKey (stepMerge mode size s).its) s.h s.h.length 0 0 := by
    intro j hj hj0 hkp hpne
    have hplt : hparent j < j := hparent_lt hj0
    rw [hkeyne _ (hslotne _ (by omega) hpne), hkeyne _ (hslotne _ hj (by omega))]
    exact hheap j hj hj0 hkp
  have hstream := stepMerge_stream mode size s
  have hflat : flattenB (streamOf mode (stepMerge mode size s)) =
      mergeDedup (flattenB (streamOf mode s))
        (childBatch (s.its.getD (s.h.headD 0) default)) := by
    rw [hstream]
    exact mergeIntoStream_flattenB hsz (fun bb hbb => (hbat bb hbb).1)
  have hsh := stepMerge_h mode size s
  have hhsub : ∀ i ∈ (stepMerge mode size s).h, i ∈ s.h := by
    intro i hi
    rw [hsh] at hi
    split at hi
    · exact heapPop_subset hi
    · exact heapFix_subset hi
  have hpopri : (childNext size (s.its.getD (s.h.headD 0) default)).1 = ValueType.none →
      s.h.headD 0 ∉ (stepMerge mode size s).h := by
    intro hnone hmem
    rw [hsh, if_pos hnone] at hmem
    rw [headD_eq_getD_zero] at hmem
    exact heapPop_root_not_mem hdist hhlen hmem
  have hactive2 : ∀ i ∈ (stepMerge mode size s).h,
      0 < ((stepMerge mode size s).its.getD i default).blen := by
    intro i hi
    by_cases hiri : i = s.h.headD 0
    · subst hiri
      by_cases hnone : (childNext size (s.its.getD (s.h.headD 0) default)).1 =
          ValueType.none
      · exact absurd hi (hpopri hnone)
      · rw [hgetri, childNext_blen]
        have htb := (not_iff_not.mpr (childNext_none_iff hrwf.2.2)).mp hnone
        exact List.length_pos.mpr htb
    · rw [hgetne i hiri]
      exact (hmemH i (hhsub i hi)).2
  have hinv2 : InvP mode (stepMerge mode size s) := by
    refine ⟨?_, ?_, ?_, ?_, ?_, ?_, ?_⟩
    · intro c hc
      rw [hits2] at hc
      rcases List.mem_or_eq_of_mem_set hc with h1 | h1
      · exact hwfC c h1
      · rw [h1]
        exact childNext_wf hrwf
    · intro i hi
      refine ⟨?_, hactive2 i hi⟩
      rw [hlen2]
      exact (hmemH i (hhsub i hi)).1
    · rw [hsh]
      split
      · exact heapPop_distinct hdist
      · exact heapFix_distinct hdist
    · rw [hsh]
      split
      · exact heapPop_heap hexc
      · exact heapFix_heap hexc
    · rw [hstream]
      exact mergeIntoStream_mem
    · rw [hflat]
      exact mergeDedup_sorted hsort (childBatch_sorted hrwf)
    · intro x hx
      rw [hflat] at hx
      rcases mergeDedup_mem hx with h1 | h1
      · exact hkind x h1
      · exact hrwf.2.2 x (childRem_subset_all (childBatch_subset_rem h1))
  have hremsub : ∀ i ∈ (stepMerge mode size s).h,
      ∀ x ∈ childRem ((stepMerge mode size s).its.getD i default),
        x ∈ childRem (s.its.getD i default) := by
    intro i hi x hx
    by_cases hiri : i = s.h.headD 0
    · subst hiri
      rw [hgetri, childRem_next] at hx
      exact List.drop_subset _ _ hx
    · rw [hgetne i hiri] at hx
      exact hx
  have hpend : ∀ x ∈ flattenB (streamOf mode (stepMerge mode size s)),
      x ∈ flattenB (streamOf mode s) ∨
        x ∈ childRem (s.its.getD (s.h.headD 0) default) := by
    intro x hx
    rw [hflat] at hx
    rcases mergeDedup_mem hx with h1 | h1
    · exact Or.inl h1
    · exact Or.inr (childBatch_subset_rem h1)
  have hts : ∀ u ∈ tsOf (flattenB (streamOf mode s)),
      u ∈ tsOf (flattenB (streamOf mode (stepMerge mode size s))) := by
    intro u hu
    rcases tsOf_mem_iff.mp hu with ⟨a, ha, hat⟩
    rw [hflat, ← hat]
    exact mergeDedup_ts_left ha
  have hmeas : bMeasure (stepMerge mode size s) < bMeasure s := by
    have hsum := map_sum_set (fun c => c.all.length - c.pos) default s.its (s.h.headD 0)
      (childNext size (s.its.getD (s.h.headD 0) default)).2 hrilt
    have hfold : ((stepMerge mode size s).its.map (fun c => c.all.length - c.pos)).sum +
        ((s.its.getD (s.h.headD 0) default).all.length -
          (s.its.getD (s.h.headD 0) default).pos) =
        (s.its.map (fun c => c.all.length - c.pos)).sum +
        ((childNext size (s.its.getD (s.h.headD 0) default)).2.all.length -
          (childNext size (s.its.getD (s.h.headD 0) default)).2.pos) := by
      rw [hits2]
      exact hsum
    rw [childNext_all, childNext_pos] at hfold
    have hb1 := hrwf.2.1
    have hlh : (stepMerge mode size s).h.length ≤ s.h.length := by
      rw [hsh]
      split
      · rw [heapPop_length]; omega
      · rw [heapFix_length]
    unfold bMeasure
    omega
  refine ⟨hinv2, hlen2, hhsub, hremsub, hpend, hts, hmeas, stepMerge_currErr mode size s, ?_⟩
  intro k
  by_cases hiri : k = s.h.headD 0
  · subst hiri
    rw [hgetri, childNext_all, childNext_err]
    exact ⟨rfl, rfl⟩
  · rw [hgetne k hiri]
    exact ⟨rfl, rfl⟩

/-! ## The buildNextBatch loop -/

theorem finishBuild_state (mode : Bool) (s : MergeState) : (finishBuild mode s).2 = s := by
  unfold finishBuild
  split <;> rfl

theorem buildLoopCond_true_h_ne {mode : Bool} {s : MergeState}
    (hc : buildLoopCond mode s = true) : s.h ≠ [] := by
  simp only [buildLoopCond, Bool.and_eq_true, decide_eq_true_eq] at hc
  exact List.length_pos.mp hc.1

theorem buildLoopCond_false_closed {mode : Bool} {s : MergeState}
    (hc : buildLoopCond mode s = false) : Closed mode s := by
  by_cases hh : s.h = []
  · exact Or.inl hh
  · simp only [buildLoopCond, Bool.and_eq_false_iff, Bool.or_eq_false_iff,
      decide_eq_false_iff_not] at hc
    rcases hc with h1 | h1
    · exact absurd (List.length_pos.mpr hh) h1
    · exact Or.inr (Or.inr (not_le.mp h1.2))

theorem buildLoopCond_false_hnil {mode : Bool} {s : MergeState}
    (hc : buildLoopCond mode s = false) (hl : batchLen mode s = 0) : s.h = [] := by
  simp only [buildLoopCond, Bool.and_eq_false_iff, Bool.or_eq_false_iff,
    decide_eq_false_iff_not] at hc
  rcases hc with h1 | h1
  · exact List.length_eq_zero.mp (by omega)
  · exact absurd hl h1.1

theorem finishBuild_none_iff {mode : Bool} {s : MergeState} (hinv : InvP mode s) :
    (finishBuild mode s).1 = ValueType.none ↔ batchLen mode s = 0 := by
  unfold finishBuild
  rw [streamOf_currBatchQ, batchLen_streamOf]
  cases hst : streamOf mode s with
  | nil => simp
  | cons b rest =>
    simp only [List.head?_cons, List.length_cons]
    have hbmem : b ∈ streamOf mode s := by rw [hst]; simp
    have hbne : b.samples ≠ [] := (hinv.2.2.2.2.1 b hbmem).2
    cases hsam : b.samples with
    | nil => exact absurd hsam hbne
    | cons x l =>
      have hx : x ∈ flattenB (streamOf mode s) := by
        rw [hst]
        unfold flattenB
        simp [hsam]
      have hxk := hinv.2.2.2.2.2.2 x hx
      unfold batchKind
      constructor
      · intro hk
        exact absurd hk hxk
      · intro hk
        omega

theorem build_spec {mode : Bool} {size : Nat} (hsz : size ≠ 0) :
    ∀ (fuel : Nat) (s : MergeState), bMeasure s < fuel → InvP mode s →
      InvP mode (buildNextBatch mode size fuel s).2 ∧
      Closed mode (buildNextBatch mode size fuel s).2 ∧
      ((buildNextBatch mode size fuel s).1 = ValueType.none ↔
        batchLen mode (buildNextBatch mode size fuel s).2 = 0) ∧
      ((buildNextBatch mode size fuel s).1 = ValueType.none →
        (buildNextBatch mode size fuel s).2.h = []) ∧
      (buildNextBatch mode size fuel s).2.its.length = s.its.length ∧
      (∀ b, Above mode s b → Above mode (buildNextBatch mode size fuel s).2 b) ∧
      (∀ b, AboveE mode s b → AboveE mode (buildNextBatch mode size fuel s).2 b) ∧
      (∀ u ∈ tsOf (flattenB (streamOf mode s)),
        u ∈ tsOf (flattenB (streamOf mode (buildNextBatch mode size fuel s).2))) ∧
      (buildNextBatch mode size fuel s).2.currErr = s.currErr ∧
      (∀ k, ((buildNextBatch mode size fuel s).2.its.getD k default).all =
          (s.its.getD k default).all ∧
        ((buildNextBatch mode size fuel s).2.its.getD k default).err =
          (s.its.getD k default).err) := by
  intro fuel
  induction fuel with
  | zero => intro s hm _; omega
  | succ m ih =>
    intro s hm hinv
    by_cases hcond : buildLoopCond mode s = true
    · have hred : buildNextBatch mode size (m + 1) s =
          buildNextBatch mode size m (stepMerge mode size s) := by
        simp [buildNextBatch, hcond]
      rw [hred]
      have hne := buildLoopCond_true_h_ne hcond
      obtain ⟨hinv1, hlen1, hsub1, hrem1, hpend1, hts1, hmeas1, herr1, hfields1⟩ :=
        stepMerge_spec hsz hne hinv
      obtain ⟨ih1, ih2, ih3, ih4, ih5, ih6, ih7, ih8, ih9, ih10⟩ :=
        ih (stepMerge mode size s) (by omega) hinv1
      have hstep_above : ∀ b, Above mode s b → Above mode (stepMerge mode size s) b := by
        intro b hb
        constructor
        · intro x hx
          rcases hpend1 x hx with h1 | h1
          · exact hb.1 x h1
          · exact hb.2 _ (headD_mem hne) x h1
        · intro i hi x hx
          exact hb.2 i (hsub1 i hi) x (hrem1 i hi x hx)
      have hstep_aboveE : ∀ b, AboveE mode s b →
          AboveE mode (stepMerge mode size s) b := by
        intro b hb
        constructor
        · intro x hx
          rcases hpend1 x hx with h1 | h1
          · exact hb.1 x h1
          · exact hb.2 _ (headD_mem hne) x h1
        · intro i hi x hx
          exact hb.2 i (hsub1 i hi) x (hrem1 i hi x hx)
      refine ⟨ih1, ih2, ih3, ih4, by rw [ih5, hlen1], ?_, ?_, ?_, by rw [ih9, herr1], ?_⟩
      · intro b hb
        exact ih6 b (hstep_above b hb)
      · intro b hb
        exact ih7 b (hstep_aboveE b hb)
      · intro u hu
        exact ih8 u (hts1 u hu)
      · intro k
        exact ⟨by rw [(ih10 k).1, (hfields1 k).1], by rw [(ih10 k).2, (hfields1 k).2]⟩
    · rw [Bool.not_eq_true] at hcond
      have hred : buildNextBatch mode size (m + 1) s = finishBuild mode s := by
        simp [buildNextBatch, hcond]
      rw [hred, finishBuild_state]
      refine ⟨hinv, buildLoopCond_false_closed hcond, finishBuild_none_iff hinv, ?_,
        rfl, fun b hb => hb, fun b hb => hb, fun u hu => hu, rfl,
        fun k => ⟨rfl, rfl⟩⟩
      intro hnone
      exact buildLoopCond_false_hnil hcond ((finishBuild_none_iff hinv).mp hnone)

/-! ## Next-level and run-level consequences -/

theorem flattenB_cons (b : Batch) (rest : List Batch) :
    flattenB (b :: rest) = b.samples ++ flattenB rest := rfl

theorem flattenB_tail_subset (bs : List Batch) : flattenB bs.tail ⊆ flattenB bs := by
  cases bs with
  | nil => exact fun x hx => hx
  | cons b rest =>
    rw [List.tail_cons, flattenB_cons]
    exact List.subset_append_right _ _

theorem bMeasure_lt_buildFuel (s : MergeState) : bMeasure s < buildFuel s := by
  unfold bMeasure buildFuel
  have hle : (s.its.map (fun c => c.all.length - c.pos)).sum ≤
      (s.its.map (fun c => c.all.length)).sum :=
    List.sum_le_sum (fun c _ => Nat.sub_le _ _)
  omega

theorem removeFirst_of_empty {mode : Bool} {s : MergeState}
    (h0 : batchLen mode s = 0) : removeFirstBatch mode s = s := by
  obtain ⟨its, hh, bs, mbs, e⟩ := s
  unfold batchLen at h0
  unfold removeFirstBatch
  cases mode <;> simp_all [List.length_eq_zero]

theorem mNext_eq (mode : Bool) (size : Nat) (s : MergeState) :
    mNext mode size s =
      buildNextBatch mode size (buildFuel (removeFirstBatch mode s))
        (removeFirstBatch mode s) := by
  unfold mNext
  by_cases h0 : 0 < batchLen mode s
  · rw [if_pos h0]
  · rw [if_neg h0, removeFirst_of_empty (by omega)]

theorem removeFirst_inv {mode : Bool} {s : MergeState} (hinv : InvP mode s) :
    InvP mode (removeFirstBatch mode s) := by
  obtain ⟨hwf, hmem, hdist, hheap, hbat, hsort, hkind⟩ := hinv
  refine ⟨?_, ?_, ?_, ?_, ?_, ?_, ?_⟩
  · rw [removeFirst_its]; exact hwf
  · rw [removeFirst_h, removeFirst_its]; exact hmem
  · rw [removeFirst_h]; exact hdist
  · rw [removeFirst_h, removeFirst_its]; exact hheap
  · rw [removeFirst_stream]
    intro b hb
    exact hbat b (List.tail_subset _ hb)
  · rw [removeFirst_stream]
    cases hst : streamOf mode s with
    | nil => exact List.Pairwise.nil
    | cons b rest =>
      rw [List.tail_cons]
      rw [hst, flattenB_cons] at hsort
      exact (List.pairwise_append.mp hsort).2.1
  · rw [removeFirst_stream]
    intro x hx
    exact hkind x (flattenB_tail_subset _ hx)

theorem above_removeFirst {mode : Bool} {s : MergeState} {lo : Int}
    (ha : Above mode s lo) : Above mode (removeFirstBatch mode s) lo := by
  constructor
  · intro x hx
    rw [removeFirst_stream] at hx
    exact ha.1 x (flattenB_tail_subset _ hx)
  · intro i hi x hx
    rw [removeFirst_h] at hi
    rw [removeFirst_its] at hx
    exact ha.2 i hi x hx

theorem mNext_spec {mode : Bool} {size : Nat} {s : MergeState} (hsz : size ≠ 0)
    (hinv : InvP mode s) :
    InvP mode (mNext mode size s).2 ∧
    Closed mode (mNext mode size s).2 ∧
    ((mNext mode size s).1 = ValueType.none ↔ batchLen mode (mNext mode size s).2 = 0) ∧
    ((mNext mode size s).1 = ValueType.none → (mNext mode size s).2.h = []) ∧
    (∀ lo, Above mode (removeFirstBatch mode s) lo → Above mode (mNext mode size s).2 lo) := by
  rw [mNext_eq]
  obtain ⟨h1, h2, h3, h4, _, h6, _, _, _, _⟩ :=
    build_spec hsz (buildFuel (removeFirstBatch mode s)) (removeFirstBatch mode s)
      (bMeasure_lt_buildFuel _) (removeFirst_inv hinv)
  exact ⟨h1, h2, h3, h4, h6⟩

theorem getLastD_mem_s {p : List Sample} (hne : p ≠ []) (d : Sample) :
    p.getLastD d ∈ p := by
  induction p with
  | nil => exact absurd rfl hne
  | cons x xs ih =>
    cases xs with
    | nil => simp
    | cons y ys => simpa using Or.inr (ih (by simp))

theorem strictT_le_last {l : List Sample} :
    StrictT l → ∀ x ∈ l, x.t ≤ (l.getLastD default).t := by
  induction l with
  | nil => intro _ x hx; cases hx
  | cons a rest ih =>
    intro hs x hx
    obtain ⟨ha, hrest⟩ := List.pairwise_cons.mp hs
    cases rest with
    | nil =>
      rcases List.mem_cons.mp hx with h | h
      · subst h; exact le_refl _
      · cases h
    | cons b r2 =>
      have hlast : ((a :: b :: r2 : List Sample).getLastD default) =
          ((b :: r2).getLastD default) := rfl
      rw [hlast]
      rcases List.mem_cons.mp hx with h | h
      · subst h
        have hab : x.t < b.t := ha b (by simp)
        have hb := ih hrest b (by simp)
        omega
      · exact ih hrest x h

/-- After `buildNextBatch` closed the window, everything left inside the
machine is strictly above the current batch's last timestamp, so nothing at
or below it can ever be emitted again. -/
theorem closed_emit_above {mode : Bool} {s : MergeState} {b : Batch} {rest : List Batch}
    (hinv : InvP mode s) (hcl : Closed mode s) (hst : streamOf mode s = b :: rest) :
    Above mode (removeFirstBatch mode s) ((b.samples.getLastD default).t) := by
  obtain ⟨hwf, hmem, hdist, hheap, hbat, hsort, hkind⟩ := hinv
  constructor
  · intro x hx
    rw [removeFirst_stream, hst, List.tail_cons] at hx
    rw [hst, flattenB_cons] at hsort
    have hcross := (List.pairwise_append.mp hsort).2.2
    have hbne : b.samples ≠ [] := (hbat b (by rw [hst]; simp)).2
    exact hcross _ (getLastD_mem_s hbne default) x hx
  · intro i hi x hx
    rw [removeFirst_h] at hi
    rw [removeFirst_its] at hx
    rcases hcl with h1 | h1 | h1
    · rw [h1] at hi; cases hi
    · rw [batchLen_streamOf, hst] at h1; simp at h1
    · have hroot : hKey s.its (s.h.headD 0) ≤ hKey s.its i := by
        rcases List.getElem_of_mem hi with ⟨p, hp, hgp⟩
        have hmin := isHeap_root_min hheap p hp
        rw [headD_eq_getD_zero]
        rwa [getD_eq_getElem hp, hgp] at hmin
      have hend : nextBatchEndTime mode s = (b.samples.getLastD default).t := by
        unfold nextBatchEndTime
        rw [streamOf_currBatchQ, hst]
        rfl
      have hwfi : ChildWf (s.its.getD i default) :=
        hwf _ (getD_mem_gen default (hmem i hi).1)
      have hx2 : hKey s.its i ≤ x.t := childAtTime_le_rem hwfi x hx
      rw [hend] at h1
      omega

/-- Driving a well-formed merge iterator with any sequence of `Next(size)`
calls yields strictly sorted output, and every emitted sample lies strictly
above any bound the machine (minus its already-emitted batch) respects. -/
theorem runOutS_spec {mode : Bool} :
    ∀ (sizes : List Nat) (s : MergeState), (∀ n ∈ sizes, n ≠ 0) → InvP mode s →
      StrictT (runOutS mode sizes s) ∧
      (∀ lo, Above mode (removeFirstBatch mode s) lo →
        ∀ x ∈ runOutS mode sizes s, lo < x.t) := by
  intro sizes
  induction sizes with
  | nil =>
    intro s _ _
    exact ⟨List.Pairwise.nil, fun lo _ x hx => absurd hx (List.not_mem_nil x)⟩
  | cons size rest ih =>
    intro s hsz hinv
    have hsz0 : size ≠ 0 := hsz size (by simp)
    have hszr : ∀ n ∈ rest, n ≠ 0 := fun n hn => hsz n (by simp [hn])
    obtain ⟨hinv2, hcl2, hnone, _, habove⟩ := mNext_spec hsz0 hinv
    by_cases hv : (mNext mode size s).1 = ValueType.none
    · have hrw : runOutS mode (size :: rest) s = [] := by
        simp only [runOutS]
        rw [if_pos hv]
      rw [hrw]
      exact ⟨List.Pairwise.nil, fun lo _ x hx => absurd hx (List.not_mem_nil x)⟩
    · have hbl : batchLen mode (mNext mode size s).2 ≠ 0 := fun h0 => hv (hnone.mpr h0)
      cases hstq : streamOf mode (mNext mode size s).2 with
      | nil =>
        rw [batchLen_streamOf, hstq] at hbl
        exact absurd rfl hbl
      | cons b rest2 =>
        have hcur : currBatchQ mode (mNext mode size s).2 = some b := by
          rw [streamOf_currBatchQ, hstq]
          rfl
        have hbmem : b ∈ streamOf mode (mNext mode size s).2 := by rw [hstq]; simp
        have hidx : b.index = 0 := (hinv2.2.2.2.2.1 b hbmem).1
        have hrw : runOutS mode (size :: rest) s =
            b.samples ++ runOutS mode rest (mNext mode size s).2 := by
          simp only [runOutS]
          rw [if_neg hv, hcur]
          simp [hidx]
        have hbsort : StrictT b.samples := by
          have hsort := hinv2.2.2.2.2.2.1
          rw [hstq, flattenB_cons] at hsort
          exact (List.pairwise_append.mp hsort).1
        obtain ⟨ihS, ihB⟩ := ih (mNext mode size s).2 hszr hinv2
        have habv := closed_emit_above hinv2 hcl2 hstq
        rw [hrw]
        constructor
        · refine List.pairwise_append.mpr ⟨hbsort, ihS, ?_⟩
          intro x hx y hy
          have hxle : x.t ≤ (b.samples.getLastD default).t := strictT_le_last hbsort x hx
          have hyb : (b.samples.getLastD default).t < y.t :=
            ihB _ habv y hy
          omega
        · intro lo hlo x hx
          have habv2 : Above mode (mNext mode size s).2 lo := habove lo hlo
          rcases List.mem_append.mp hx with h | h
          · refine habv2.1 x ?_
            rw [hstq, flattenB_cons]
            exact List.mem_append.mpr (Or.inl h)
          · exact ihB lo (above_removeFirst habv2) x h

/-! ## Conservation: no timestamp is lost, no sample is invented -/

theorem tsOf_append (a b : List Sample) : tsOf (a ++ b) = tsOf a ++ tsOf b :=
  List.map_append _ _ _

theorem stepMerge_ts_conserve {mode : Bool} {size : Nat} {s : MergeState}
    (hsz : size ≠ 0) (hh : s.h ≠ []) (hinv : InvP mode s) :
    ∀ u, MachineTs mode s u → MachineTs mode (stepMerge mode size s) u := by
  obtain ⟨hwf, hmem, hdist, hheap, hbat, hsort, hkind⟩ := hinv
  intro u hu
  have hroot := hmem _ (headD_mem hh)
  have hrwf : ChildWf (s.its.getD (s.h.headD 0) default) :=
    hwf _ (getD_mem_gen default hroot.1)
  have hflat : flattenB (streamOf mode (stepMerge mode size s)) =
      mergeDedup (flattenB (streamOf mode s))
        (childBatch (s.its.getD (s.h.headD 0) default)) := by
    rw [stepMerge_stream, mergeIntoStream_flattenB hsz (fun b hb => (hbat b hb).1)]
  rcases hu with h1 | ⟨i, hi, h2⟩
  · left
    rw [hflat]
    rcases tsOf_mem_iff.mp h1 with ⟨a, ha, hat⟩
    exact hat ▸ mergeDedup_ts_left ha
  · by_cases hir : i = s.h.headD 0
    · subst hir
      rw [← childBatch_append_rem size, tsOf_append] at h2
      rcases List.mem_append.mp h2 with h3 | h3
      · left
        rw [hflat]
        rcases tsOf_mem_iff.mp h3 with ⟨a, ha, hat⟩
        exact hat ▸ mergeDedup_ts_right ha
      · by_cases hv : (childNext size (s.its.getD (s.h.headD 0) default)).1 =
            ValueType.none
        · exfalso
          have harg : (s.its.getD (s.h.headD 0) default).all.drop
              ((s.its.getD (s.h.headD 0) default).pos +
                (s.its.getD (s.h.headD 0) default).blen) = [] := by
            by_contra hne
            exact (takeBatch_ne_nil hne hsz) ((childNext_none_iff hrwf.2.2).mp hv)
          have hrem : childRem (childNext size (s.its.getD (s.h.headD 0) default)).2
              = [] := by
            unfold childRem
            rw [childNext_all, childNext_pos, harg]
          rw [hrem] at h3
          simp [tsOf] at h3
        · right
          refine ⟨s.h.headD 0, ?_, ?_⟩
          · rw [stepMerge_h, if_neg hv]
            exact heapFix_mem_rev (headD_mem hh)
          · rw [stepMerge_its, getD_set_self _ _ hroot.1]
            exact h3
    · right
      refine ⟨i, ?_, ?_⟩
      · rw [stepMerge_h]
        split
        · refine heapPop_mem_of_ne hi ?_
          rw [← headD_eq_getD_zero]
          exact hir
        · exact heapFix_mem_rev hi
      · rw [stepMerge_its, getD_set_ne _ _ (fun he => hir he.symm)]
        exact h2

theorem stepMerge_mem_sub {mode : Bool} {size : Nat} {s : MergeState}
    (hsz : size ≠ 0) (hh : s.h ≠ []) (hinv : InvP mode s) :
    ∀ x, MachineMem mode (stepMerge mode size s) x → MachineMem mode s x := by
  obtain ⟨_, hlen, hsub, hrem, hpend, _, _, _, _⟩ := stepMerge_spec hsz hh hinv
  intro x hx
  rcases hx with h1 | ⟨i, hi, h2⟩
  · rcases hpend x h1 with h3 | h3
    · exact Or.inl h3
    · exact Or.inr ⟨s.h.headD 0, headD_mem hh, h3⟩
  · exact Or.inr ⟨i, hsub i hi, hrem i hi x h2⟩

theorem stepMerge_smeasure {mode : Bool} {size : Nat} {s : MergeState}
    (hsz : size ≠ 0) (hh : s.h ≠ []) (hinv : InvP mode s) :
    SMeasure mode (stepMerge mode size s) ≤ SMeasure mode s := by
  have hroot := hinv.2.1 _ (headD_mem hh)
  have hrwf : ChildWf (s.its.getD (s.h.headD 0) default) :=
    hinv.1 _ (getD_mem_gen default hroot.1)
  have hstream : (flattenB (streamOf mode (stepMerge mode size s))).length ≤
      (flattenB (streamOf mode s)).length +
        (childBatch (s.its.getD (s.h.headD 0) default)).length := by
    rw [stepMerge_stream,
      mergeIntoStream_flattenB hsz (fun b hb => (hinv.2.2.2.2.1 b hb).1)]
    exact mergeDedup_length_le _ _
  have hbatchlen : (childBatch (s.its.getD (s.h.headD 0) default)).length ≤
      (s.its.getD (s.h.headD 0) default).blen := by
    unfold childBatch
    rw [List.length_take]
    omega
  have hsum : ((stepMerge mode size s).its.map (fun c => c.all.length - c.pos)).sum +
      ((s.its.getD (s.h.headD 0) default).all.length -
        (s.its.getD (s.h.headD 0) default).pos) =
      (s.its.map (fun c => c.all.length - c.pos)).sum +
      ((childNext size (s.its.getD (s.h.headD 0) default)).2.all.length -
        (childNext size (s.its.getD (s.h.headD 0) default)).2.pos) := by
    rw [stepMerge_its]
    exact map_sum_set _ default _ _ _ hroot.1
  have hfvc : (childNext size (s.its.getD (s.h.headD 0) default)).2.all.length -
      (childNext size (s.its.getD (s.h.headD 0) default)).2.pos =
      (s.its.getD (s.h.headD 0) default).all.length -
        ((s.its.getD (s.h.headD 0) default).pos +
          (s.its.getD (s.h.headD 0) default).blen) := by
    rw [childNext_all, childNext_pos]
  have hwfb := hrwf.2.1
  have hhlen : (stepMerge mode size s).h.length ≤ s.h.length := by
    rw [stepMerge_h]
    split
    · rw [heapPop_length]; omega
    · exact le_of_eq (heapFix_length _ _)
  unfold SMeasure
  omega

theorem build_ts_conserve {mode : Bool} {size : Nat} (hsz : size ≠ 0) :
    ∀ (fuel : Nat) (s : MergeState), bMeasure s < fuel → InvP mode s →
      ∀ u, MachineTs mode s u → MachineTs mode (buildNextBatch mode size fuel s).2 u := by
  intro fuel
  induction fuel with
  | zero => intro s hm _; omega
  | succ m ih =>
    intro s hm hinv u hu
    by_cases hcond : buildLoopCond mode s = true
    · have hne := buildLoopCond_true_h_ne hcond
      have hred : buildNextBatch mode size (m + 1) s =
          buildNextBatch mode size m (stepMerge mode size s) := by
        simp [buildNextBatch, hcond]
      rw [hred]
      obtain ⟨hinv1, _, _, _, _, _, hmeas1, _, _⟩ := stepMerge_spec hsz hne hinv
      exact ih (stepMerge mode size s) (by omega) hinv1 u
        (stepMerge_ts_conserve hsz hne hinv u hu)
    · rw [Bool.not_eq_true] at hcond
      have hred : buildNextBatch mode size (m + 1) s = finishBuild mode s := by
        simp [buildNextBatch, hcond]
      rw [hred, finishBuild_state]
      exact hu

theorem build_mem_sub {mode : Bool} {size : Nat} (hsz : size ≠ 0) :
    ∀ (fuel : Nat) (s : MergeState), bMeasure s < fuel → InvP mode s →
      ∀ x, MachineMem mode (buildNextBatch mode size fuel s).2 x →
        MachineMem mode s x := by
  intro fuel
  induction fuel with
  | zero => intro s hm _; omega
  | succ m ih =>
    intro s hm hinv x hx
    by_cases hcond : buildLoopCond mode s = true
    · have hne := buildLoopCond_true_h_ne hcond
      have hred : buildNextBatch mode size (m + 1) s =
          buildNextBatch mode size m (stepMerge mode size s) := by
        simp [buildNextBatch, hcond]
      rw [hred] at hx
      obtain ⟨hinv1, _, _, _, _, _, hmeas1, _, _⟩ := stepMerge_spec hsz hne hinv
      exact stepMerge_mem_sub hsz hne hinv x (ih (stepMerge mode size s) (by omega) hinv1 x hx)
    · rw [Bool.not_eq_true] at hcond
      have hred : buildNextBatch mode size (m + 1) s = finishBuild mode s := by
        simp [buildNextBatch, hcond]
      rw [hred, finishBuild_state] at hx
      exact hx

theorem build_smeasure {mode : Bool} {size : Nat} (hsz : size ≠ 0) :
    ∀ (fuel : Nat) (s : MergeState), bMeasure s < fuel → InvP mode s →
      SMeasure mode (buildNextBatch mode size fuel s).2 ≤ SMeasure mode s := by
  intro fuel
  induction fuel with
  | zero => intro s hm _; omega
  | succ m ih =>
    intro s hm hinv
    by_cases hcond : buildLoopCond mode s = true
    · have hne := buildLoopCond_true_h_ne hcond
      have hred : buildNextBatch mode size (m + 1) s =
          buildNextBatch mode size m (stepMerge mode size s) := by
        simp [buildNextBatch, hcond]
      rw [hred]
      obtain ⟨hinv1, _, _, _, _, _, hmeas1, _, _⟩ := stepMerge_spec hsz hne hinv
      exact le_trans (ih (stepMerge mode size s) (by omega) hinv1)
        (stepMerge_smeasure hsz hne hinv)
    · rw [Bool.not_eq_true] at hcond
      have hred : buildNextBatch mode size (m + 1) s = finishBuild mode s := by
        simp [buildNextBatch, hcond]
      rw [hred, finishBuild_state]

theorem removeFirst_smeasure {mode : Bool} {s : MergeState} {b : Batch}
    {rest : List Batch} (hst : streamOf mode s = b :: rest) :
    SMeasure mode (removeFirstBatch mode s) + b.samples.length = SMeasure mode s := by
  unfold SMeasure
  rw [removeFirst_stream, removeFirst_its, removeFirst_h, hst, List.tail_cons,
    flattenB_cons, List.length_append]
  omega

theorem machineTs_to_removeFirst {mode : Bool} {s : MergeState} {u : Int} {b : Batch}
    {rest : List Batch} (hst : streamOf mode s = b :: rest)
    (hu : MachineTs mode s u) (hnb : u ∉ tsOf b.samples) :
    MachineTs mode (removeFirstBatch mode s) u := by
  rcases hu with h1 | ⟨i, hi, h2⟩
  · rw [hst, flattenB_cons, tsOf_append] at h1
    rcases List.mem_append.mp h1 with h3 | h3
    · exact absurd h3 hnb
    · left
      rw [removeFirst_stream, hst, List.tail_cons]
      exact h3
  · right
    rw [removeFirst_h, removeFirst_its]
    exact ⟨i, hi, h2⟩

theorem machineMem_removeFirst_sub {mode : Bool} {s : MergeState} {x : Sample}
    (hx : MachineMem mode (removeFirstBatch mode s) x) : MachineMem mode s x := by
  rcases hx with h1 | ⟨i, hi, h2⟩
  · rw [removeFirst_stream] at h1
    exact Or.inl (flattenB_tail_subset _ h1)
  · rw [removeFirst_h] at hi
    rw [removeFirst_its] at h2
    exact Or.inr ⟨i, hi, h2⟩

/-- Every sample a run of `Next(size)` calls emits was present inside the
machine (minus the already-retired head batch) when the run started. -/
theorem runOutS_mem_sub {mode : Bool} :
    ∀ (sizes : List Nat) (s : MergeState), (∀ n ∈ sizes, n ≠ 0) → InvP mode s →
      ∀ x ∈ runOutS mode sizes s, MachineMem mode (removeFirstBatch mode s) x := by
  intro sizes
  induction sizes with
  | nil => intro s _ _ x hx; exact absurd hx (List.not_mem_nil x)
  | cons size rest ih =>
    intro s hsz hinv x hx
    have hsz0 : size ≠ 0 := hsz size (by simp)
    have hszr : ∀ n ∈ rest, n ≠ 0 := fun n hn => hsz n (by simp [hn])
    obtain ⟨hinv2, _, hnone, _, _⟩ := mNext_spec hsz0 hinv
    have hms : ∀ y, MachineMem mode (mNext mode size s).2 y →
        MachineMem mode (removeFirstBatch mode s) y := by
      rw [mNext_eq]
      exact build_mem_sub hsz0 _ _ (bMeasure_lt_buildFuel _) (removeFirst_inv hinv)
    by_cases hv : (mNext mode size s).1 = ValueType.none
    · have hrw : runOutS mode (size :: rest) s = [] := by
        simp only [runOutS]
        rw [if_pos hv]
      rw [hrw] at hx
      exact absurd hx (List.not_mem_nil x)
    · have hbl : batchLen mode (mNext mode size s).2 ≠ 0 := fun h0 => hv (hnone.mpr h0)
      cases hstq : streamOf mode (mNext mode size s).2 with
      | nil =>
        rw [batchLen_streamOf, hstq] at hbl
        exact absurd rfl hbl
      | cons b rest2 =>
        have hcur : currBatchQ mode (mNext mode size s).2 = some b := by
          rw [streamOf_currBatchQ, hstq]
          rfl
        have hidx : b.index = 0 := (hinv2.2.2.2.2.1 b (by rw [hstq]; simp)).1
        have hrw : runOutS mode (size :: rest) s =
            b.samples ++ runOutS mode rest (mNext mode size s).2 := by
          simp only [runOutS]
          rw [if_neg hv, hcur]
          simp [hidx]
        rw [hrw] at hx
        rcases List.mem_append.mp hx with h | h
        · refine hms x (Or.inl ?_)
          rw [hstq, flattenB_cons]
          exact List.mem_append.mpr (Or.inl h)
        · exact hms x (machineMem_removeFirst_sub (ih (mNext mode size s).2 hszr hinv2 x h))

theorem runOut_eq_runOutS (mode : Bool) (size : Nat) :
    ∀ (fuel : Nat) (s : MergeState),
      runOut mode size fuel s = runOutS mode (List.replicate fuel size) s := by
  intro fuel
  induction fuel with
  | zero => intro s; rfl
  | succ m ih =>
    intro s
    rw [List.replicate_succ]
    simp only [runOut, runOutS]
    rw [ih]

/-- With enough fuel, the run emits every timestamp the machine still holds:
no sample's timestamp is ever lost. -/
theorem runOut_complete {mode : Bool} {size : Nat} (hsz : size ≠ 0) :
    ∀ (fuel : Nat) (s : MergeState), InvP mode s →
      SMeasure mode (removeFirstBatch mode s) < fuel →
      ∀ u, MachineTs mode (removeFirstBatch mode s) u →
        u ∈ tsOf (runOut mode size fuel s) := by
  intro fuel
  induction fuel with
  | zero => intro s _ hm u _; omega
  | succ m ih =>
    intro s hinv hm u hu
    obtain ⟨hinv2, hcl2, hnone, hhnil, _⟩ := mNext_spec hsz hinv
    have hts2 : MachineTs mode (mNext mode size s).2 u := by
      rw [mNext_eq]
      exact build_ts_conserve hsz _ _ (bMeasure_lt_buildFuel _) (removeFirst_inv hinv) u hu
    by_cases hv : (mNext mode size s).1 = ValueType.none
    · exfalso
      have hbl0 : batchLen mode (mNext mode size s).2 = 0 := hnone.mp hv
      have hh0 : (mNext mode size s).2.h = [] := hhnil hv
      rcases hts2 with h1 | ⟨i, hi, _⟩
      · rw [batchLen_streamOf] at hbl0
        rw [List.length_eq_zero.mp hbl0] at h1
        simp [flattenB, tsOf] at h1
      · rw [hh0] at hi
        exact absurd hi (List.not_mem_nil i)
    · have hbl : batchLen mode (mNext mode size s).2 ≠ 0 := fun h0 => hv (hnone.mpr h0)
      cases hstq : streamOf mode (mNext mode size s).2 with
      | nil =>
        rw [batchLen_streamOf, hstq] at hbl
        exact absurd rfl hbl
      | cons b rest2 =>
        have hcur : currBatchQ mode (mNext mode size s).2 = some b := by
          rw [streamOf_currBatchQ, hstq]
          rfl
        have hidx : b.index = 0 := (hinv2.2.2.2.2.1 b (by rw [hstq]; simp)).1
        have hbne : b.samples ≠ [] := (hinv2.2.2.2.2.1 b (by rw [hstq]; simp)).2
        have hrw : runOut mode size (m + 1) s =
            b.samples ++ runOut mode size m (mNext mode size s).2 := by
          simp only [runOut]
          rw [if_neg hv, hcur]
          simp [hidx]
        rw [hrw, tsOf_append]
        by_cases hub : u ∈ tsOf b.samples
        · exact List.mem_append.mpr (Or.inl hub)
        · refine List.mem_append.mpr (Or.inr ?_)
          refine ih (mNext mode size s).2 hinv2 ?_ u
            (machineTs_to_removeFirst hstq hts2 hub)
          have h1 : SMeasure mode (removeFirstBatch mode (mNext mode size s).2) +
              b.samples.length = SMeasure mode (mNext mode size s).2 :=
            removeFirst_smeasure hstq
          have h2 : SMeasure mode (mNext mode size s).2 ≤
              SMeasure mode (removeFirstBatch mode s) := by
            rw [mNext_eq]
            exact build_smeasure hsz _ _ (bMeasure_lt_buildFuel _) (removeFirst_inv hinv)
          have h3 : 0 < b.samples.length := List.length_pos.mpr hbne
          omega

/-! ## The invariant at construction -/

theorem flatten_samples_sorted {p : List GenericChunk}
    (hwf : ∀ c ∈ p, StrictT c.samples ∧ ∀ s ∈ c.samples, c.MinTime ≤ s.t ∧ s.t ≤ c.MaxTime)
    (hpw : p.Pairwise (fun a b => a.MaxTime < b.MinTime)) :
    StrictT ((p.map GenericChunk.samples).flatten) := by
  induction p with
  | nil => exact List.Pairwise.nil
  | cons c rest ih =>
    simp only [List.map_cons, List.flatten_cons]
    refine List.pairwise_append.mpr ⟨(hwf c (by simp)).1, ?_, ?_⟩
    · exact ih (fun d hd => hwf d (by simp [hd])) (List.pairwise_cons.mp hpw).2
    · intro x hx y hy
      rcases List.mem_flatten.mp hy with ⟨l, hl, hyl⟩
      rcases List.mem_map.mp hl with ⟨d, hd, rfl⟩
      have h1 := ((hwf c (by simp)).2 x hx).2
      have h2 := (List.pairwise_cons.mp hpw).1 d hd
      have h3 := ((hwf d (by simp [hd])).2 y hyl).1
      omega

theorem newChildIt_wf {p : List GenericChunk}
    (hwf : ∀ c ∈ p, ChunkWf c)
    (hpw : p.Pairwise (fun a b => a.MaxTime < b.MinTime)) :
    ChildWf (newChildIt p) := by
  refine ⟨?_, by simp [newChildIt], ?_⟩
  · show StrictT (((p.takeWhile (fun c => !c.corrupt)).map GenericChunk.samples).flatten)
    refine flatten_samples_sorted ?_ (hpw.sublist (List.takeWhile_sublist _))
    intro c hc
    have hc2 : c ∈ p := (List.takeWhile_sublist _).subset hc
    exact ⟨(hwf c hc2).2.1,
      fun s hs => ⟨((hwf c hc2).2.2 s hs).1, ((hwf c hc2).2.2 s hs).2.1⟩⟩
  · intro x hx
    rcases List.mem_flatten.mp hx with ⟨l, hl, hxl⟩
    rcases List.mem_map.mp hl with ⟨c, hc, rfl⟩
    have hc2 : c ∈ p := (List.takeWhile_sublist _).subset hc
    exact ((hwf c hc2).2.2 x hxl).2.2

theorem pairwise_lt_HDistinct {h : List Nat} (hp : h.Pairwise (fun a b => a < b)) :
    HDistinct h := by
  intro a b ha hb heq
  by_contra hne
  rw [getD_eq_getElem ha, getD_eq_getElem hb] at heq
  rcases Nat.lt_or_ge a b with hab | hab
  · have := List.pairwise_iff_getElem.mp hp a b ha hb hab
    omega
  · have hba : b < a := by omega
    have := List.pairwise_iff_getElem.mp hp b a hb ha hba
    omega

theorem initChildLoop_spec :
    ∀ (fuel i : Nat) (its : List ChildIt) (h : List Nat) (e : Bool),
      its.length ≤ i + fuel →
      (∀ c ∈ its, ChildWf c) →
      (∀ j ∈ h, j < i ∧ j < its.length ∧ 0 < (its.getD j default).blen) →
      h.Pairwise (fun a b => a < b) →
      (initChildLoop fuel i its h e).1.length = its.length ∧
      (∀ c ∈ (initChildLoop fuel i its h e).1, ChildWf c) ∧
      (∀ j ∈ (initChildLoop fuel i its h e).2.1, j < its.length ∧
        0 < ((initChildLoop fuel i its h e).1.getD j default).blen) ∧
      (initChildLoop fuel i its h e).2.1.Pairwise (fun a b => a < b) := by
  intro fuel
  induction fuel with
  | zero =>
    intro i its h e hle hwf hh hp
    exact ⟨rfl, hwf, fun j hj => ⟨(hh j hj).2.1, (hh j hj).2.2⟩, hp⟩
  | succ m ih =>
    intro i its h e hle hwf hh hp
    by_cases hi : i < its.length
    · have hc0 : ChildWf (its.getD i default) := hwf _ (getD_mem_gen default hi)
      have hlen2 : (its.set i (childNext 1 (its.getD i default)).2).length = its.length := by
        simp
      have hwf2 : ∀ c ∈ its.set i (childNext 1 (its.getD i default)).2, ChildWf c := by
        intro c hc
        rcases List.mem_or_eq_of_mem_set hc with h1 | h1
        · exact hwf c h1
        · rw [h1]; exact childNext_wf hc0
      by_cases hv : (childNext 1 (its.getD i default)).1 = ValueType.none
      · have hred : initChildLoop (m + 1) i its h e =
            initChildLoop m (i + 1) (its.set i (childNext 1 (its.getD i default)).2) h
              (e || childErr (childNext 1 (its.getD i default)).2) := by
          simp only [initChildLoop]
          rw [if_pos hi, if_pos hv]
        rw [hred]
        have hh2 : ∀ j ∈ h, j < i + 1 ∧
            j < (its.set i (childNext 1 (its.getD i default)).2).length ∧
            0 < ((its.set i (childNext 1 (its.getD i default)).2).getD j default).blen := by
          intro j hj
          have h3 := hh j hj
          refine ⟨by omega, by rw [hlen2]; exact h3.2.1, ?_⟩
          rw [getD_set_ne _ _ (by omega : i ≠ j)]
          exact h3.2.2
        obtain ⟨r1, r2, r3, r4⟩ := ih (i + 1) _ h _ (by rw [hlen2]; omega) hwf2 hh2 hp
        exact ⟨by rw [r1, hlen2], r2,
          fun j hj => ⟨by rw [← hlen2]; exact (r3 j hj).1, (r3 j hj).2⟩, r4⟩
      · have hred : initChildLoop (m + 1) i its h e =
            initChildLoop m (i + 1) (its.set i (childNext 1 (its.getD i default)).2)
              (h ++ [i]) e := by
          simp only [initChildLoop]
          rw [if_pos hi, if_neg hv]
        rw [hred]
        have hblen : 0 < (childNext 1 (its.getD i default)).2.blen := by
          rw [childNext_blen]
          refine List.length_pos.mpr ?_
          intro hcon
          exact hv ((childNext_none_iff hc0.2.2).mpr hcon)
        have hh2 : ∀ j ∈ h ++ [i], j < i + 1 ∧
            j < (its.set i (childNext 1 (its.getD i default)).2).length ∧
            0 < ((its.set i (childNext 1 (its.getD i default)).2).getD j default).blen := by
          intro j hj
          rcases List.mem_append.mp hj with h1 | h1
          · have h3 := hh j h1
            refine ⟨by omega, by rw [hlen2]; exact h3.2.1, ?_⟩
            rw [getD_set_ne _ _ (by omega : i ≠ j)]
            exact h3.2.2
          · have h4 : j = i := List.mem_singleton.mp h1
            subst h4
            refine ⟨by omega, by rw [hlen2]; exact hi, ?_⟩
            rw [getD_set_self _ _ hi]
            exact hblen
        have hp2 : (h ++ [i]).Pairwise (fun a b => a < b) := by
          refine List.pairwise_append.mpr ⟨hp, List.pairwise_singleton _ _, ?_⟩
          intro a ha b hb
          have hb2 : b = i := List.mem_singleton.mp hb
          subst hb2
          exact (hh a ha).1
        obtain ⟨r1, r2, r3, r4⟩ := ih (i + 1) _ (h ++ [i]) _ (by rw [hlen2]; omega) hwf2
          hh2 hp2
        exact ⟨by rw [r1, hlen2], r2,
          fun j hj => ⟨by rw [← hlen2]; exact (r3 j hj).1, (r3 j hj).2⟩, r4⟩
    · have hred : initChildLoop (m + 1) i its h e = (its, h, e) := by
        simp [initChildLoop, hi]
      rw [hred]
      exact ⟨rfl, hwf, fun j hj => ⟨(hh j hj).2.1, (hh j hj).2.2⟩, hp⟩

/-- A freshly constructed merge iterator satisfies the merge invariant,
whichever buffering strategy is active. -/
theorem its0_wf {cs : List GenericChunk} (hwf : ∀ c ∈ cs, ChunkWf c) :
    ∀ c ∈ (partitionChunks cs).map newChildIt, ChildWf c := by
  intro c hc
  rcases List.mem_map.mp hc with ⟨p, hp, rfl⟩
  refine newChildIt_wf ?_ ((partitionChunks_partsWf (fun d hd => (hwf d hd).1)) p hp).2.2
  intro d hd
  exact hwf d ((partitionChunks_perm cs).subset (List.mem_flatten.mpr ⟨p, hp, hd⟩))

theorem newMergeIterator_inv (mode : Bool) {cs : List GenericChunk}
    (hwf : ∀ c ∈ cs, ChunkWf c) : InvP mode (newMergeIterator cs) := by
  have hits0wf := its0_wf hwf
  obtain ⟨r1, r2, r3, r4⟩ := initChildLoop_spec ((partitionChunks cs).map newChildIt).length
    0 ((partitionChunks cs).map newChildIt) [] false (by omega) hits0wf
    (fun j hj => absurd hj (List.not_mem_nil j)) List.Pairwise.nil
  have hits : (newMergeIterator cs).its =
      (initChildLoop ((partitionChunks cs).map newChildIt).length 0
        ((partitionChunks cs).map newChildIt) [] false).1 := rfl
  have hhh : (newMergeIterator cs).h =
      heapInit
        (hKey ((initChildLoop ((partitionChunks cs).map newChildIt).length 0
          ((partitionChunks cs).map newChildIt) [] false).1))
        ((initChildLoop ((partitionChunks cs).map newChildIt).length 0
          ((partitionChunks cs).map newChildIt) [] false).2.1) := rfl
  have hstream : streamOf mode (newMergeIterator cs) = [] := by cases mode <;> rfl
  refine ⟨?_, ?_, ?_, ?_, ?_, ?_, ?_⟩
  · rw [hits]; exact r2
  · intro i hi
    rw [hhh] at hi
    have h3 := r3 i (heapInit_subset hi)
    refine ⟨?_, by rw [hits]; exact h3.2⟩
    rw [hits, r1]
    exact h3.1
  · rw [hhh]
    exact heapInit_distinct (pairwise_lt_HDistinct r4)
  · rw [hhh, hits]
    exact heapInit_heap _ _
  · rw [hstream]
    intro b hb
    cases hb
  · rw [hstream]
    exact List.Pairwise.nil
  · rw [hstream]
    intro x hx
    cases hx

theorem getD_eq_getElem_gen {α : Type} {l : List α} {k : Nat} (d : α)
    (hk : k < l.length) : l.getD k d = l[k] := by
  rw [List.getD_eq_getElem?_getD, List.getElem?_eq_getElem hk]
  rfl

theorem takeWhile_all_true {α : Type} (p : α → Bool) :
    ∀ (l : List α), (∀ a ∈ l, p a = true) → l.takeWhile p = l := by
  intro l
  induction l with
  | nil => intro _; rfl
  | cons a l ih =>
    intro hall
    rw [List.takeWhile_cons, if_pos (hall a (by simp))]
    rw [ih (fun b hb => hall b (by simp [hb]))]

theorem initChildLoop_more :
    ∀ (fuel i : Nat) (its : List ChildIt) (h : List Nat) (e : Bool),
      its.length ≤ i + fuel →
      (∀ c ∈ its, ∀ x ∈ c.all, x.kind ≠ ValueType.none) →
      (∀ j, j < i →
        (initChildLoop fuel i its h e).1.getD j default = its.getD j default) ∧
      (∀ j, i ≤ j → j < its.length →
        (initChildLoop fuel i its h e).1.getD j default =
          (childNext 1 (its.getD j default)).2) ∧
      (∀ j ∈ h, j ∈ (initChildLoop fuel i its h e).2.1) ∧
      (∀ j, i ≤ j → j < its.length → (its.getD j default).all ≠ [] →
        (its.getD j default).pos = 0 → (its.getD j default).blen = 0 →
        j ∈ (initChildLoop fuel i its h e).2.1) ∧
      ((∀ c ∈ its, c.err = false) → (initChildLoop fuel i its h e).2.2 = e) := by
  intro fuel
  induction fuel with
  | zero =>
    intro i its h e hle hk
    exact ⟨fun j _ => rfl, fun j hj hjl => by omega, fun j hj => hj,
      fun j hj hjl _ _ _ => by omega, fun _ => rfl⟩
  | succ m ih =>
    intro i its h e hle hk
    by_cases hi : i < its.length
    · have hk2 : ∀ c ∈ its.set i (childNext 1 (its.getD i default)).2,
          ∀ x ∈ c.all, x.kind ≠ ValueType.none := by
        intro c hc
        rcases List.mem_or_eq_of_mem_set hc with h1 | h1
        · exact hk c h1
        · rw [h1, childNext_all]
          exact hk _ (getD_mem_gen default hi)
      have hlen2 : (its.set i (childNext 1 (its.getD i default)).2).length = its.length := by
        simp
      have hgset : ∀ j, j ≠ i →
          (its.set i (childNext 1 (its.getD i default)).2).getD j default =
            its.getD j default := by
        intro j hj
        exact getD_set_ne _ _ (fun he => hj he.symm)
      have hgseti : (its.set i (childNext 1 (its.getD i default)).2).getD i default =
          (childNext 1 (its.getD i default)).2 := getD_set_self _ _ hi
      by_cases hv : (childNext 1 (its.getD i default)).1 = ValueType.none
      · have hred : initChildLoop (m + 1) i its h e =
            initChildLoop m (i + 1) (its.set i (childNext 1 (its.getD i default)).2) h
              (e || childErr (childNext 1 (its.getD i default)).2) := by
          simp only [initChildLoop]
          rw [if_pos hi, if_pos hv]
        rw [hred]
        obtain ⟨rA, rB, rC, rD, rE⟩ := ih (i + 1) _ h _ (by rw [hlen2]; omega) hk2
        refine ⟨?_, ?_, rC, ?_, ?_⟩
        · intro j hj
          rw [rA j (by omega), hgset j (by omega)]
        · intro j hj hjl
          by_cases hji : j = i
          · subst hji
            rw [rA j (by omega), hgseti]
          · rw [rB j (by omega) (by rw [hlen2]; exact hjl), hgset j hji]
        · intro j hj hjl ha hp hb
          by_cases hji : j = i
          · exfalso
            subst hji
            have hnone := (childNext_none_iff (hk _ (getD_mem_gen default hi))).mp hv
            rw [hp, hb] at hnone
            simp only [Nat.add_zero, List.drop_zero] at hnone
            exact takeBatch_ne_nil ha (by omega) hnone
          · refine rD j (by omega) (by rw [hlen2]; exact hjl) ?_ ?_ ?_
            · rw [hgset j hji]; exact ha
            · rw [hgset j hji]; exact hp
            · rw [hgset j hji]; exact hb
        · intro herr
          have herr2 : ∀ c ∈ its.set i (childNext 1 (its.getD i default)).2,
              c.err = false := by
            intro c hc
            rcases List.mem_or_eq_of_mem_set hc with h1 | h1
            · exact herr c h1
            · rw [h1, childNext_err]
              exact herr _ (getD_mem_gen default hi)
          rw [rE herr2]
          have hce : childErr (childNext 1 (its.getD i default)).2 = false := by
            unfold childErr
            rw [childNext_err, herr _ (getD_mem_gen default hi)]
            rfl
          rw [hce, Bool.or_false]
      · have hred : initChildLoop (m + 1) i its h e =
            initChildLoop m (i + 1) (its.set i (childNext 1 (its.getD i default)).2)
              (h ++ [i]) e := by
          simp only [initChildLoop]
          rw [if_pos hi, if_neg hv]
        rw [hred]
        obtain ⟨rA, rB, rC, rD, rE⟩ := ih (i + 1) _ (h ++ [i]) _ (by rw [hlen2]; omega) hk2
        refine ⟨?_, ?_, ?_, ?_, ?_⟩
        · intro j hj
          rw [rA j (by omega), hgset j (by omega)]
        · intro j hj hjl
          by_cases hji : j = i
          · subst hji
            rw [rA j (by omega), hgseti]
          · rw [rB j (by omega) (by rw [hlen2]; exact hjl), hgset j hji]
        · intro j hj
          exact rC j (List.mem_append.mpr (Or.inl hj))
        · intro j hj hjl ha hp hb
          by_cases hji : j = i
          · subst hji
            exact rC j (List.mem_append.mpr (Or.inr (by simp)))
          · refine rD j (by omega) (by rw [hlen2]; exact hjl) ?_ ?_ ?_
            · rw [hgset j hji]; exact ha
            · rw [hgset j hji]; exact hp
            · rw [hgset j hji]; exact hb
        · intro herr
          have herr2 : ∀ c ∈ its.set i (childNext 1 (its.getD i default)).2,
              c.err = false := by
            intro c hc
            rcases List.mem_or_eq_of_mem_set hc with h1 | h1
            · exact herr c h1
            · rw [h1, childNext_err]
              exact herr _ (getD_mem_gen default hi)
          exact rE herr2
    · have hred : initChildLoop (m + 1) i its h e = (its, h, e) := by
        simp [initChildLoop, hi]
      rw [hred]
      exact ⟨fun j _ => rfl, fun j hj hjl => by omega, fun j hj => hj,
        fun j hj hjl _ _ _ => by omega, fun _ => rfl⟩

theorem newMergeIterator_batchLen (mode : Bool) (cs : List GenericChunk) :
    batchLen mode (newMergeIterator cs) = 0 := by
  cases mode <;> rfl

theorem newMergeIterator_stream (mode : Bool) (cs : List GenericChunk) :
    streamOf mode (newMergeIterator cs) = [] := by
  cases mode <;> rfl

/-- Every sample inside a freshly built merge iterator is an input sample. -/
theorem fresh_mem_input (mode : Bool) {cs : List GenericChunk}
    (hwf : ∀ c ∈ cs, ChunkWf c) :
    ∀ x, MachineMem mode (newMergeIterator cs) x → ∃ c ∈ cs, x ∈ c.samples := by
  intro x hx
  rcases hx with h1 | ⟨i, hi, h2⟩
  · rw [newMergeIterator_stream] at h1
    simp [flattenB] at h1
  · have hhh : (newMergeIterator cs).h =
        heapInit
          (hKey ((initChildLoop ((partitionChunks cs).map newChildIt).length 0
            ((partitionChunks cs).map newChildIt) [] false).1))
          ((initChildLoop ((partitionChunks cs).map newChildIt).length 0
            ((partitionChunks cs).map newChildIt) [] false).2.1) := rfl
    rw [hhh] at hi
    have hi2 := heapInit_subset hi
    obtain ⟨r1, r2, r3, r4⟩ := initChildLoop_spec
      ((partitionChunks cs).map newChildIt).length 0
      ((partitionChunks cs).map newChildIt) [] false (by omega) (its0_wf hwf)
      (fun j hj => absurd hj (List.not_mem_nil j)) List.Pairwise.nil
    have hilen : i < ((partitionChunks cs).map newChildIt).length := (r3 i hi2).1
    obtain ⟨mA, mB, mC, mD, mE⟩ := initChildLoop_more
      ((partitionChunks cs).map newChildIt).length 0
      ((partitionChunks cs).map newChildIt) [] false (by omega)
      (fun c hc y hy => (its0_wf hwf c hc).2.2 y hy)
    have hentry : (newMergeIterator cs).its.getD i default =
        (childNext 1 (((partitionChunks cs).map newChildIt).getD i default)).2 :=
      mB i (by omega) hilen
    rw [hentry] at h2
    have hall : x ∈ (((partitionChunks cs).map newChildIt).getD i default).all := by
      have hsub := childRem_subset_all h2
      rwa [childNext_all] at hsub
    have hplen : i < (partitionChunks cs).length := by
      rw [List.length_map] at hilen
      exact hilen
    have hgi : ((partitionChunks cs).map newChildIt).getD i default =
        newChildIt ((partitionChunks cs)[i]) := by
      rw [getD_eq_getElem_gen default hilen, List.getElem_map]
    rw [hgi] at hall
    rcases List.mem_flatten.mp hall with ⟨l, hl, hxl⟩
    rcases List.mem_map.mp hl with ⟨d, hd, rfl⟩
    have hdp : d ∈ (partitionChunks cs)[i] := (List.takeWhile_sublist _).subset hd
    have hdcs : d ∈ cs := (partitionChunks_perm cs).subset
      (List.mem_flatten.mpr ⟨(partitionChunks cs)[i], List.getElem_mem hplen, hdp⟩)
    exact ⟨d, hdcs, hxl⟩

/-- With no corrupt chunk, every input sample's timestamp is content of the
freshly built machine. -/
theorem fresh_ts_complete (mode : Bool) {cs : List GenericChunk}
    (hwf : ∀ c ∈ cs, ChunkWf c) (hnc : ∀ c ∈ cs, c.corrupt = false) :
    ∀ c ∈ cs, ∀ x ∈ c.samples, MachineTs mode (newMergeIterator cs) x.t := by
  intro c hc x hx
  have hc2 : c ∈ (partitionChunks cs).flatten := (partitionChunks_perm cs).mem_iff.mpr hc
  rcases List.mem_flatten.mp hc2 with ⟨p, hp, hcp⟩
  rcases List.getElem_of_mem hp with ⟨idx, hidx, hpeq⟩
  have hidxlen : idx < ((partitionChunks cs).map newChildIt).length := by
    rw [List.length_map]
    exact hidx
  have hgi : ((partitionChunks cs).map newChildIt).getD idx default = newChildIt p := by
    rw [getD_eq_getElem_gen default hidxlen, List.getElem_map, hpeq]
  have htw : p.takeWhile (fun d => !d.corrupt) = p := by
    refine takeWhile_all_true _ p ?_
    intro d hd
    have hdcs : d ∈ cs := (partitionChunks_perm cs).subset (List.mem_flatten.mpr ⟨p, hp, hd⟩)
    rw [hnc d hdcs]
    rfl
  have hallx : x ∈ (newChildIt p).all := by
    show x ∈ ((p.takeWhile (fun d => !d.corrupt)).map GenericChunk.samples).flatten
    rw [htw]
    exact List.mem_flatten.mpr ⟨c.samples, List.mem_map.mpr ⟨c, hcp, rfl⟩, hx⟩
  obtain ⟨mA, mB, mC, mD, mE⟩ := initChildLoop_more
    ((partitionChunks cs).map newChildIt).length 0
    ((partitionChunks cs).map newChildIt) [] false (by omega)
    (fun c' hc' y hy => (its0_wf hwf c' hc').2.2 y hy)
  have hidxh : idx ∈ (initChildLoop ((partitionChunks cs).map newChildIt).length 0
      ((partitionChunks cs).map newChildIt) [] false).2.1 := by
    refine mD idx (by omega) hidxlen ?_ ?_ ?_
    · rw [hgi]
      intro hcon
      rw [hcon] at hallx
      exact absurd hallx (List.not_mem_nil x)
    · rw [hgi]
      rfl
    · rw [hgi]
      rfl
  right
  refine ⟨idx, ?_, ?_⟩
  · exact heapInit_mem_rev hidxh
  · have hentry : (newMergeIterator cs).its.getD idx default =
        (childNext 1 (((partitionChunks cs).map newChildIt).getD idx default)).2 :=
      mB idx (by omega) hidxlen
    rw [hentry, hgi]
    have hrem : childRem (childNext 1 (newChildIt p)).2 = (newChildIt p).all := by
      unfold childRem
      rw [childNext_all, childNext_pos]
      rfl
    rw [hrem]
    exact tsOf_mem_iff.mpr ⟨x, hallx, rfl⟩

/-- With no corrupt chunk, construction records no error. -/
theorem fresh_err {cs : List GenericChunk} (hwf : ∀ c ∈ cs, ChunkWf c)
    (hnc : ∀ c ∈ cs, c.corrupt = false) :
    (newMergeIterator cs).currErr = false := by
  obtain ⟨mA, mB, mC, mD, mE⟩ := initChildLoop_more
    ((partitionChunks cs).map newChildIt).length 0
    ((partitionChunks cs).map newChildIt) [] false (by omega)
    (fun c' hc' y hy => (its0_wf hwf c' hc').2.2 y hy)
  show (initChildLoop ((partitionChunks cs).map newChildIt).length 0
    ((partitionChunks cs).map newChildIt) [] false).2.2 = false
  refine mE ?_
  intro c hcm
  rcases List.mem_map.mp hcm with ⟨p, hp, rfl⟩
  show p.any GenericChunk.corrupt = false
  rw [List.any_eq_false]
  intro d hd
  have hdcs : d ∈ cs := (partitionChunks_perm cs).subset (List.mem_flatten.mpr ⟨p, hp, hd⟩)
  rw [hnc d hdcs]
  exact Bool.false_ne_true

/-- Every sample in any fresh child iterator's decoded stream is an input
sample. -/
theorem fresh_all_input {cs : List GenericChunk} (hwf : ∀ c ∈ cs, ChunkWf c) :
    ∀ k, k < (newMergeIterator cs).its.length →
      ∀ x ∈ ((newMergeIterator cs).its.getD k default).all, ∃ c ∈ cs, x ∈ c.samples := by
  intro k hk x hx
  obtain ⟨r1, r2, r3, r4⟩ := initChildLoop_spec
    ((partitionChunks cs).map newChildIt).length 0
    ((partitionChunks cs).map newChildIt) [] false (by omega) (its0_wf hwf)
    (fun j hj => absurd hj (List.not_mem_nil j)) List.Pairwise.nil
  have hk2 : k < ((partitionChunks cs).map newChildIt).length := by
    have hlen : (newMergeIterator cs).its.length =
        ((partitionChunks cs).map newChildIt).length := r1
    omega
  obtain ⟨mA, mB, mC, mD, mE⟩ := initChildLoop_more
    ((partitionChunks cs).map newChildIt).length 0
    ((partitionChunks cs).map newChildIt) [] false (by omega)
    (fun c' hc' y hy => (its0_wf hwf c' hc').2.2 y hy)
  have hentry : (newMergeIterator cs).its.getD k default =
      (childNext 1 (((partitionChunks cs).map newChildIt).getD k default)).2 :=
    mB k (by omega) hk2
  rw [hentry, childNext_all] at hx
  have hplen : k < (partitionChunks cs).length := by
    rw [List.length_map] at hk2
    exact hk2
  have hgi : ((partitionChunks cs).map newChildIt).getD k default =
      newChildIt ((partitionChunks cs)[k]) := by
    rw [getD_eq_getElem_gen default hk2, List.getElem_map]
  rw [hgi] at hx
  rcases List.mem_flatten.mp hx with ⟨l, hl, hxl⟩
  rcases List.mem_map.mp hl with ⟨d, hd, rfl⟩
  have hdp : d ∈ (partitionChunks cs)[k] := (List.takeWhile_sublist _).subset hd
  have hdcs : d ∈ cs := (partitionChunks_perm cs).subset
    (List.mem_flatten.mpr ⟨(partitionChunks cs)[k], List.getElem_mem hplen, hdp⟩)
  exact ⟨d, hdcs, hxl⟩

/-- With no corrupt chunk, every input sample appears in some fresh child
iterator's decoded stream. -/
theorem fresh_all_complete {cs : List GenericChunk} (hwf : ∀ c ∈ cs, ChunkWf c)
    (hnc : ∀ c ∈ cs, c.corrupt = false) :
    ∀ c ∈ cs, ∀ x ∈ c.samples, ∃ k, k < (newMergeIterator cs).its.length ∧
      x ∈ ((newMergeIterator cs).its.getD k default).all := by
  intro c hc x hx
  have hc2 : c ∈ (partitionChunks cs).flatten := (partitionChunks_perm cs).mem_iff.mpr hc
  rcases List.mem_flatten.mp hc2 with ⟨p, hp, hcp⟩
  rcases List.getElem_of_mem hp with ⟨idx, hidx, hpeq⟩
  have hidxlen : idx < ((partitionChunks cs).map newChildIt).length := by
    rw [List.length_map]
    exact hidx
  have hgi : ((partitionChunks cs).map newChildIt).getD idx default = newChildIt p := by
    rw [getD_eq_getElem_gen default hidxlen, List.getElem_map, hpeq]
  have htw : p.takeWhile (fun d => !d.corrupt) = p := by
    refine takeWhile_all_true _ p ?_
    intro d hd
    have hdcs : d ∈ cs := (partitionChunks_perm cs).subset (List.mem_flatten.mpr ⟨p, hp, hd⟩)
    rw [hnc d hdcs]
    rfl
  have hallx : x ∈ (newChildIt p).all := by
    show x ∈ ((p.takeWhile (fun d => !d.corrupt)).map GenericChunk.samples).flatten
    rw [htw]
    exact List.mem_flatten.mpr ⟨c.samples, List.mem_map.mpr ⟨c, hcp, rfl⟩, hx⟩
  obtain ⟨r1, r2, r3, r4⟩ := initChildLoop_spec
    ((partitionChunks cs).map newChildIt).length 0
    ((partitionChunks cs).map newChildIt) [] false (by omega) (its0_wf hwf)
    (fun j hj => absurd hj (List.not_mem_nil j)) List.Pairwise.nil
  obtain ⟨mA, mB, mC, mD, mE⟩ := initChildLoop_more
    ((partitionChunks cs).map newChildIt).length 0
    ((partitionChunks cs).map newChildIt) [] false (by omega)
    (fun c' hc' y hy => (its0_wf hwf c' hc').2.2 y hy)
  have hlen : (newMergeIterator cs).its.length =
      ((partitionChunks cs).map newChildIt).length := r1
  refine ⟨idx, by omega, ?_⟩
  have hentry : (newMergeIterator cs).its.getD idx default =
      (childNext 1 (((partitionChunks cs).map newChildIt).getD idx default)).2 :=
    mB idx (by omega) hidxlen
  rw [hentry, childNext_all, hgi]
  exact hallx

/-- With no corrupt chunk, every fresh child iterator is error-free. -/
theorem fresh_children_err {cs : List GenericChunk} (hwf : ∀ c ∈ cs, ChunkWf c)
    (hnc : ∀ c ∈ cs, c.corrupt = false) :
    ∀ c ∈ (newMergeIterator cs).its, c.err = false := by
  intro c hcmem
  rcases List.getElem_of_mem hcmem with ⟨k, hk, heq⟩
  obtain ⟨r1, r2, r3, r4⟩ := initChildLoop_spec
    ((partitionChunks cs).map newChildIt).length 0
    ((partitionChunks cs).map newChildIt) [] false (by omega) (its0_wf hwf)
    (fun j hj => absurd hj (List.not_mem_nil j)) List.Pairwise.nil
  obtain ⟨mA, mB, mC, mD, mE⟩ := initChildLoop_more
    ((partitionChunks cs).map newChildIt).length 0
    ((partitionChunks cs).map newChildIt) [] false (by omega)
    (fun c' hc' y hy => (its0_wf hwf c' hc').2.2 y hy)
  have hlen : (newMergeIterator cs).its.length =
      ((partitionChunks cs).map newChildIt).length := r1
  have hk2 : k < ((partitionChunks cs).map newChildIt).length := by omega
  have hgd : (newMergeIterator cs).its.getD k default = c := by
    rw [getD_eq_getElem_gen default hk, heq]
  have hentry : (newMergeIterator cs).its.getD k default =
      (childNext 1 (((partitionChunks cs).map newChildIt).getD k default)).2 :=
    mB k (by omega) hk2
  have hplen : k < (partitionChunks cs).length := by
    rw [List.length_map] at hk2
    exact hk2
  have hgi : ((partitionChunks cs).map newChildIt).getD k default =
      newChildIt ((partitionChunks cs)[k]) := by
    rw [getD_eq_getElem_gen default hk2, List.getElem_map]
  rw [← hgd, hentry, childNext_err, hgi]
  show ((partitionChunks cs)[k]).any GenericChunk.corrupt = false
  rw [List.any_eq_false]
  intro d hd
  have hdcs : d ∈ cs := (partitionChunks_perm cs).subset
    (List.mem_flatten.mpr ⟨(partitionChunks cs)[k], List.getElem_mem hplen, hd⟩)
  rw [hnc d hdcs]
  exact Bool.false_ne_true

/-- C1: driving the merge iterator built over well-formed chunks with any
sequence of `Next(size)` calls (any positive batch sizes) yields output
sample timestamps that are strictly increasing: each emitted timestamp is
strictly greater than the previous one, so no duplicate timestamp survives
into adjacent output positions. -/
theorem global_ordering (mode : Bool) (cs : List GenericChunk) (sizes : List Nat)
    (hwf : ∀ c ∈ cs, ChunkWf c) (hsz : ∀ n ∈ sizes, n ≠ 0) :
    List.Pairwise (fun a b => a < b) (tsOf (runOutS mode sizes (newMergeIterator cs))) := by
  refine List.pairwise_map.mpr ?_
  exact (runOutS_spec sizes (newMergeIterator cs) hsz (newMergeIterator_inv mode hwf)).1

theorem global_ordering_witness :
    (∀ c ∈ specExInput, ChunkWf c) ∧ (∀ n ∈ [2, 2, 2], n ≠ 0) ∧
    List.Pairwise (fun a b => a < b)
      (tsOf (runOutS false [2, 2, 2] (newMergeIterator specExInput))) :=
  ⟨by decide, by decide,
    global_ordering false specExInput [2, 2, 2] (by decide) (by decide)⟩

/-- C3: whenever `buildNextBatch` stops merging and hands a batch to the
consumer (a non-`none` result) while partition iterators remain in the heap,
the emitted batch's last timestamp (`nextBatchEndTime`) is strictly less
than every still-active partition iterator's next timestamp (its `AtTime`
heap key) — in particular the heap root's, which is the smallest — and no
active partition can still contribute any sample at or before it. -/
theorem window_closing {mode : Bool} {size fuel : Nat} {s : MergeState}
    (hsz : size ≠ 0) (hfuel : bMeasure s < fuel) (hinv : InvP mode s)
    (hv : (buildNextBatch mode size fuel s).1 ≠ ValueType.none) :
    ∀ i ∈ (buildNextBatch mode size fuel s).2.h,
      nextBatchEndTime mode (buildNextBatch mode size fuel s).2 <
        hKey (buildNextBatch mode size fuel s).2.its i ∧
      ∀ x ∈ childRem ((buildNextBatch mode size fuel s).2.its.getD i default),
        nextBatchEndTime mode (buildNextBatch mode size fuel s).2 < x.t := by
  obtain ⟨hinv2, hcl, hnone, _, _, _, _, _, _, _⟩ := build_spec hsz fuel s hfuel hinv
  intro i hi
  have hne : (buildNextBatch mode size fuel s).2.h ≠ [] := List.ne_nil_of_mem hi
  have hbl : batchLen mode (buildNextBatch mode size fuel s).2 ≠ 0 :=
    fun h0 => hv (hnone.mpr h0)
  rcases hcl with h1 | h1 | h1
  · exact absurd h1 hne
  · exact absurd h1 hbl
  · have hroot : hKey (buildNextBatch mode size fuel s).2.its
        ((buildNextBatch mode size fuel s).2.h.headD 0) ≤
        hKey (buildNextBatch mode size fuel s).2.its i := by
      rcases List.getElem_of_mem hi with ⟨p, hp, hgp⟩
      have hmin := isHeap_root_min hinv2.2.2.2.1 p hp
      rw [headD_eq_getD_zero]
      rwa [getD_eq_getElem hp, hgp] at hmin
    have hlt : nextBatchEndTime mode (buildNextBatch mode size fuel s).2 <
        hKey (buildNextBatch mode size fuel s).2.its i := lt_of_lt_of_le h1 hroot
    refine ⟨hlt, fun x hx => ?_⟩
    have hwfi : ChildWf ((buildNextBatch mode size fuel s).2.its.getD i default) :=
      hinv2.1 _ (getD_mem_gen default (hinv2.2.1 i hi).1)
    have hx2 := childAtTime_le_rem hwfi x hx
    exact lt_of_lt_of_le hlt hx2

theorem window_closing_witness :
    (2 ≠ 0) ∧ bMeasure (newMergeIterator specExInput) < 20 ∧
    InvP false (newMergeIterator specExInput) ∧
    (buildNextBatch false 2 20 (newMergeIterator specExInput)).1 ≠ ValueType.none ∧
    (∀ i ∈ (buildNextBatch false 2 20 (newMergeIterator specExInput)).2.h,
      nextBatchEndTime false (buildNextBatch false 2 20 (newMergeIterator specExInput)).2 <
        hKey (buildNextBatch false 2 20 (newMergeIterator specExInput)).2.its i ∧
      ∀ x ∈ childRem
          ((buildNextBatch false 2 20 (newMergeIterator specExInput)).2.its.getD i default),
        nextBatchEndTime false (buildNextBatch false 2 20 (newMergeIterator specExInput)).2 <
          x.t) :=
  ⟨by decide, by decide, newMergeIterator_inv false (by decide), by decide,
    window_closing (by decide) (by decide) (newMergeIterator_inv false (by decide))
      (by decide)⟩

/-! ## The Seek slow path (claim C2) -/

theorem childSeek_rem (t : Int) (size : Nat) (c : ChildIt) :
    childRem (childSeek t size c).2 =
      c.all.drop ((c.all.takeWhile (fun s => s.t < t)).length) := by
  unfold childRem
  rw [childSeek_all, childSeek_pos]

theorem seek_rem_ge {t : Int} :
    ∀ {l : List Sample}, StrictT l →
      ∀ x ∈ l.drop ((l.takeWhile (fun s => s.t < t)).length), t ≤ x.t := by
  intro l
  induction l with
  | nil => intro _ x hx; simp at hx
  | cons a l ih =>
    intro hs x hx
    by_cases ha : a.t < t
    · rw [List.takeWhile_cons, if_pos (decide_eq_true ha), List.length_cons,
        List.drop_succ_cons] at hx
      exact ih (List.pairwise_cons.mp hs).2 x hx
    · rw [List.takeWhile_cons, if_neg (by simp [ha])] at hx
      simp only [List.length_nil, List.drop_zero] at hx
      rcases List.mem_cons.mp hx with h | h
      · subst h; omega
      · have := (List.pairwise_cons.mp hs).1 x h
        omega

theorem seek_rem_mem {t : Int} :
    ∀ {l : List Sample} {x : Sample}, x ∈ l → t ≤ x.t →
      x ∈ l.drop ((l.takeWhile (fun s => s.t < t)).length) := by
  intro l
  induction l with
  | nil => intro x hx _; exact absurd hx (List.not_mem_nil x)
  | cons a l ih =>
    intro x hx ht
    by_cases ha : a.t < t
    · rw [List.takeWhile_cons, if_pos (decide_eq_true ha), List.length_cons,
        List.drop_succ_cons]
      rcases List.mem_cons.mp hx with h | h
      · exfalso; subst h; omega
      · exact ih h ht
    · rw [List.takeWhile_cons, if_neg (by simp [ha])]
      simpa using hx

theorem seekChildrenFrom_spec (t : Int) (size : Nat) (hsz : size ≠ 0) :
    ∀ (fuel i : Nat) (s : MergeState),
      s.its.length ≤ i + fuel →
      (∀ c ∈ s.its, c.err = false) →
      (∀ c ∈ s.its, ∀ x ∈ c.all, x.kind ≠ ValueType.none) →
      (∀ j ∈ s.h, j < i ∧ j < s.its.length ∧ 0 < (s.its.getD j default).blen) →
      s.h.Pairwise (fun a b => a < b) →
      (seekChildrenFrom t size fuel i s).2 = false ∧
      (seekChildrenFrom t size fuel i s).1.its.length = s.its.length ∧
      (seekChildrenFrom t size fuel i s).1.currErr = s.currErr ∧
      (seekChildrenFrom t size fuel i s).1.batches = s.batches ∧
      (seekChildrenFrom t size fuel i s).1.mBatches = s.mBatches ∧
      (∀ j, j < i → (seekChildrenFrom t size fuel i s).1.its.getD j default =
        s.its.getD j default) ∧
      (∀ j, i ≤ j → j < s.its.length →
        (seekChildrenFrom t size fuel i s).1.its.getD j default =
          (childSeek t size (s.its.getD j default)).2) ∧
      (∀ j ∈ (seekChildrenFrom t size fuel i s).1.h, j < s.its.length ∧
        0 < ((seekChildrenFrom t size fuel i s).1.its.getD j default).blen) ∧
      (seekChildrenFrom t size fuel i s).1.h.Pairwise (fun a b => a < b) ∧
      (∀ j ∈ s.h, j ∈ (seekChildrenFrom t size fuel i s).1.h) ∧
      (∀ j, i ≤ j → j < s.its.length →
        childRem (childSeek t size (s.its.getD j default)).2 ≠ [] →
        j ∈ (seekChildrenFrom t size fuel i s).1.h) := by
  intro fuel
  induction fuel with
  | zero =>
    intro i s hle herr hk hh hp
    exact ⟨rfl, rfl, rfl, rfl, rfl, fun j _ => rfl, fun j hj hjl => by omega,
      fun j hj => ⟨(hh j hj).2.1, (hh j hj).2.2⟩, hp, fun j hj => hj,
      fun j hj hjl _ => by omega⟩
  | succ m ih =>
    intro i s hle herr hk hh hp
    by_cases hi : i < s.its.length
    · have hc0err : (s.its.getD i default).err = false := herr _ (getD_mem_gen default hi)
      have hc0k : ∀ x ∈ (s.its.getD i default).all, x.kind ≠ ValueType.none :=
        hk _ (getD_mem_gen default hi)
      have hce : childErr (childSeek t size (s.its.getD i default)).2 = false := by
        unfold childErr
        rw [childSeek_err, hc0err]
        rfl
      have hlen2 : (s.its.set i (childSeek t size (s.its.getD i default)).2).length =
          s.its.length := by simp
      have hgset : ∀ j, j ≠ i →
          (s.its.set i (childSeek t size (s.its.getD i default)).2).getD j default =
            s.its.getD j default := by
        intro j hj
        exact getD_set_ne _ _ (fun he => hj he.symm)
      have hgseti : (s.its.set i (childSeek t size (s.its.getD i default)).2).getD i
          default = (childSeek t size (s.its.getD i default)).2 := getD_set_self _ _ hi
      have herr2 : ∀ c ∈ s.its.set i (childSeek t size (s.its.getD i default)).2,
          c.err = false := by
        intro c hc
        rcases List.mem_or_eq_of_mem_set hc with h1 | h1
        · exact herr c h1
        · rw [h1, childSeek_err]
          exact hc0err
      have hk2 : ∀ c ∈ s.its.set i (childSeek t size (s.its.getD i default)).2,
          ∀ x ∈ c.all, x.kind ≠ ValueType.none := by
        intro c hc
        rcases List.mem_or_eq_of_mem_set hc with h1 | h1
        · exact hk c h1
        · rw [h1, childSeek_all]
          exact hc0k
      by_cases hv : (childSeek t size (s.its.getD i default)).1 = ValueType.none
      · have hred : seekChildrenFrom t size (m + 1) i s =
            seekChildrenFrom t size m (i + 1)
              ⟨s.its.set i (childSeek t size (s.its.getD i default)).2, s.h,
                s.batches, s.mBatches, s.currErr⟩ := by
          simp only [seekChildrenFrom]
          rw [if_pos hi, if_pos hv, hce, if_neg Bool.false_ne_true]
        rw [hred]
        have hh2 : ∀ j ∈ s.h,
            j < i + 1 ∧ j < (s.its.set i (childSeek t size
              (s.its.getD i default)).2).length ∧
            0 < ((s.its.set i (childSeek t size (s.its.getD i default)).2).getD j
              default).blen := by
          intro j hj
          have h3 := hh j hj
          refine ⟨by omega, by rw [hlen2]; exact h3.2.1, ?_⟩
          rw [hgset j (by omega)]
          exact h3.2.2
        obtain ⟨r0, r1, r2, r3, r4, r5, r6, r7, r8, r9, r10⟩ :=
          ih (i + 1)
            ⟨s.its.set i (childSeek t size (s.its.getD i default)).2, s.h,
              s.batches, s.mBatches, s.currErr⟩
            (by show (s.its.set i (childSeek t size (s.its.getD i default)).2).length ≤
                i + 1 + m
                rw [hlen2]
                omega)
            herr2 hk2 hh2 hp
        refine ⟨r0, by rw [r1]; exact hlen2, r2, r3, r4, ?_, ?_, ?_, r8, r9, ?_⟩
        · intro j hj
          rw [r5 j (by omega), hgset j (by omega)]
        · intro j hj hjl
          by_cases hji : j = i
          · subst hji
            rw [r5 j (by omega), hgseti]
          · rw [r6 j (by omega) (by rw [hlen2]; exact hjl), hgset j hji]
        · intro j hj
          have h3 := r7 j hj
          exact ⟨by rw [← hlen2]; exact h3.1, h3.2⟩
        · intro j hj hjl hrem
          by_cases hji : j = i
          · exfalso
            subst hji
            have hnone := (childSeek_none_iff hc0k).mp hv
            rw [childSeek_rem] at hrem
            by_cases hargs : (s.its.getD j default).all.drop
                (((s.its.getD j default).all.takeWhile (fun s => s.t < t)).length) = []
            · exact hrem hargs
            · exact takeBatch_ne_nil hargs hsz hnone
          · refine r10 j (by omega) (by rw [hlen2]; exact hjl) ?_
            rw [hgset j hji]
            exact hrem
      · have hred : seekChildrenFrom t size (m + 1) i s =
            seekChildrenFrom t size m (i + 1)
              ⟨s.its.set i (childSeek t size (s.its.getD i default)).2, s.h ++ [i],
                s.batches, s.mBatches, s.currErr⟩ := by
          simp only [seekChildrenFrom]
          rw [if_pos hi, if_neg hv]
        rw [hred]
        have hblen : 0 < (childSeek t size (s.its.getD i default)).2.blen := by
          rw [childSeek_blen]
          refine List.length_pos.mpr ?_
          intro hcon
          exact hv ((childSeek_none_iff hc0k).mpr hcon)
        have hh2 : ∀ j ∈ s.h ++ [i], j < i + 1 ∧
            j < (s.its.set i (childSeek t size (s.its.getD i default)).2).length ∧
            0 < ((s.its.set i (childSeek t size (s.its.getD i default)).2).getD j
              default).blen := by
          intro j hj
          rcases List.mem_append.mp hj with h1 | h1
          · have h3 := hh j h1
            refine ⟨by omega, by rw [hlen2]; exact h3.2.1, ?_⟩
            rw [hgset j (by omega)]
            exact h3.2.2
          · have h4 : j = i := List.mem_singleton.mp h1
            subst h4
            refine ⟨by omega, by rw [hlen2]; exact hi, ?_⟩
            rw [hgseti]
            exact hblen
        have hp2 : (s.h ++ [i]).Pairwise (fun a b => a < b) := by
          refine List.pairwise_append.mpr ⟨hp, List.pairwise_singleton _ _, ?_⟩
          intro a ha b hb
          have hb2 : b = i := List.mem_singleton.mp hb
          subst hb2
          exact (hh a ha).1
        obtain ⟨r0, r1, r2, r3, r4, r5, r6, r7, r8, r9, r10⟩ :=
          ih (i + 1)
            ⟨s.its.set i (childSeek t size (s.its.getD i default)).2, s.h ++ [i],
              s.batches, s.mBatches, s.currErr⟩
            (by show (s.its.set i (childSeek t size (s.its.getD i default)).2).length ≤
                i + 1 + m
                rw [hlen2]
                omega)
            herr2 hk2 hh2 hp2
        refine ⟨r0, by rw [r1]; exact hlen2, r2, r3, r4, ?_, ?_, ?_, r8, ?_, ?_⟩
        · intro j hj
          rw [r5 j (by omega), hgset j (by omega)]
        · intro j hj hjl
          by_cases hji : j = i
          · subst hji
            rw [r5 j (by omega), hgseti]
          · rw [r6 j (by omega) (by rw [hlen2]; exact hjl), hgset j hji]
        · intro j hj
          have h3 := r7 j hj
          exact ⟨by rw [← hlen2]; exact h3.1, h3.2⟩
        · intro j hj
          exact r9 j (List.mem_append.mpr (Or.inl hj))
        · intro j hj hjl hrem
          by_cases hji : j = i
          · subst hji
            exact r9 j (List.mem_append.mpr (Or.inr (by simp)))
          · refine r10 j (by omega) (by rw [hlen2]; exact hjl) ?_
            rw [hgset j hji]
            exact hrem
    · have hred : seekChildrenFrom t size (m + 1) i s = (s, false) := by
        simp [seekChildrenFrom, hi]
      rw [hred]
      exact ⟨rfl, rfl, rfl, rfl, rfl, fun j _ => rfl, fun j hj hjl => by omega,
        fun j hj => ⟨(hh j hj).2.1, (hh j hj).2.2⟩, hp, fun j hj => hj,
        fun j hj hjl _ => by omega⟩

/-- When no batch is buffered, `Seek` takes the slow path: reset the heap
and the buffer, re-seek every child, and (when no child failed) re-heapify
and rebuild. -/
theorem mSeek_slow_eq {mode : Bool} {t : Int} {size : Nat} {s : MergeState}
    (hbl : batchLen mode s = 0) (hse : (seekSlowRun t size s).2 = false) :
    mSeek mode t size s =
      buildNextBatch mode size (buildFuel (seekSlowState t size s))
        (seekSlowState t size s) := by
  have hse2 : (seekChildrenFrom t size s.its.length 0
      ⟨s.its, [], [], s.mBatches, s.currErr⟩).2 = false := hse
  have hd : seekDropLoop mode t (batchLen mode s) s = (s, false) := by
    rw [hbl]
    rfl
  unfold mSeek
  rw [hd]
  simp only [hse2]
  rfl

/-- C2 (amended, slow path): from a state with no buffered batch — e.g. a
fresh iterator — `Seek(t, size)` over corruption-free well-formed chunks
followed by `AtTime` yields exactly the smallest input timestamp `≥ t`:
`Seek` reports no-value (with no error) precisely when no input sample at or
after `t` exists, and otherwise `AtTime` returns an input timestamp `≥ t`
that is a lower bound of all input timestamps `≥ t`.  (On the fast path this
fails: `AtTime` reports the current batch's start, which can precede `t`;
see the counterexample.) -/
theorem seek_then_atTime (mode : Bool) (cs : List GenericChunk) (t : Int) (size : Nat)
    (hsz : size ≠ 0) (hwf : ∀ c ∈ cs, ChunkWf c) (hnc : ∀ c ∈ cs, c.corrupt = false) :
    ((mSeek mode t size (newMergeIterator cs)).1 = ValueType.none ↔
      ∀ v ∈ inputTs cs, v < t) ∧
    (∀ u, mAtTime mode (mSeek mode t size (newMergeIterator cs)).2 = some u →
      u ∈ inputTs cs ∧ t ≤ u ∧ ∀ v ∈ inputTs cs, t ≤ v → u ≤ v) ∧
    ((mSeek mode t size (newMergeIterator cs)).1 ≠ ValueType.none →
      ∃ u, mAtTime mode (mSeek mode t size (newMergeIterator cs)).2 = some u) ∧
    (mSeek mode t size (newMergeIterator cs)).2.currErr = false := by
  have hinv0 := newMergeIterator_inv mode hwf
  obtain ⟨q0, q1, q2, q3, q4, q5, q6, q7, q8, q9, q10⟩ :=
    seekChildrenFrom_spec t size hsz (newMergeIterator cs).its.length 0
      (seekSlowPre (newMergeIterator cs))
      (by
        show (newMergeIterator cs).its.length ≤ 0 + (newMergeIterator cs).its.length
        omega)
      (fun c hc => fresh_children_err hwf hnc c hc)
      (fun c hc x hx => (hinv0.1 c hc).2.2 x hx)
      (fun j hj => absurd hj (List.not_mem_nil j))
      List.Pairwise.nil
  have q0' : (seekSlowRun t size (newMergeIterator cs)).2 = false := q0
  rw [mSeek_slow_eq (newMergeIterator_batchLen mode cs) q0']
  set s4 : MergeState := seekSlowState t size (newMergeIterator cs) with hs4
  have hlen4 : s4.its.length = (newMergeIterator cs).its.length := q1
  have hwf4 : ∀ c ∈ s4.its, ChildWf c := by
    intro c hc
    rcases List.getElem_of_mem hc with ⟨k, hk, heq⟩
    have hk2 : k < (newMergeIterator cs).its.length := by omega
    have hc4 : s4.its.getD k default = c := by
      rw [getD_eq_getElem_gen default hk, heq]
    rw [← hc4]
    have hgq : s4.its.getD k default =
        (childSeek t size ((newMergeIterator cs).its.getD k default)).2 :=
      q6 k (by omega) hk2
    rw [hgq]
    exact childSeek_wf (hinv0.1 _ (getD_mem_gen default hk2))
  have hstream4 : streamOf mode s4 = [] := by
    have hb : s4.batches = ([] : List Batch) := q3
    have hmb : s4.mBatches = ([] : List Batch) := q4
    cases mode
    · exact hb
    · exact hmb
  have hinv4 : InvP mode s4 := by
    refine ⟨hwf4, ?_, ?_, ?_, ?_, ?_, ?_⟩
    · intro i hi
      have hi2 : i ∈ (seekSlowRun t size (newMergeIterator cs)).1.h := heapInit_subset hi
      have h7 := q7 i hi2
      have h71 : i < (newMergeIterator cs).its.length := h7.1
      exact ⟨by omega, h7.2⟩
    · exact heapInit_distinct (pairwise_lt_HDistinct q8)
    · exact heapInit_heap _ _
    · rw [hstream4]
      intro b hb
      exact absurd hb (List.not_mem_nil b)
    · rw [hstream4]
      exact List.Pairwise.nil
    · rw [hstream4]
      intro x hx
      simp [flattenB] at hx
  have hmem4 : ∀ x, MachineMem mode s4 x → (∃ c ∈ cs, x ∈ c.samples) ∧ t ≤ x.t := by
    intro x hx
    rcases hx with h1 | ⟨i, hi, h2⟩
    · rw [hstream4] at h1
      simp [flattenB] at h1
    · have hi2 : i ∈ (seekSlowRun t size (newMergeIterator cs)).1.h := heapInit_subset hi
      have h7 := q7 i hi2
      have hil : i < (newMergeIterator cs).its.length := h7.1
      have hgq : s4.its.getD i default =
          (childSeek t size ((newMergeIterator cs).its.getD i default)).2 :=
        q6 i (by omega) hil
      rw [hgq, childSeek_rem] at h2
      constructor
      · exact fresh_all_input hwf i hil x (List.drop_subset _ _ h2)
      · exact seek_rem_ge (hinv0.1 _ (getD_mem_gen default hil)).1 x h2
  have hts4 : ∀ c ∈ cs, ∀ x ∈ c.samples, t ≤ x.t → MachineTs mode s4 x.t := by
    intro c hc x hx ht
    rcases fresh_all_complete hwf hnc c hc x hx with ⟨k, hk, hkall⟩
    have hrem : x ∈ childRem
        (childSeek t size ((newMergeIterator cs).its.getD k default)).2 := by
      rw [childSeek_rem]
      exact seek_rem_mem hkall ht
    have hremne : childRem
        (childSeek t size ((newMergeIterator cs).its.getD k default)).2 ≠ [] :=
      fun hcon => by rw [hcon] at hrem; exact absurd hrem (List.not_mem_nil x)
    have hkh : k ∈ (seekSlowRun t size (newMergeIterator cs)).1.h :=
      q10 k (by omega) hk hremne
    right
    refine ⟨k, heapInit_mem_rev hkh, ?_⟩
    have hgq : s4.its.getD k default =
        (childSeek t size ((newMergeIterator cs).its.getD k default)).2 :=
      q6 k (by omega) hk
    rw [hgq]
    exact tsOf_mem_iff.mpr ⟨x, hrem, rfl⟩
  obtain ⟨hinvr, hclr, hnoner, hhnilr, _, _, _, _, herrr, _⟩ :=
    build_spec hsz (buildFuel s4) s4 (bMeasure_lt_buildFuel s4) hinv4
  have hcerr : (buildNextBatch mode size (buildFuel s4) s4).2.currErr = false := by
    rw [herrr]
    have hc4 : s4.currErr = (newMergeIterator cs).currErr := q2
    rw [hc4]
    exact fresh_err hwf hnc
  have hiffA : (buildNextBatch mode size (buildFuel s4) s4).1 = ValueType.none ↔
      ∀ v ∈ inputTs cs, v < t := by
    constructor
    · intro hn v hv
      by_contra hvt
      push_neg at hvt
      rcases tsOf_mem_iff.mp hv with ⟨x, hxin, hxt⟩
      rcases List.mem_flatten.mp hxin with ⟨l, hl, hxl⟩
      rcases List.mem_map.mp hl with ⟨c, hc, rfl⟩
      have hmts := hts4 c hc x hxl (by omega)
      have hcons := build_ts_conserve hsz (buildFuel s4) s4 (bMeasure_lt_buildFuel s4)
        hinv4 x.t hmts
      have hbl0 : batchLen mode (buildNextBatch mode size (buildFuel s4) s4).2 = 0 :=
        hnoner.mp hn
      have hh0 : (buildNextBatch mode size (buildFuel s4) s4).2.h = [] := hhnilr hn
      rcases hcons with h1 | ⟨i, hi, _⟩
      · rw [batchLen_streamOf] at hbl0
        rw [List.length_eq_zero.mp hbl0] at h1
        simp [flattenB, tsOf] at h1
      · rw [hh0] at hi
        exact absurd hi (List.not_mem_nil i)
    · intro hall
      by_contra hnn
      have hbl : batchLen mode (buildNextBatch mode size (buildFuel s4) s4).2 ≠ 0 :=
        fun h0 => hnn (hnoner.mpr h0)
      cases hstq : streamOf mode (buildNextBatch mode size (buildFuel s4) s4).2 with
      | nil =>
        rw [batchLen_streamOf, hstq] at hbl
        exact absurd rfl hbl
      | cons b rest =>
        have hbne : b.samples ≠ [] :=
          (hinvr.2.2.2.2.1 b (by rw [hstq]; simp)).2
        have hy : b.samples.headD default ∈ b.samples := by
          cases hsam : b.samples with
          | nil => exact absurd hsam hbne
          | cons a l => simp [hsam]
        have hym : MachineMem mode (buildNextBatch mode size (buildFuel s4) s4).2
            (b.samples.headD default) := by
          left
          rw [hstq, flattenB_cons]
          exact List.mem_append.mpr (Or.inl hy)
        have hmm := build_mem_sub hsz (buildFuel s4) s4 (bMeasure_lt_buildFuel s4)
          hinv4 _ hym
        rcases hmem4 _ hmm with ⟨⟨c, hc, hxc⟩, hge⟩
        have hints : (b.samples.headD default).t ∈ inputTs cs :=
          tsOf_mem_iff.mpr ⟨_, List.mem_flatten.mpr
            ⟨c.samples, List.mem_map.mpr ⟨c, hc, rfl⟩, hxc⟩, rfl⟩
        have := hall _ hints
        omega
  have hatB : ∀ u, mAtTime mode (buildNextBatch mode size (buildFuel s4) s4).2 = some u →
      u ∈ inputTs cs ∧ t ≤ u ∧ ∀ v ∈ inputTs cs, t ≤ v → u ≤ v := by
    intro u hat
    unfold mAtTime at hat
    cases hcq : currBatchQ mode (buildNextBatch mode size (buildFuel s4) s4).2 with
    | none =>
      rw [hcq] at hat
      simp at hat
    | some b =>
      rw [hcq, Option.map_some'] at hat
      have hat2 : (b.samples.headD default).t = u := Option.some.inj hat
      cases hstq : streamOf mode (buildNextBatch mode size (buildFuel s4) s4).2 with
      | nil =>
        rw [streamOf_currBatchQ, hstq] at hcq
        simp at hcq
      | cons b2 rest =>
        rw [streamOf_currBatchQ, hstq] at hcq
        simp at hcq
        subst hcq
        have hbne : b2.samples ≠ [] :=
          (hinvr.2.2.2.2.1 b2 (by rw [hstq]; simp)).2
        have hy : b2.samples.headD default ∈ b2.samples := by
          cases hsam : b2.samples with
          | nil => exact absurd hsam hbne
          | cons a l => simp [hsam]
        have hym : MachineMem mode (buildNextBatch mode size (buildFuel s4) s4).2
            (b2.samples.headD default) := by
          left
          rw [hstq, flattenB_cons]
          exact List.mem_append.mpr (Or.inl hy)
        have hmm := build_mem_sub hsz (buildFuel s4) s4 (bMeasure_lt_buildFuel s4)
          hinv4 _ hym
        rcases hmem4 _ hmm with ⟨⟨c, hc, hxc⟩, hge⟩
        have hints : (b2.samples.headD default).t ∈ inputTs cs :=
          tsOf_mem_iff.mpr ⟨_, List.mem_flatten.mpr
            ⟨c.samples, List.mem_map.mpr ⟨c, hc, rfl⟩, hxc⟩, rfl⟩
        have hbsort : StrictT b2.samples := by
          have hsort := hinvr.2.2.2.2.2.1
          rw [hstq, flattenB_cons] at hsort
          exact (List.pairwise_append.mp hsort).1
        have hble : (b2.samples.headD default).t ≤
            (b2.samples.getLastD default).t := strictT_le_last hbsort _ hy
        have habv := closed_emit_above hinvr hclr hstq
        refine ⟨hat2 ▸ hints, hat2 ▸ hge, ?_⟩
        intro v hv htv
        rcases tsOf_mem_iff.mp hv with ⟨z, hzin, hzt⟩
        rcases List.mem_flatten.mp hzin with ⟨l, hl, hzl⟩
        rcases List.mem_map.mp hl with ⟨cz, hcz, rfl⟩
        have hmts := hts4 cz hcz z hzl (by omega)
        have hcons := build_ts_conserve hsz (buildFuel s4) s4 (bMeasure_lt_buildFuel s4)
          hinv4 z.t hmts
        rcases hcons with h1 | ⟨i, hi, h2⟩
        · rw [hstq, flattenB_cons, tsOf_append] at h1
          rcases List.mem_append.mp h1 with h3 | h3
          · rcases tsOf_mem_iff.mp h3 with ⟨w, hw, hwt⟩
            have := strictT_head_le hbsort w hw
            omega
          · rcases tsOf_mem_iff.mp h3 with ⟨w, hw, hwt⟩
            have hwrm : w ∈ flattenB (streamOf mode (removeFirstBatch mode
                (buildNextBatch mode size (buildFuel s4) s4).2)) := by
              rw [removeFirst_stream, hstq, List.tail_cons]
              exact hw
            have := habv.1 w hwrm
            omega
        · rcases tsOf_mem_iff.mp h2 with ⟨w, hw, hwt⟩
          have hlast := habv.2 i
            (by rw [removeFirst_h]; exact hi) w
            (by rw [removeFirst_its]; exact hw)
          omega
  refine ⟨hiffA, hatB, ?_, hcerr⟩
  intro hnn
  have hbl : batchLen mode (buildNextBatch mode size (buildFuel s4) s4).2 ≠ 0 :=
    fun h0 => hnn (hnoner.mpr h0)
  cases hstq : streamOf mode (buildNextBatch mode size (buildFuel s4) s4).2 with
  | nil =>
    rw [batchLen_streamOf, hstq] at hbl
    exact absurd rfl hbl
  | cons b rest =>
    refine ⟨(b.samples.headD default).t, ?_⟩
    unfold mAtTime
    rw [streamOf_currBatchQ, hstq]
    rfl

theorem seek_then_atTime_witness :
    (2 ≠ 0) ∧ (∀ c ∈ c2Input, ChunkWf c) ∧ (∀ c ∈ c2Input, c.corrupt = false) ∧
    (((mSeek false 15 2 (newMergeIterator c2Input)).1 = ValueType.none ↔
      ∀ v ∈ inputTs c2Input, v < 15) ∧
    (∀ u, mAtTime false (mSeek false 15 2 (newMergeIterator c2Input)).2 = some u →
      u ∈ inputTs c2Input ∧ 15 ≤ u ∧ ∀ v ∈ inputTs c2Input, 15 ≤ v → u ≤ v) ∧
    ((mSeek false 15 2 (newMergeIterator c2Input)).1 ≠ ValueType.none →
      ∃ u, mAtTime false (mSeek false 15 2 (newMergeIterator c2Input)).2 = some u) ∧
    (mSeek false 15 2 (newMergeIterator c2Input)).2.currErr = false) :=
  ⟨by decide, by decide, by decide,
    seek_then_atTime false c2Input 15 2 (by decide) (by decide) (by decide)⟩

theorem sorted_lt_eq_of_mem :
    ∀ {l1 l2 : List Int}, l1.Pairwise (fun a b => a < b) →
      l2.Pairwise (fun a b => a < b) → (∀ x, x ∈ l1 ↔ x ∈ l2) → l1 = l2 := by
  intro l1
  induction l1 with
  | nil =>
    intro l2 _ _ hm
    cases l2 with
    | nil => rfl
    | cons b l2 => exact absurd ((hm b).mpr (by simp)) (List.not_mem_nil b)
  | cons a l1 ih =>
    intro l2 h1 h2 hm
    cases l2 with
    | nil => exact absurd ((hm a).mp (by simp)) (List.not_mem_nil a)
    | cons b l2 =>
      have hab : a = b := by
        rcases List.mem_cons.mp ((hm a).mp (by simp)) with h | h
        · exact h
        · rcases List.mem_cons.mp ((hm b).mpr (by simp)) with h3 | h3
          · exact h3.symm
          · have hba := (List.pairwise_cons.mp h2).1 a h
            have hab2 := (List.pairwise_cons.mp h1).1 b h3
            omega
      subst hab
      have hmt : ∀ x, x ∈ l1 ↔ x ∈ l2 := by
        intro x
        constructor
        · intro hx
          have hax := (List.pairwise_cons.mp h1).1 x hx
          rcases List.mem_cons.mp ((hm x).mp (by simp [hx])) with h | h
          · omega
          · exact h
        · intro hx
          have hax := (List.pairwise_cons.mp h2).1 x hx
          rcases List.mem_cons.mp ((hm x).mpr (by simp [hx])) with h | h
          · omega
          · exact h
      rw [ih (List.pairwise_cons.mp h1).2 (List.pairwise_cons.mp h2).2 hmt]

theorem eq_of_tsOf_eq_of_sub :
    ∀ {out inp : List Sample}, tsOf out = tsOf inp → (∀ x ∈ out, x ∈ inp) →
      inp.Pairwise (fun a b => a.t < b.t) → out = inp := by
  intro out
  induction out with
  | nil =>
    intro inp hts _ _
    cases inp with
    | nil => rfl
    | cons i inp' => exact absurd hts (by simp [tsOf])
  | cons o out' ih =>
    intro inp hts hsub hpw
    cases inp with
    | nil => exact absurd hts (by simp [tsOf])
    | cons i inp' =>
      rw [tsOf_cons, tsOf_cons] at hts
      injection hts with hts1 hts2
      have hoi : o = i := by
        rcases List.mem_cons.mp (hsub o (by simp)) with h | h
        · exact h
        · exfalso
          have := (List.pairwise_cons.mp hpw).1 o h
          omega
      subst hoi
      have hsub' : ∀ x ∈ out', x ∈ inp' := by
        intro x hx
        rcases List.mem_cons.mp (hsub x (by simp [hx])) with h | h
        · exfalso
          subst h
          have hxts : x.t ∈ tsOf inp' := by
            rw [← hts2]
            exact tsOf_mem_iff.mpr ⟨x, hx, rfl⟩
          rcases tsOf_mem_iff.mp hxts with ⟨y, hy, hyt⟩
          have := (List.pairwise_cons.mp hpw).1 y hy
          omega
        · exact h
      rw [ih hts2 hsub' (List.pairwise_cons.mp hpw).2]

/-- C9: over well-formed, pairwise non-overlapping (time-ascending) chunks
free of corruption — so the concatenated input samples are strictly
time-ascending with no duplicate timestamp — driving the merge iterator with
`Next(size)` to exhaustion reproduces exactly the input samples, unchanged
and in input order. -/
theorem round_trip (mode : Bool) (size fuel : Nat) (cs : List GenericChunk)
    (hsz : size ≠ 0)
    (hwf : ∀ c ∈ cs, ChunkWf c)
    (hnov : cs.Pairwise (fun a b => a.MaxTime < b.MinTime))
    (hnc : ∀ c ∈ cs, c.corrupt = false)
    (hfuel : SMeasure mode (newMergeIterator cs) < fuel) :
    runOut mode size fuel (newMergeIterator cs) = inputSamples cs := by
  have hinv := newMergeIterator_inv mode hwf
  have hrm : removeFirstBatch mode (newMergeIterator cs) = newMergeIterator cs :=
    removeFirst_of_empty (newMergeIterator_batchLen mode cs)
  have hinpsort : StrictT (inputSamples cs) := by
    show StrictT ((cs.map GenericChunk.samples).flatten)
    refine flatten_samples_sorted ?_ hnov
    intro c hc
    exact ⟨(hwf c hc).2.1, fun s hs => ⟨((hwf c hc).2.2 s hs).1, ((hwf c hc).2.2 s hs).2.1⟩⟩
  have hszr : ∀ n ∈ List.replicate fuel size, n ≠ 0 := by
    intro n hn
    rw [List.eq_of_mem_replicate hn]
    exact hsz
  have hout : StrictT (runOut mode size fuel (newMergeIterator cs)) := by
    rw [runOut_eq_runOutS]
    exact (runOutS_spec _ _ hszr hinv).1
  have hmemsub : ∀ x ∈ runOut mode size fuel (newMergeIterator cs),
      x ∈ inputSamples cs := by
    intro x hx
    rw [runOut_eq_runOutS] at hx
    have hmm := runOutS_mem_sub _ _ hszr hinv x hx
    rw [hrm] at hmm
    rcases fresh_mem_input mode hwf x hmm with ⟨c, hc, hxc⟩
    exact List.mem_flatten.mpr ⟨c.samples, List.mem_map.mpr ⟨c, hc, rfl⟩, hxc⟩
  have htseq : tsOf (runOut mode size fuel (newMergeIterator cs)) =
      tsOf (inputSamples cs) := by
    refine sorted_lt_eq_of_mem (List.pairwise_map.mpr hout)
      (List.pairwise_map.mpr hinpsort) ?_
    intro u
    constructor
    · intro hu
      rcases tsOf_mem_iff.mp hu with ⟨x, hx, hxt⟩
      exact hxt ▸ tsOf_mem_iff.mpr ⟨x, hmemsub x hx, rfl⟩
    · intro hu
      rcases tsOf_mem_iff.mp hu with ⟨x, hx, hxt⟩
      rcases List.mem_flatten.mp hx with ⟨l, hl, hxl⟩
      rcases List.mem_map.mp hl with ⟨c, hc, rfl⟩
      have hmts := fresh_ts_complete mode hwf hnc c hc x hxl
      refine hxt ▸ runOut_complete hsz fuel (newMergeIterator cs) hinv ?_ x.t ?_
      · rw [hrm]
        exact hfuel
      · rw [hrm]
        exact hmts
  exact eq_of_tsOf_eq_of_sub htseq hmemsub hinpsort

theorem round_trip_witness :
    (2 ≠ 0) ∧ (∀ c ∈ c9Input, ChunkWf c) ∧
    c9Input.Pairwise (fun a b => a.MaxTime < b.MinTime) ∧
    (∀ c ∈ c9Input, c.corrupt = false) ∧
    SMeasure false (newMergeIterator c9Input) < 10 ∧
    runOut false 2 10 (newMergeIterator c9Input) = inputSamples c9Input :=
  ⟨by decide, by decide, by decide, by decide, by decide,
    round_trip false 2 10 c9Input (by decide) (by decide) (by decide) (by decide)
      (by decide)⟩

/-- C5 (amended): the dedup keeps exactly one sample per timestamp — output
timestamps are pairwise distinct — and every output sample is one of the
input samples bearing its timestamp, so when several partitions share a
timestamp exactly one of their samples survives.  The surviving sample is
chosen deterministically by the heap processing order; the counterexample
shows it is not always the first partition in partitioner order. -/
theorem dedup_unique_per_timestamp (mode : Bool) (cs : List GenericChunk)
    (sizes : List Nat) (hwf : ∀ c ∈ cs, ChunkWf c) (hsz : ∀ n ∈ sizes, n ≠ 0) :
    List.Pairwise (fun a b => a ≠ b)
      (tsOf (runOutS mode sizes (newMergeIterator cs))) ∧
    (∀ x ∈ runOutS mode sizes (newMergeIterator cs), ∃ c ∈ cs, x ∈ c.samples) := by
  have hinv := newMergeIterator_inv mode hwf
  have hrm : removeFirstBatch mode (newMergeIterator cs) = newMergeIterator cs :=
    removeFirst_of_empty (newMergeIterator_batchLen mode cs)
  constructor
  · have hsort := (runOutS_spec sizes (newMergeIterator cs) hsz hinv).1
    refine List.Pairwise.imp ?_ (List.pairwise_map.mpr hsort)
    intro a b hab
    omega
  · intro x hx
    have hmm := runOutS_mem_sub sizes (newMergeIterator cs) hsz hinv x hx
    rw [hrm] at hmm
    exact fresh_mem_input mode hwf x hmm

theorem dedup_unique_per_timestamp_witness :
    (∀ c ∈ c5Input, ChunkWf c) ∧ (∀ n ∈ [1, 1, 1, 1], n ≠ 0) ∧
    (List.Pairwise (fun a b => a ≠ b)
      (tsOf (runOutS false [1, 1, 1, 1] (newMergeIterator c5Input))) ∧
    (∀ x ∈ runOutS false [1, 1, 1, 1] (newMergeIterator c5Input),
      ∃ c ∈ c5Input, x ∈ c.samples)) :=
  ⟨by decide, by decide,
    dedup_unique_per_timestamp false c5Input [1, 1, 1, 1] (by decide) (by decide)⟩

/-! ## Error stickiness (claim C6) -/

theorem build_currErr (mode : Bool) (size : Nat) :
    ∀ (fuel : Nat) (s : MergeState),
      (buildNextBatch mode size fuel s).2.currErr = s.currErr := by
  intro fuel
  induction fuel with
  | zero => intro s; rw [show buildNextBatch mode size 0 s = finishBuild mode s from rfl,
      finishBuild_state]
  | succ m ih =>
    intro s
    by_cases hc : buildLoopCond mode s = true
    · rw [show buildNextBatch mode size (m + 1) s =
          buildNextBatch mode size m (stepMerge mode size s) by simp [buildNextBatch, hc]]
      rw [ih, stepMerge_currErr]
    · rw [Bool.not_eq_true] at hc
      rw [buildNextBatch_of_cond_false hc, finishBuild_state]

theorem mNext_currErr (mode : Bool) (size : Nat) (s : MergeState) :
    (mNext mode size s).2.currErr = s.currErr := by
  rw [mNext_eq, build_currErr, removeFirst_currErr]

theorem setCurrIndex_currErr (mode : Bool) (s : MergeState) (idx : Nat) :
    (setCurrIndex mode s idx).currErr = s.currErr := by
  obtain ⟨its, hh, bs, mbs, e⟩ := s
  unfold setCurrIndex
  cases mode
  · cases bs <;> rfl
  · cases mbs <;> rfl

theorem seekDropLoop_currErr (mode : Bool) (t : Int) :
    ∀ (fuel : Nat) (s : MergeState),
      (seekDropLoop mode t fuel s).1.currErr = s.currErr := by
  intro fuel
  induction fuel with
  | zero => intro s; rfl
  | succ m ih =>
    intro s
    simp only [seekDropLoop]
    split
    · rfl
    · split
      · exact setCurrIndex_currErr mode s _
      · rw [ih, removeFirst_currErr]

theorem seekChildrenFrom_currErr_mono (t : Int) (size : Nat) :
    ∀ (fuel i : Nat) (s : MergeState), s.currErr = true →
      (seekChildrenFrom t size fuel i s).1.currErr = true := by
  intro fuel
  induction fuel with
  | zero => intro i s he; exact he
  | succ m ih =>
    intro i s he
    simp only [seekChildrenFrom]
    split
    · split
      · split
        · rfl
        · exact ih _ _ he
      · exact ih _ _ he
    · exact he

theorem mSeek_currErr_mono (mode : Bool) (t : Int) (size : Nat) (s : MergeState)
    (he : s.currErr = true) : (mSeek mode t size s).2.currErr = true := by
  simp only [mSeek]
  split
  · rw [build_currErr, seekDropLoop_currErr]
    exact he
  · have hd : (seekDropLoop mode t (batchLen mode s) s).1.currErr = true := by
      rw [seekDropLoop_currErr]
      exact he
    split
    · exact seekChildrenFrom_currErr_mono t size _ _ _ hd
    · rw [build_currErr]
      exact seekChildrenFrom_currErr_mono t size _ _ _ hd

/-- C6 (amended): a recorded decode error is sticky — `Next` leaves the
recorded error exactly unchanged, and `Seek` never clears a recorded error —
so `Err()` keeps returning it for the remainder of the generation.  But the
claim's second half is false: a recorded error does not halt progress —
`Next` can keep emitting values after the error is recorded (see the
counterexample). -/
theorem err_sticky (mode : Bool) (size : Nat) (t : Int) (s : MergeState) :
    (mNext mode size s).2.currErr = s.currErr ∧
    (s.currErr = true → (mSeek mode t size s).2.currErr = true) :=
  ⟨mNext_currErr mode size s, mSeek_currErr_mono mode t size s⟩

theorem err_sticky_witness :
    ((mNext false 2 (newMergeIterator c6Input)).2.currErr =
      (newMergeIterator c6Input).currErr ∧
    ((newMergeIterator c6Input).currErr = true →
      (mSeek false 0 2 (newMergeIterator c6Input)).2.currErr = true)) ∧
    (newMergeIterator c6Input).currErr = true ∧
    (mSeek false 0 2 (newMergeIterator c6Input)).2.currErr = true :=
  ⟨err_sticky false 2 0 (newMergeIterator c6Input), by decide,
    (err_sticky false 2 0 (newMergeIterator c6Input)).2 (by decide)⟩

/-! ## Strategy equivalence under a fixed toggle (claim C7) -/

theorem swap_swap (s : MergeState) : swapState (swapState s) = s := rfl

theorem stepMerge_swap (size : Nat) (s : MergeState) :
    stepMerge true size s = swapState (stepMerge false size (swapState s)) := rfl

theorem finishBuild_swap (s : MergeState) :
    finishBuild true s = ((finishBuild false (swapState s)).1,
      swapState (finishBuild false (swapState s)).2) := by
  obtain ⟨its, hh, bs, mbs, e⟩ := s
  cases mbs <;> rfl

theorem build_swap (size : Nat) :
    ∀ (fuel : Nat) (s : MergeState),
      buildNextBatch true size fuel s =
        ((buildNextBatch false size fuel (swapState s)).1,
          swapState (buildNextBatch false size fuel (swapState s)).2) := by
  intro fuel
  induction fuel with
  | zero => intro s; exact finishBuild_swap s
  | succ m ih =>
    intro s
    by_cases hc : buildLoopCond true s = true
    · have hc2 : buildLoopCond false (swapState s) = true := hc
      rw [show buildNextBatch true size (m + 1) s =
          buildNextBatch true size m (stepMerge true size s) by simp [buildNextBatch, hc]]
      rw [show buildNextBatch false size (m + 1) (swapState s) =
          buildNextBatch false size m (stepMerge false size (swapState s)) by
            simp [buildNextBatch, hc2]]
      rw [ih (stepMerge true size s)]
      rw [show swapState (stepMerge true size s) =
          stepMerge false size (swapState s) by rw [stepMerge_swap]; exact swap_swap _]
    · rw [Bool.not_eq_true] at hc
      have hc2 : buildLoopCond false (swapState s) = false := hc
      rw [buildNextBatch_of_cond_false hc, buildNextBatch_of_cond_false hc2,
        finishBuild_swap]

theorem removeFirst_swap (s : MergeState) :
    removeFirstBatch true s = swapState (removeFirstBatch false (swapState s)) := rfl

theorem mNext_swap (size : Nat) (s : MergeState) :
    mNext true size s = ((mNext false size (swapState s)).1,
      swapState (mNext false size (swapState s)).2) := by
  unfold mNext
  by_cases h0 : 0 < batchLen true s
  · have h02 : 0 < batchLen false (swapState s) := h0
    rw [if_pos h0, if_pos h02, build_swap]
    rw [show swapState (removeFirstBatch true s) =
        removeFirstBatch false (swapState s) by rw [removeFirst_swap]; exact swap_swap _]
    rfl
  · have h02 : ¬ 0 < batchLen false (swapState s) := h0
    rw [if_neg h0, if_neg h02, build_swap]
    rfl

theorem mNext_swap_fst (size : Nat) (s : MergeState) :
    (mNext true size s).1 = (mNext false size (swapState s)).1 := by
  rw [mNext_swap]

theorem mNext_swap_snd (size : Nat) (s : MergeState) :
    (mNext true size s).2 = swapState (mNext false size (swapState s)).2 := by
  rw [mNext_swap]

theorem currBatchQ_swap (s : MergeState) :
    currBatchQ true s = currBatchQ false (swapState s) := rfl

theorem runOutS_swap :
    ∀ (sizes : List Nat) (s : MergeState),
      runOutS true sizes s = runOutS false sizes (swapState s) := by
  intro sizes
  induction sizes with
  | nil => intro s; rfl
  | cons size rest ih =>
    intro s
    simp only [runOutS]
    rw [mNext_swap_fst]
    by_cases hv : (mNext false size (swapState s)).1 = ValueType.none
    · rw [if_pos hv, if_pos hv]
    · rw [if_neg hv, if_neg hv]
      congr 1
      · rw [show currBatchQ true (mNext true size s).2 =
            currBatchQ false (mNext false size (swapState s)).2 by
              rw [mNext_swap_snd, currBatchQ_swap, swap_swap]]
      · rw [ih (mNext true size s).2, mNext_swap_snd, swap_swap]

/-- C7 (amended): with the toggle held fixed across the run, the two
buffering strategies are observably equivalent from construction — for
every input and every `Next(size)` schedule, the optimized
mergeable-batch-stream path emits exactly the samples the legacy path
emits.  The claim's second half is false: the strategy choice is NOT fixed
at construction — every call reloads the live process-wide toggle, and
flipping it mid-run is observable (see the counterexample). -/
theorem strategy_equivalence (sizes : List Nat) (cs : List GenericChunk) :
    runOutS true sizes (newMergeIterator cs) =
      runOutS false sizes (newMergeIterator cs) := by
  rw [runOutS_swap]
  rw [show swapState (newMergeIterator cs) = newMergeIterator cs from rfl]

/-! ## Counterexamples found against claims C2, C5, C6, C7 -/

/-- C2 counterexample: on the fast path, `Seek(15)` reports a value but
`AtTime` yields 10 — the start of the buffered batch — although the smallest
input timestamp `≥ 15` is 20. -/
theorem seek_atTime_counterexample :
    (mSeek false 15 2 ((mSeek false 5 2 (newMergeIterator c2Input)).2)).1 =
      ValueType.float ∧
    mAtTime false (mSeek false 15 2 ((mSeek false 5 2 (newMergeIterator c2Input)).2)).2 =
      some 10 ∧
    (∀ c ∈ c2Input, ∀ x ∈ c.samples, 15 ≤ x.t → 20 ≤ x.t) ∧
    ((10 : Int) < 15) := by
  decide

/-- C5 counterexample: partition 0 (`c5A`) also carries timestamp 100, yet
the sample that survives deduplication at 100 is partition 1's (`c5B`,
payload 20) — the heap's tie-handling processes partition 1's batch first, so
"first by the Partitioner's partition order" does not hold. -/
theorem dedup_partition_order_counterexample :
    partitionChunks c5Input = [[c5A], [c5B]] ∧
    (⟨100, ValueType.float, 10⟩ : Sample) ∈ c5A.samples ∧
    runOut false 1 10 (newMergeIterator c5Input) =
      [⟨2, ValueType.float, 0⟩, ⟨3, ValueType.float, 0⟩, ⟨100, ValueType.float, 20⟩] := by
  decide

/-- C6 counterexample: construction records the corrupt partition's decode
error, yet the very next `Next` still returns a value and hands out samples —
progress is not halted by the sticky error. -/
theorem err_progress_counterexample :
    mErr (newMergeIterator c6Input) = true ∧
    (mNext false 2 (newMergeIterator c6Input)).1 = ValueType.float ∧
    mErr (mNext false 2 (newMergeIterator c6Input)).2 = true ∧
    (mBatch false (mNext false 2 (newMergeIterator c6Input)).2).map
      (fun b => tsOf b.samples) = some [1] := by
  decide

/-- C7 counterexample: after one legacy-mode `Next`, observing the same
iterator state under the two live toggle values gives different results —
the strategy is read from the process-wide toggle at each call, not fixed at
construction. -/
theorem toggle_live_counterexample :
    (mNext false 1 (newMergeIterator c7Input)).1 = ValueType.float ∧
    mAtTime false (mNext false 1 (newMergeIterator c7Input)).2 = some 1 ∧
    mAtTime true (mNext false 1 (newMergeIterator c7Input)).2 = Option.none := by
  decide

end MimirBatch
